import Mathlib

/-!
Verification of the NSD qp-trie core (src/qp-trie.c, src/qp-bits.h).

The embedding models the data structure at the level of its logical
node graph: a branch node carries its key offset, its bitmap word and
its twig vector (the vector that in C lives in a page and is addressed
through a qp_ref); a leaf carries the value pointer (a Nat, 0 encoding
NULL) and the domain name recovered through leafname.  Machine-level
facts that the trie operations observe (NULL dereferences, assertion
failures) are modelled by Option results.  The page allocator and the
garbage collector are modelled separately, page by page, further down.

Domain names (dname_type) are iterated by dname_label starting at
label 1, i.e. skipping the root label and proceeding from the label
closest to the root towards the leftmost label.  A name is modelled as
that list of labels, each label being its list of bytes.
-/

namespace Qp

/-- Bit positions reserved by the node encoding (qp-bits.h). -/
def SHIFT_BRANCH : Nat := 0

/-- SHIFT_NOBYTE: the label separator, which has no byte value. -/
def SHIFT_NOBYTE : Nat := 1

/-- The key byte offset field starts at bit 48 of the 64-bit node word. -/
def SHIFT_OFFSET : Nat := 48

/-- byte_to_bits from qp-bits.h: maps a byte of a DNS name to one bit
position (low 8 bits) plus an optional second, escape bit position
(high 8 bits, emitted when non-zero). -/
def byte_to_bits : List Nat := [
  0x0202, 0x0302, 0x0402, 0x0502, 0x0602, 0x0702, 0x0802, 0x0902,
  0x0a02, 0x0b02, 0x0c02, 0x0d02, 0x0e02, 0x0f02, 0x1002, 0x1102,
  0x1202, 0x1302, 0x1402, 0x1502, 0x1602, 0x1702, 0x1802, 0x1902,
  0x1a02, 0x1b02, 0x1c02, 0x1d02, 0x1e02, 0x1f02, 0x2002, 0x2102,
  0x2202, 0x2302, 0x2402, 0x2502, 0x2602, 0x2702, 0x2802, 0x2902,
  0x2a02, 0x2b02, 0x2c02, 0x2d02, 0x2e02, 0x03, 0x04, 0x05,
  0x06, 0x07, 0x08, 0x09, 0x0a, 0x0b, 0x0c, 0x0d,
  0x0e, 0x0f, 0x0210, 0x0310, 0x0410, 0x0510, 0x0610, 0x0710,
  0x0810, 0x13, 0x14, 0x15, 0x16, 0x17, 0x18, 0x19,
  0x1a, 0x1b, 0x1c, 0x1d, 0x1e, 0x1f, 0x20, 0x21,
  0x22, 0x23, 0x24, 0x25, 0x26, 0x27, 0x28, 0x29,
  0x2a, 0x2b, 0x2c, 0x0910, 0x0a10, 0x0b10, 0x0c10, 0x11,
  0x12, 0x13, 0x14, 0x15, 0x16, 0x17, 0x18, 0x19,
  0x1a, 0x1b, 0x1c, 0x1d, 0x1e, 0x1f, 0x20, 0x21,
  0x22, 0x23, 0x24, 0x25, 0x26, 0x27, 0x28, 0x29,
  0x2a, 0x2b, 0x2c, 0x022d, 0x032d, 0x042d, 0x052d, 0x062d,
  0x072d, 0x082d, 0x092d, 0x0a2d, 0x0b2d, 0x0c2d, 0x0d2d, 0x0e2d,
  0x0f2d, 0x102d, 0x112d, 0x122d, 0x132d, 0x142d, 0x152d, 0x162d,
  0x172d, 0x182d, 0x192d, 0x1a2d, 0x1b2d, 0x1c2d, 0x1d2d, 0x1e2d,
  0x1f2d, 0x202d, 0x212d, 0x222d, 0x232d, 0x242d, 0x252d, 0x262d,
  0x272d, 0x282d, 0x292d, 0x2a2d, 0x2b2d, 0x2c2d, 0x2d2d, 0x2e2d,
  0x2f2d, 0x022e, 0x032e, 0x042e, 0x052e, 0x062e, 0x072e, 0x082e,
  0x092e, 0x0a2e, 0x0b2e, 0x0c2e, 0x0d2e, 0x0e2e, 0x0f2e, 0x102e,
  0x112e, 0x122e, 0x132e, 0x142e, 0x152e, 0x162e, 0x172e, 0x182e,
  0x192e, 0x1a2e, 0x1b2e, 0x1c2e, 0x1d2e, 0x1e2e, 0x1f2e, 0x202e,
  0x212e, 0x222e, 0x232e, 0x242e, 0x252e, 0x262e, 0x272e, 0x282e,
  0x292e, 0x2a2e, 0x2b2e, 0x2c2e, 0x2d2e, 0x2e2e, 0x2f2e, 0x022f,
  0x032f, 0x042f, 0x052f, 0x062f, 0x072f, 0x082f, 0x092f, 0x0a2f,
  0x0b2f, 0x0c2f, 0x0d2f, 0x0e2f, 0x0f2f, 0x102f, 0x112f, 0x122f,
  0x132f, 0x142f, 0x152f, 0x162f, 0x172f, 0x182f, 0x192f, 0x1a2f,
  0x1b2f, 0x1c2f, 0x1d2f, 0x1e2f, 0x1f2f, 0x202f, 0x212f, 0x222f,
  0x232f, 0x242f, 0x252f, 0x262f, 0x272f, 0x282f, 0x292f, 0x2a2f]

/-- One label of a domain name: its bytes, in order. -/
abbrev Label := List Nat

/-- A domain name as iterated by dname_to_key: the labels from
dname_label(dname, 1) up to label_count - 1, i.e. the root label is
skipped and the label closest to the root comes first. -/
abbrev Dname := List Label

/-- The table entry of one byte. -/
def tableEntry (b : Nat) : Nat := byte_to_bits.getD b 0

/-- The one or two shifts emitted for one byte by the inner loop of
dname_to_key: key gets bits AND 0xFF, then bits SHR 8 when that is
non-zero. -/
def encByte (b : Nat) : List Nat :=
  (tableEntry b) % 256 :: (if (tableEntry b) >>> 8 ≠ 0 then [(tableEntry b) >>> 8] else [])

/-- The shifts emitted for the bytes of one label. -/
def encLabel (l : Label) : List Nat := l.flatMap encByte

/-- dname_to_key from qp-trie.c: for each label its byte shifts
followed by one SHIFT_NOBYTE.  The C function returns the length off
of this list and additionally writes a terminating SHIFT_NOBYTE at
key[off] (the double NOBYTE terminator). -/
def dname_to_key (d : Dname) : List Nat :=
  d.flatMap (fun l => encLabel l ++ [SHIFT_NOBYTE])

/-- Reading the key array of a name at position i.  Positions beyond
the produced length behave as SHIFT_NOBYTE: position len holds the
written terminator, and twigbit substitutes SHIFT_NOBYTE whenever the
node offset is at or beyond the key length. -/
def kAt (d : Dname) (i : Nat) : Nat := (dname_to_key d).getD i SHIFT_NOBYTE

/-- Case folding done by the byte_to_bits table (uppercase letters get
the same entry as lowercase ones). -/
def foldByte (b : Nat) : Nat := if 0x41 ≤ b ∧ b ≤ 0x5a then b + 0x20 else b

/-- A whole name, case folded. -/
def foldName (d : Dname) : Dname := d.map (fun l => l.map foldByte)

/-- Modelled from the spec: dname_equal lives in dname.h, which is not
part of the sources here.  The spec states that equality of embedded
names is decided by the embedder comparator and that the translation
table realizes the canonical case folding for it, so dname_equal is
modelled as equality of case-folded names. -/
def dnameEq (a b : Dname) : Bool := foldName a == foldName b

/-- A well-formed wire domain name: every label is non-empty, at most
63 bytes, made of bytes, and the total wire size (length octet per
label plus the root label octet) is at most 255. -/
abbrev validD (d : Dname) : Prop :=
  (∀ l ∈ d, l ≠ [] ∧ l.length ≤ 63 ∧ ∀ b ∈ l, b < 256) ∧
  (d.foldr (fun l acc => acc + l.length + 1) 1 ≤ 255)

/-- Population count, bit by bit, with a structural fuel: the number
itself bounds the number of halvings. -/
def popcntGo : Nat → Nat → Nat
  | 0, _ => 0
  | fuel + 1, n => if n = 0 then 0 else popcntGo fuel (n / 2) + n % 2

/-- Population count of a Nat (the role of popcount on the masked
bitmap word in qp-bits.h). -/
def popcnt (n : Nat) : Nat := popcntGo n n

/-- The positions of the set bits of a Nat, in increasing order. -/
def bitsOf (n : Nat) : List Nat :=
  if h : n = 0 then []
  else (if n % 2 = 1 then [0] else []) ++ (bitsOf (n / 2)).map (· + 1)
decreasing_by exact Nat.div_lt_self (Nat.pos_of_ne_zero h) (by omega)

/-- A qp-trie node.  nullLeaf is the all-zero node (a leaf whose value
pointer is NULL): the root of an empty trie.  A branch holds its key
offset, the bitmap part of its 64-bit word and, in place of the qp_ref
into the page array, the twig vector itself. -/
inductive QpNode : Type where
  | nullLeaf : QpNode
  | leaf (val : Nat) (name : Dname) : QpNode
  | branch (off : Nat) (bmp : Nat) (twigs : List QpNode) : QpNode

/-- The isbranch tag test. -/
def isbranch : QpNode → Bool
  | .branch _ _ _ => true
  | _ => false

/-- leafval: the value pointer of a leaf (0 is NULL). -/
def leafval : QpNode → Nat
  | .leaf v _ => v
  | _ => 0

/-- leafname: reading the dname back through the pointer stored inside
the value.  On the all-zero node the C code would dereference address
0 + 0; that undefined behaviour is none. -/
def leafnameO : QpNode → Option Dname
  | .leaf _ d => some d
  | _ => none

/-- hastwig: bit test on the bitmap. -/
def hastwig (bmp bit : Nat) : Bool := bmp.testBit bit

/-- twigpos/bmpcount: the rank of a bit inside the bitmap, i.e. the
popcount of the bitmap bits below it.  (The C masks the whole 64-bit
word with (1 SHL bit) - 1 - BRANCH_TAG; here bmp is the bitmap alone,
with bit 0 clear, so the plain mod-mask is the same number.) -/
def twigpos (bmp bit : Nat) : Nat := popcnt (bmp % 2 ^ bit)

/-- twigmax: the number of twigs, the popcount of the bitmap below the
offset field. -/
def twigmax (bmp : Nat) : Nat := popcnt (bmp % 2 ^ SHIFT_OFFSET)

/-- twig(qp, n, i): the i-th entry of the twig vector.  Reading past
the vector is indeterminate in C; the model yields the zero node. -/
def twigGet (ts : List QpNode) (i : Nat) : QpNode := ts.getD i .nullLeaf

theorem sizeOf_twigGet_lt (ts : List QpNode) (i off bmp : Nat) :
    sizeOf (twigGet ts i) < sizeOf (QpNode.branch off bmp ts) := by
  induction ts generalizing i with
  | nil => simp [twigGet, List.getD]
  | cons x xs ih =>
    cases i with
    | zero => simp [twigGet, List.getD]; omega
    | succ j =>
      have h := ih j
      simp only [twigGet, List.getD, List.get?_cons_succ] at h ⊢
      simp only [QpNode.branch.sizeOf_spec, List.cons.sizeOf_spec] at h ⊢
      omega

/-- qp_get: descend by twigbit/twigpos while on a branch, then compare
the leaf name; NULL value or a name mismatch yields NULL. -/
def qp_get (d : Dname) : QpNode → Option Nat
  | .nullLeaf => none
  | .leaf v nm => if v ≠ 0 ∧ dnameEq d nm then some v else none
  | .branch off bmp ts =>
    if hastwig bmp (kAt d off) then
      qp_get d (twigGet ts (twigpos bmp (kAt d off)))
    else
      none
termination_by n => sizeOf n
decreasing_by exact sizeOf_twigGet_lt ..

/-- last_leaf: step to the last twig while on a branch. -/
def last_leaf : QpNode → QpNode
  | .branch _ bmp ts => last_leaf (twigGet ts (twigmax bmp - 1))
  | n => n
termination_by n => sizeOf n
decreasing_by exact sizeOf_twigGet_lt ..

/-- first_leaf: step to twig 0 while on a branch. -/
def first_leaf : QpNode → QpNode
  | .branch _ _ ts => first_leaf (twigGet ts 0)
  | n => n
termination_by n => sizeOf n
decreasing_by exact sizeOf_twigGet_lt ..

theorem sizeOf_mem_lt {x : QpNode} {ts : List QpNode} (h : x ∈ ts) (off bmp : Nat) :
    sizeOf x < sizeOf (QpNode.branch off bmp ts) := by
  have h2 := List.sizeOf_lt_of_mem h
  simp only [QpNode.branch.sizeOf_spec]
  omega

theorem sizeOf_branch_twig_lt {ts : List QpNode} {pos off2 bmp2 : Nat} {ts2 : List QpNode}
    (h : twigGet ts pos = .branch off2 bmp2 ts2) : sizeOf ts2 < sizeOf ts := by
  by_cases hp : pos < ts.length
  · have hmem : twigGet ts pos ∈ ts := by
      simp only [twigGet, List.getD_eq_getElem?_getD, List.getElem?_eq_getElem hp]
      exact List.getElem_mem hp
    rw [h] at hmem
    have h2 := List.sizeOf_lt_of_mem hmem
    simp only [QpNode.branch.sizeOf_spec] at h2
    omega
  · exfalso
    have : twigGet ts pos = .nullLeaf := by
      simp only [twigGet, List.getD_eq_getElem?_getD, List.getElem?_eq_none (Nat.le_of_not_lt hp)]
      rfl
    rw [h] at this
    exact QpNode.noConfusion this

/-- The leaves of a subtree in twig order, as (name through leafname,
value) pairs. -/
def leavesList : QpNode → List (Dname × Nat)
  | .nullLeaf => []
  | .leaf v nm => [(nm, v)]
  | .branch _ _ ts => ts.attach.flatMap (fun x => leavesList x.1)
termination_by n => sizeOf n
decreasing_by exact sizeOf_mem_lt x.2 ..

/-- The names of the leaves of a subtree, in twig order. -/
def namesOf (t : QpNode) : List Dname := (leavesList t).map (·.1)

/-- foreach from qp-trie.c, as the list of values passed to the
visitor: branches are visited twig 0 up to twigmax, a leaf passes its
value when it is not NULL. -/
def qp_foreach : QpNode → List Nat
  | .nullLeaf => []
  | .leaf v _ => if v ≠ 0 then [v] else []
  | .branch _ bmp ts =>
    (List.range (twigmax bmp)).attach.flatMap (fun i => qp_foreach (twigGet ts i.1))
termination_by n => sizeOf n
decreasing_by exact sizeOf_twigGet_lt ..

/-- The loop body of qp_del below the root: descend while the twig for
the key is present; at the final twig either miss (no change), or
delete the leaf from its parent branch, collapsing a 2-twig branch
into the sibling twig, or copying the vector without the deleted twig
and clearing its bitmap bit.  The Bool reports whether a leaf was
removed; none is the NULL dereference of leafname on the zero node. -/
def qp_del_go (d : Dname) (off bmp : Nat) (ts : List QpNode) : Option (QpNode × Bool) :=
  if hastwig bmp (kAt d off) = false then some (.branch off bmp ts, false)
  else
    match h : twigGet ts (twigpos bmp (kAt d off)) with
    | .branch off2 bmp2 ts2 =>
      match qp_del_go d off2 bmp2 ts2 with
      | none => none
      | some (sub, deleted) =>
        some (.branch off bmp (ts.set (twigpos bmp (kAt d off)) sub), deleted)
    | n2 =>
      match leafnameO n2 with
      | none => none
      | some nm =>
        if dnameEq d nm = false then some (.branch off bmp ts, false)
        else if twigmax bmp = 2 then
          some (twigGet ts (if twigpos bmp (kAt d off) = 0 then 1 else 0), true)
        else
          some (.branch off (bmp - 2 ^ (kAt d off)) (ts.eraseIdx (twigpos bmp (kAt d off))), true)
termination_by sizeOf ts
decreasing_by exact sizeOf_branch_twig_lt h

/-- qp_del on the root node and leaf counter.  The bitmap clearing
node64(n) AND NOT (W1 SHL bit) is bmp - 2 ^ bit since the bit is set;
the shrunk vector is the old one without position pos, exactly as the
two memcpy calls build it.  none models the NULL dereference that
leafname performs on the all-zero root of an empty trie. -/
def qp_del (root : QpNode) (cnt : Nat) (d : Dname) : Option (QpNode × Nat) :=
  match root with
  | .branch off bmp ts =>
    match qp_del_go d off bmp ts with
    | none => none
    | some (r, deleted) => some (r, if deleted then cnt - 1 else cnt)
  | n =>
    match leafnameO n with
    | none => none
    | some nm => if dnameEq d nm then some (.nullLeaf, cnt - 1) else some (root, cnt)

/-- The first descent of qp_add: keep searching down to a leaf even if
the key is missing from a branch, choosing twig 0 in that case. -/
def descendAny (d : Dname) : QpNode → QpNode
  | .branch off bmp ts =>
    descendAny d (twigGet ts (if hastwig bmp (kAt d off) then twigpos bmp (kAt d off) else 0))
  | n => n
termination_by n => sizeOf n
decreasing_by exact sizeOf_twigGet_lt ..

/-- The divergence loop of qp_add and qp_find_le: the first off with
off at most the key length of the first name where the two key arrays
differ (the array cell at the key length holds the NOBYTE
terminator). -/
def divergeOff (d1 d2 : Dname) : Option Nat :=
  (List.range ((dname_to_key d1).length + 1)).find? (fun off => kAt d1 off != kAt d2 off)

/-- When the divergence loop finds no difference it leaves off at one
past the key length. -/
def divergeC (d1 d2 : Dname) : Nat :=
  (divergeOff d1 d2).getD ((dname_to_key d1).length + 1)

/-- prev/next neighbor tracking during the second descent of qp_add:
pointers to the twigs just left and right of the descent path. -/
structure PN where
  prev : Option QpNode
  next : Option QpNode

/-- prev_next_step: record the adjacent twigs of this branch.  (The
branches involved always have at least 2 twigs, so the unsigned
comparison pos < max - 1 is pos + 1 < max.) -/
def prev_next_step (pn : PN) (ts : List QpNode) (pos mx : Nat) : PN :=
  { prev := if 0 < pos then some (twigGet ts (pos - 1)) else pn.prev,
    next := if pos + 1 < mx then some (twigGet ts (pos + 1)) else pn.next }

/-- prev_next_leaves: walk prev down to its last leaf and next down to
its first leaf and take their values. -/
def prev_next_leaves (pn : PN) : Option Nat × Option Nat :=
  (pn.prev.map (fun p => leafval (last_leaf p)),
   pn.next.map (fun q => leafval (first_leaf q)))

/-- The newbranch arm of qp_add: a fresh 2-twig vector holding the new
leaf and the displaced node in bitmap order, the bitmap with the two
bits, the offset at the divergence point. -/
def mkNewBranch (off newb oldb : Nat) (newn oldn : QpNode) (pn : PN) : QpNode × PN :=
  if newb < oldb then
    (.branch off ((2 ^ newb) ||| (2 ^ oldb)) [newn, oldn], { pn with next := some oldn })
  else
    (.branch off ((2 ^ newb) ||| (2 ^ oldb)) [oldn, newn], { pn with prev := some oldn })

/-- The second descent of qp_add: find where to insert a new branch
(off before this offset) or grow an existing branch (off equal),
recording adjacent twigs along the way.  none models the assertion
failures assert(hastwig) and assert(not hastwig newb). -/
def addWalk (d : Dname) (off : Nat) (newn : QpNode) (newb oldb : Nat)
    (n : QpNode) (pn : PN) : Option (QpNode × PN) :=
  match n with
  | .branch o bmp ts =>
    if off < o then some (mkNewBranch off newb oldb newn (.branch o bmp ts) pn)
    else if off = o then
      if hastwig bmp newb then none
      else
        some (.branch o (bmp ||| 2 ^ newb) (ts.insertIdx (twigpos bmp newb) newn),
          prev_next_step pn (ts.insertIdx (twigpos bmp newb) newn)
            (twigpos bmp newb) (twigmax bmp + 1))
    else
      if hastwig bmp (kAt d o) then
        match addWalk d off newn newb oldb (twigGet ts (twigpos bmp (kAt d o)))
            (prev_next_step pn ts (twigpos bmp (kAt d o)) (twigmax bmp)) with
        | none => none
        | some (sub, pn3) => some (.branch o bmp (ts.set (twigpos bmp (kAt d o)) sub), pn3)
      else none
  | n0 => some (mkNewBranch off newb oldb newn n0 pn)
termination_by sizeOf n
decreasing_by exact sizeOf_twigGet_lt ..

/-- qp_add on the root node and leaf counter: install the leaf
directly in an empty trie, otherwise descend to any leaf, find the key
divergence, and run the second descent; the neighbors are turned into
values at the end.  none models the assertion against adding an
existing dname and the assertions inside the walk. -/
def qp_add (root : QpNode) (cnt val : Nat) (d : Dname) :
    Option (QpNode × Nat × (Option Nat × Option Nat)) :=
  if cnt = 0 then some (.leaf val d, 1, (none, none))
  else
    match leafnameO (descendAny d root) with
    | none => none
    | some nm =>
      match divergeOff d nm with
      | none => none
      | some off =>
        match addWalk d off (.leaf val d) (kAt d off) (kAt nm off)
            root { prev := none, next := none } with
        | none => none
        | some (r2, pn) => some (r2, cnt + 1, prev_next_leaves pn)

/-- The first descent of qp_find_le, identical to the qp_get loop but
stopping at the branch whose twig for the key is missing. -/
def findGoA (d : Dname) : QpNode → QpNode
  | .branch off bmp ts =>
    if hastwig bmp (kAt d off) then findGoA d (twigGet ts (twigpos bmp (kAt d off)))
    else .branch off bmp ts
  | n => n
termination_by n => sizeOf n
decreasing_by exact sizeOf_twigGet_lt ..

/-- The second walk of qp_find_le: stop where the divergence offset
meets the branch offsets, tracking the twig just left of the path.
The outer none models the assert(hastwig); the inner Option is the
node whose last leaf is the predecessor (none when the search key is
before everything). -/
def findGoB (d fnd : Dname) (off : Nat) (n : QpNode) (p : Option QpNode) :
    Option (Option QpNode) :=
  match n with
  | .branch o bmp ts =>
    if off < o then
      some (if kAt fnd off < kAt d off then some (.branch o bmp ts) else p)
    else
      if off = o then
        some (if 0 < twigpos bmp (kAt d o) then
          some (twigGet ts (twigpos bmp (kAt d o) - 1)) else p)
      else
        if hastwig bmp (kAt d o) then
          findGoB d fnd off (twigGet ts (twigpos bmp (kAt d o)))
            (if 0 < twigpos bmp (kAt d o) then
              some (twigGet ts (twigpos bmp (kAt d o) - 1)) else p)
        else none
  | n0 => some (if kAt fnd off < kAt d off then some n0 else p)
termination_by sizeOf n
decreasing_by exact sizeOf_twigGet_lt ..

/-- The inexact path of qp_find_le: locate the first leaf under the
stop node, compute the divergence offset against its key, and rerun
the descent with findGoB. -/
def qp_find_inexact (root : QpNode) (d : Dname) (n : QpNode) : Option (Bool × Option Nat) :=
  match leafnameO (first_leaf n) with
  | none => none
  | some fnd =>
    match findGoB d fnd (divergeC d fnd) root none with
    | none => none
    | some none => some (false, none)
    | some (some pnode) => some (false, some (leafval (last_leaf pnode)))

/-- qp_find_le: exact descent first; an exact name match returns
(1, value), the all-zero root returns (0, NULL), anything else goes
through the inexact path. -/
def qp_find_le (root : QpNode) (d : Dname) : Option (Bool × Option Nat) :=
  match findGoA d root with
  | .branch o bmp ts => qp_find_inexact root d (.branch o bmp ts)
  | .nullLeaf => some (false, none)
  | .leaf v nm =>
    if v = 0 then some (false, none)
    else if dnameEq d nm then some (true, some v)
    else qp_find_inexact root d (.leaf v nm)

/-! ### Facts about the translation table, checked by evaluation -/

/-- The numeric code of the one or two shifts of a byte: first shift
times 64 plus the second shift (0 when absent).  Lexicographic order
of the emitted shift sequences is comparison of these codes. -/
def byteCode (b : Nat) : Nat := (tableEntry b % 256) * 64 + (tableEntry b >>> 8)

set_option maxRecDepth 4096 in
/-- Every emitted shift is a bitmap position: at least 2 (above the
tag and NOBYTE) and below 48 (the offset field). -/
theorem table_low_range : ∀ b < 256, 2 ≤ tableEntry b % 256 ∧ tableEntry b % 256 < 48 := by
  decide

set_option maxRecDepth 4096 in
/-- The second (escape) shift, when present, is also in [2, 48). -/
theorem table_high_range :
    ∀ b < 256, tableEntry b >>> 8 = 0 ∨ (2 ≤ tableEntry b >>> 8 ∧ tableEntry b >>> 8 < 48) := by
  decide

set_option maxRecDepth 4096 in
/-- The table folds case: an uppercase byte gets the same entry as its
lowercase counterpart. -/
theorem table_fold : ∀ b < 256, tableEntry b = tableEntry (foldByte b) := by
  decide

set_option maxRecDepth 4096 in
/-- First shifts separate the classes: a byte that expands to two
shifts starts with one of the escape shifts 2, 16, 45, 46, 47, and a
byte that emits a single shift never starts with one of those. -/
theorem table_classes :
    ∀ b < 256,
      (tableEntry b >>> 8 ≠ 0 →
        tableEntry b % 256 = 2 ∨ tableEntry b % 256 = 16 ∨ tableEntry b % 256 = 45 ∨
        tableEntry b % 256 = 46 ∨ tableEntry b % 256 = 47) ∧
      (tableEntry b >>> 8 = 0 →
        ¬(tableEntry b % 256 = 2 ∨ tableEntry b % 256 = 16 ∨ tableEntry b % 256 = 45 ∨
          tableEntry b % 256 = 46 ∨ tableEntry b % 256 = 47)) := by
  decide

/-- Boolean strict ascending chain check on a list of numbers. -/
def ascChain : List Nat → Bool
  | [] => true
  | [_] => true
  | a :: b :: rest => a < b && ascChain (b :: rest)

theorem ascChain_pairwise : ∀ {l : List Nat}, ascChain l = true → l.Pairwise (· < ·)
  | [], _ => List.Pairwise.nil
  | [_], _ => by simp
  | a :: b :: rest, h => by
    simp only [ascChain, Bool.and_eq_true, decide_eq_true_eq] at h
    have htail := ascChain_pairwise h.2
    refine List.Pairwise.cons ?_ htail
    intro x hx
    rcases List.mem_cons.mp hx with rfl | hx2
    · exact h.1
    · exact Nat.lt_trans h.1 (List.rel_of_pairwise_cons htail hx2)

set_option maxRecDepth 8192 in
/-- The byte codes, listed over the case-folded byte values in
increasing order, increase strictly: the table realizes the folded
byte order. -/
theorem table_mono :
    ascChain (((List.range 256).filter (fun b => !(0x41 ≤ b && b ≤ 0x5a))).map byteCode)
      = true := by
  decide

set_option maxRecDepth 8192 in
/-- The non-uppercase byte values in increasing order. -/
theorem table_filter_sorted :
    ascChain ((List.range 256).filter (fun b => !(0x41 ≤ b && b ≤ 0x5a))) = true := by
  decide

theorem lex_cons_inv {α : Type} {r : α → α → Prop} {a b : α} {l1 l2 : List α}
    (h : List.Lex r (a :: l1) (b :: l2)) : r a b ∨ (a = b ∧ List.Lex r l1 l2) := by
  cases h with
  | rel h => exact Or.inl h
  | cons h => exact Or.inr ⟨rfl, h⟩

/-! ### C10: the key length bound -/

theorem encByte_length_le (b : Nat) : (encByte b).length ≤ 2 := by
  unfold encByte
  by_cases h : tableEntry b >>> 8 ≠ 0 <;> simp [h]

theorem encLabel_length_le (l : Label) : (encLabel l).length ≤ 2 * l.length := by
  induction l with
  | nil => simp [encLabel]
  | cons b bs ih =>
    have h := encByte_length_le b
    simp only [encLabel, List.flatMap_cons, List.length_append, List.length_cons] at ih ⊢
    omega

theorem key_length_bound (d : Dname) :
    (dname_to_key d).length + d.length ≤
      2 * (d.foldr (fun l acc => acc + l.length + 1) 0) := by
  induction d with
  | nil => simp [dname_to_key]
  | cons l rest ih =>
    have h := encLabel_length_le l
    simp only [dname_to_key, List.flatMap_cons, List.length_append, List.length_cons,
      List.foldr_cons, List.length_nil] at ih ⊢
    omega

theorem foldr_size_succ (d : Dname) :
    d.foldr (fun l acc => acc + l.length + 1) 1 =
      d.foldr (fun l acc => acc + l.length + 1) 0 + 1 := by
  induction d with
  | nil => rfl
  | cons l rest ih => simp only [List.foldr_cons, ih]; omega

/-- C10: for a valid wire name (total size at most 255 bytes) the
produced key length is at most 511, so the terminating double NOBYTE
is written inside the 512-cell key array and the assertion
off < sizeof(qp_key) in dname_to_key holds at every write. -/
theorem claim_C10 (d : Dname) (h : validD d) :
    (dname_to_key d).length ≤ 511 ∧ (dname_to_key d).length + 1 ≤ 512 := by
  have hb := key_length_bound d
  have hs := h.2
  rw [foldr_size_succ] at hs
  omega

theorem claim_C10_witness :
    validD [[0x77, 0x77, 0x77], [0x65, 0x78, 0x61, 0x6d, 0x70, 0x6c, 0x65]] ∧
      (dname_to_key [[0x77, 0x77, 0x77], [0x65, 0x78, 0x61, 0x6d, 0x70, 0x6c, 0x65]]).length ≤ 511 :=
  ⟨by decide, (claim_C10 _ (by decide)).1⟩

/-! ### C5: the codec preserves the embedder name order -/

/-- Modelled from the spec: the embedder name comparator (dname.h) is
not part of the sources here.  The spec describes the canonical
ordering the table realizes: names compare lexicographically by their
labels starting next to the root, labels compare lexicographically by
their case-folded bytes. -/
def dnameLt (a b : Dname) : Prop :=
  List.Lex (List.Lex (· < ·)) (foldName a) (foldName b)

/-- Strict lexicographic comparison of two infinite shift streams:
they agree up to j and are ordered at j. -/
def StrLt (f g : Nat → Nat) : Prop :=
  ∃ j, (∀ i, i < j → f i = g i) ∧ f j < g j

/-- The key array of a name read as an infinite stream (positions past
the produced length read as the NOBYTE terminator). -/
def padF (u : List Nat) (i : Nat) : Nat := u.getD i SHIFT_NOBYTE

theorem kAt_eq_padF (d : Dname) : kAt d = padF (dname_to_key d) := rfl

theorem StrLt_asymm {f g : Nat → Nat} (h1 : StrLt f g) (h2 : StrLt g f) : False := by
  obtain ⟨j1, he1, hl1⟩ := h1
  obtain ⟨j2, he2, hl2⟩ := h2
  rcases Nat.lt_trichotomy j1 j2 with h | h | h
  · rw [he2 j1 h] at hl1; omega
  · subst h; omega
  · rw [he1 j2 h] at hl2; omega

/-- A finite list of shifts in front of a stream. -/
def catF (u : List Nat) (f : Nat → Nat) : Nat → Nat :=
  fun i => if i < u.length then u.getD i 0 else f (i - u.length)

theorem catF_append (u v : List Nat) (f : Nat → Nat) :
    catF (u ++ v) f = catF u (catF v f) := by
  funext i
  simp only [catF, List.length_append]
  rcases Nat.lt_or_ge i u.length with h | h
  · have h2 : i < u.length + v.length := by omega
    simp only [if_pos h, if_pos h2]
    exact List.getD_append _ _ _ _ h
  · rcases Nat.lt_or_ge i (u.length + v.length) with h2 | h2
    · have h3 : i - u.length < v.length := by omega
      simp only [if_pos h2, if_neg (Nat.not_lt.mpr h), if_pos h3]
      exact List.getD_append_right _ _ _ _ h
    · have h3 : ¬(i - u.length < v.length) := by omega
      simp only [if_neg (Nat.not_lt.mpr h2), if_neg (Nat.not_lt.mpr h), if_neg h3, Nat.sub_sub]

theorem padF_append (u v : List Nat) : padF (u ++ v) = catF u (padF v) := by
  funext i
  simp only [padF, catF]
  rcases Nat.lt_or_ge i u.length with h | h
  · rw [List.getD_append _ _ _ _ h, if_pos h, List.getD_eq_getElem _ _ h,
      List.getD_eq_getElem _ _ h]
  · rw [List.getD_append_right _ _ _ _ h, if_neg (Nat.not_lt.mpr h)]

theorem kAt_nil (i : Nat) : kAt [] i = SHIFT_NOBYTE := rfl

theorem kAt_cons (l : Label) (d : Dname) :
    kAt (l :: d) = catF (encLabel l ++ [SHIFT_NOBYTE]) (kAt d) := by
  rw [kAt_eq_padF, kAt_eq_padF]
  have h : dname_to_key (l :: d) = (encLabel l ++ [SHIFT_NOBYTE]) ++ dname_to_key d := by
    simp [dname_to_key]
  rw [h, padF_append]

theorem StrLt_catF_same (u : List Nat) {f g : Nat → Nat} (h : StrLt f g) :
    StrLt (catF u f) (catF u g) := by
  obtain ⟨j, he, hl⟩ := h
  refine ⟨u.length + j, fun i hi => ?_, ?_⟩
  · simp only [catF]
    rcases Nat.lt_or_ge i u.length with h2 | h2
    · simp [h2]
    · simp only [if_neg (Nat.not_lt.mpr h2)]
      exact he _ (by omega)
  · simp only [catF, if_neg (Nat.not_lt.mpr (Nat.le_add_right _ _)), Nat.add_sub_cancel_left]
    exact hl

/-- The first shift of the encoding of a byte. -/
def lowB (b : Nat) : Nat := tableEntry b % 256

/-- The second, escape shift of the encoding of a byte (0 if absent). -/
def highB (b : Nat) : Nat := tableEntry b >>> 8

theorem encByte_eq (b : Nat) :
    encByte b = if highB b = 0 then [lowB b] else [lowB b, highB b] := by
  unfold encByte lowB highB
  by_cases h : tableEntry b >>> 8 = 0 <;> simp [h]

theorem byteCode_eq (b : Nat) : byteCode b = lowB b * 64 + highB b := rfl

theorem catF_zero (u : List Nat) (f : Nat → Nat) (x : Nat) (r : List Nat) (h : u = x :: r) :
    catF u f 0 = x := by subst h; simp [catF]

/-- If the byte codes are ordered then the full streams starting with
the two byte encodings are ordered, whatever follows them. -/
theorem byte_step {x y : Nat} (hx : x < 256) (hy : y < 256)
    (h : byteCode x < byteCode y) (f g : Nat → Nat) :
    StrLt (catF (encByte x) f) (catF (encByte y) g) := by
  have hlx := table_low_range x hx
  have hly := table_low_range y hy
  have hhx := table_high_range x hx
  have hhy := table_high_range y hy
  have hcx := table_classes x hx
  have hcy := table_classes y hy
  have hhxv : highB x < 48 := by unfold highB; rcases hhx with h0 | ⟨hb2, hb48⟩ <;> omega
  have hhyv : highB y < 48 := by unfold highB; rcases hhy with h0 | ⟨hb2, hb48⟩ <;> omega
  have hlxv : lowB x < 48 := hlx.2
  have hlyv : lowB y < 48 := hly.2
  rw [byteCode_eq, byteCode_eq] at h
  by_cases hex : highB x = 0 <;> by_cases hey : highB y = 0
  · -- both single shifts
    have hlt : lowB x < lowB y := by omega
    exact ⟨0, fun i hi => absurd hi (Nat.not_lt_zero i),
      by rw [catF_zero _ f _ _ (by rw [encByte_eq, if_pos hex]),
        catF_zero _ g _ _ (by rw [encByte_eq, if_pos hey])]; exact hlt⟩
  · -- x single, y escaped: the first shifts differ by the class split
    have hne : lowB x ≠ lowB y := by
      intro heq
      apply hcx.2 hex
      unfold lowB at heq
      rw [heq]
      exact hcy.1 hey
    have hlt : lowB x < lowB y := by omega
    exact ⟨0, fun i hi => absurd hi (Nat.not_lt_zero i),
      by rw [catF_zero _ f _ _ (by rw [encByte_eq, if_pos hex]),
        catF_zero _ g _ _ (by rw [encByte_eq, if_neg hey])]; exact hlt⟩
  · -- x escaped, y single
    have hlt : lowB x < lowB y := by omega
    exact ⟨0, fun i hi => absurd hi (Nat.not_lt_zero i),
      by rw [catF_zero _ f _ _ (by rw [encByte_eq, if_neg hex]),
        catF_zero _ g _ _ (by rw [encByte_eq, if_pos hey])]; exact hlt⟩
  · -- both escaped
    rcases Nat.lt_or_ge (lowB x) (lowB y) with hlt | hge
    · exact ⟨0, fun i hi => absurd hi (Nat.not_lt_zero i),
        by rw [catF_zero _ f _ _ (by rw [encByte_eq, if_neg hex]),
          catF_zero _ g _ _ (by rw [encByte_eq, if_neg hey])]; exact hlt⟩
    · have hle : lowB x = lowB y := by omega
      have hhlt : highB x < highB y := by omega
      refine ⟨1, fun i hi => ?_, ?_⟩
      · have : i = 0 := by omega
        subst this
        rw [catF_zero _ f _ _ (by rw [encByte_eq, if_neg hex]),
          catF_zero _ g _ _ (by rw [encByte_eq, if_neg hey]), hle]
      · rw [encByte_eq, if_neg hex, encByte_eq, if_neg hey]
        simpa [catF] using hhlt

theorem encByte_fold {b : Nat} (hb : b < 256) : encByte b = encByte (foldByte b) := by
  unfold encByte
  rw [table_fold b hb]

theorem foldByte_lt (b : Nat) (hb : b < 256) : foldByte b < 256 := by
  unfold foldByte
  split <;> omega

theorem foldByte_idem (b : Nat) : foldByte (foldByte b) = foldByte b := by
  unfold foldByte
  split <;> simp <;> omega

theorem foldByte_not_upper (b : Nat) : ¬(0x41 ≤ foldByte b ∧ foldByte b ≤ 0x5a) := by
  unfold foldByte
  split <;> omega

theorem byteCode_fold {b : Nat} (hb : b < 256) : byteCode b = byteCode (foldByte b) := by
  unfold byteCode
  rw [table_fold b hb]

/-- Strict monotonicity of the byte code with respect to the folded
byte value, from the evaluated chain over the table. -/
theorem byteCode_mono {x y : Nat} (hx : x < 256) (hy : y < 256)
    (h : foldByte x < foldByte y) : byteCode x < byteCode y := by
  have hfx := foldByte_lt x hx
  have hfy := foldByte_lt y hy
  have hl : ((List.range 256).filter (fun b => !(0x41 ≤ b && b ≤ 0x5a))).Pairwise (· < ·) :=
    ascChain_pairwise table_filter_sorted
  have hm : (((List.range 256).filter
      (fun b => !(0x41 ≤ b && b ≤ 0x5a))).map byteCode).Pairwise (· < ·) :=
    ascChain_pairwise table_mono
  have hmem : ∀ z, z < 256 → ¬(0x41 ≤ foldByte z ∧ foldByte z ≤ 0x5a) →
      foldByte z ∈ (List.range 256).filter (fun b => !(0x41 ≤ b && b ≤ 0x5a)) := by
    intro z hz hnu
    rw [List.mem_filter, List.mem_range]
    refine ⟨foldByte_lt z hz, ?_⟩
    by_cases h1 : 0x41 ≤ foldByte z
    · have h2 : ¬(foldByte z ≤ 0x5a) := fun h2 => hnu ⟨h1, h2⟩
      simp [h1, h2]
    · simp [h1]
  have hmemx := hmem x hx (foldByte_not_upper x)
  have hmemy := hmem y hy (foldByte_not_upper y)
  obtain ⟨i, hi, hgi⟩ := List.mem_iff_getElem.mp hmemx
  obtain ⟨j, hj, hgj⟩ := List.mem_iff_getElem.mp hmemy
  have hij : i < j := by
    rcases Nat.lt_trichotomy i j with hij | hij | hij
    · exact hij
    · exfalso
      subst hij
      have heq : foldByte x = foldByte y := hgi.symm.trans hgj
      omega
    · exfalso
      have := (List.pairwise_iff_getElem.mp hl) j i hj hi hij
      rw [hgi, hgj] at this; omega
  have := (List.pairwise_iff_getElem.mp hm) i j (by simpa using hi) (by simpa using hj) hij
  rw [List.getElem_map, List.getElem_map] at this
  rw [byteCode_fold hx, byteCode_fold hy, ← hgi, ← hgj]
  exact this

/-- The bytes of a folded label (map of foldByte). -/
def labelFold (l : Label) : Label := l.map foldByte

theorem encLabel_fold_eq {la lb : Label} (ha : ∀ b ∈ la, b < 256) (hb : ∀ b ∈ lb, b < 256)
    (h : labelFold la = labelFold lb) : encLabel la = encLabel lb := by
  induction la generalizing lb with
  | nil =>
    cases lb with
    | nil => rfl
    | cons y ys => simp [labelFold] at h
  | cons x xs ih =>
    cases lb with
    | nil => simp [labelFold] at h
    | cons y ys =>
      simp only [labelFold, List.map_cons, List.cons.injEq] at h
      have hx := ha x (List.mem_cons_self x xs)
      have hy := hb y (List.mem_cons_self y ys)
      have h1 : encByte x = encByte y := by
        rw [encByte_fold hx, encByte_fold hy, h.1]
      simp only [encLabel, List.flatMap_cons] at ih ⊢
      rw [h1, ih (fun b hbm => ha b (List.mem_cons_of_mem x hbm))
        (fun b hbm => hb b (List.mem_cons_of_mem y hbm)) h.2]

/-- The label-level step: an order between folded labels orders the
streams made of their encodings, the label separator and anything
after it. -/
theorem label_step {la lb : Label} (ha : ∀ b ∈ la, b < 256) (hb : ∀ b ∈ lb, b < 256)
    (h : List.Lex (· < ·) (labelFold la) (labelFold lb)) (f g : Nat → Nat) :
    StrLt (catF (encLabel la ++ [SHIFT_NOBYTE]) f) (catF (encLabel lb ++ [SHIFT_NOBYTE]) g) := by
  induction la generalizing lb f g with
  | nil =>
    cases lb with
    | nil => simp [labelFold] at h
    | cons y ys =>
      have hy := hb y (List.mem_cons_self y ys)
      have hlow := table_low_range y hy
      refine ⟨0, fun i hi => absurd hi (Nat.not_lt_zero i), ?_⟩
      have h1 : catF (encLabel [] ++ [SHIFT_NOBYTE]) f 0 = SHIFT_NOBYTE := by
        simp [encLabel, catF, SHIFT_NOBYTE]
      have h2 : catF (encLabel (y :: ys) ++ [SHIFT_NOBYTE]) g 0 = lowB y := by
        have hshape : encLabel (y :: ys) ++ [SHIFT_NOBYTE] =
            lowB y :: ((if tableEntry y >>> 8 ≠ 0 then [tableEntry y >>> 8] else []) ++
              (encLabel ys ++ [SHIFT_NOBYTE])) := by
          simp [encLabel, encByte, lowB]
        rw [catF_zero _ _ _ _ hshape]
      rw [h1, h2]
      unfold lowB at hlow ⊢
      unfold SHIFT_NOBYTE
      omega
  | cons x xs ih =>
    cases lb with
    | nil => simp [labelFold] at h
    | cons y ys =>
      have hx := ha x (List.mem_cons_self x xs)
      have hy := hb y (List.mem_cons_self y ys)
      simp only [labelFold, List.map_cons] at h
      have hsplit : ∀ (l : Label) (z : Nat), encLabel (z :: l) ++ [SHIFT_NOBYTE] =
          encByte z ++ (encLabel l ++ [SHIFT_NOBYTE]) := by
        intro l z
        simp [encLabel, List.flatMap_cons]
      rcases lex_cons_inv h with hr | ⟨heq, ht⟩
      · rw [hsplit xs x, hsplit ys y, catF_append (encByte x), catF_append (encByte y)]
        exact byte_step hx hy (byteCode_mono hx hy hr) _ _
      · have h1 : encByte x = encByte y := by
          rw [encByte_fold hx, encByte_fold hy, heq]
        rw [hsplit xs x, hsplit ys y, catF_append (encByte x), catF_append (encByte y), h1]
        exact StrLt_catF_same _ (ih (fun b hbm => ha b (List.mem_cons_of_mem x hbm))
          (fun b hbm => hb b (List.mem_cons_of_mem y hbm)) ht f g)

theorem encByte_pos {b : Nat} (hb : b < 256) : ∀ x ∈ encByte b, 1 ≤ x := by
  intro x hxm
  have hlow := table_low_range b hb
  have hhigh := table_high_range b hb
  rw [encByte_eq] at hxm
  unfold lowB highB at hxm
  by_cases h : tableEntry b >>> 8 = 0
  · rw [if_pos h] at hxm
    rw [List.mem_singleton] at hxm
    omega
  · rw [if_neg h] at hxm
    simp only [List.mem_cons, List.mem_singleton, List.not_mem_nil, or_false] at hxm
    rcases hhigh with h2 | h2 <;> rcases hxm with rfl | rfl <;> omega

theorem key_pos {d : Dname} (h : ∀ l ∈ d, ∀ b ∈ l, b < 256) :
    ∀ x ∈ dname_to_key d, 1 ≤ x := by
  intro x hx
  rw [dname_to_key, List.mem_flatMap] at hx
  obtain ⟨l, hl, hxl⟩ := hx
  rcases List.mem_append.mp hxl with h1 | h1
  · rw [encLabel, List.mem_flatMap] at h1
    obtain ⟨b, hbm, hxb⟩ := h1
    exact encByte_pos (h l hl b hbm) x hxb
  · have : x = SHIFT_NOBYTE := List.mem_singleton.mp h1
    subst this
    exact Nat.le_refl 1

theorem validD_tail {l : Label} {d : Dname} (h : validD (l :: d)) : validD d := by
  refine ⟨fun l2 hl2 => h.1 l2 (List.mem_cons_of_mem l hl2), ?_⟩
  have h2 := h.2
  simp only [List.foldr_cons] at h2
  omega

theorem lex_of_diff {u v : List Nat} :
    ∀ j, (∀ i, i < j → u.getD i 1 = v.getD i 1) → j < u.length → j < v.length →
      u.getD j 1 < v.getD j 1 → List.Lex (· < ·) u v := by
  induction u generalizing v with
  | nil => intro j _ hj _ _; simp at hj
  | cons x xs ih =>
    intro j heq hju hjv hlt
    cases v with
    | nil => simp at hjv
    | cons y ys =>
      cases j with
      | zero =>
        simp only [List.getD_cons_zero] at hlt
        exact List.Lex.rel hlt
      | succ j2 =>
        have h0 := heq 0 (Nat.succ_pos j2)
        simp only [List.getD_cons_zero] at h0
        subst h0
        refine List.Lex.cons ?_
        refine ih j2 (fun i hi => ?_) (by simpa using hju) (by simpa using hjv) ?_
        · have := heq (i + 1) (by omega)
          simpa using this
        · simpa using hlt

theorem lex_of_extension {α : Type} {r : α → α → Prop} :
    ∀ {u v : List α}, u <+: v → u ≠ v → List.Lex r u v := by
  intro u
  induction u with
  | nil =>
    intro v _ hne
    cases v with
    | nil => exact absurd rfl hne
    | cons y ys => exact List.Lex.nil
  | cons x xs ih =>
    intro v hp hne
    cases v with
    | nil => exact absurd (List.eq_nil_of_prefix_nil hp).symm (Ne.symm hne)
    | cons y ys =>
      obtain ⟨t, ht⟩ := hp
      simp only [List.cons_append, List.cons.injEq] at ht
      obtain ⟨rfl, h2⟩ := ht
      refine List.Lex.cons (ih ⟨t, h2⟩ ?_)
      intro heq
      exact hne (by rw [heq])

theorem lex_of_strLt {u v : List Nat} (hpos : ∀ x ∈ u, 1 ≤ x)
    (h : StrLt (padF u) (padF v)) : List.Lex (· < ·) u v := by
  obtain ⟨j, heq, hlt⟩ := h
  have hjv : j < v.length := by
    by_contra hge
    have h1 : padF v j = 1 := List.getD_eq_default _ _ (Nat.le_of_not_lt hge)
    rw [h1] at hlt
    have h2 : 1 ≤ padF u j := by
      unfold padF
      rcases Nat.lt_or_ge j u.length with h3 | h3
      · rw [List.getD_eq_getElem _ _ h3]
        exact hpos _ (List.getElem_mem h3)
      · rw [List.getD_eq_default _ _ h3]
        decide
    omega
  rcases Nat.lt_or_ge j u.length with hju | hju
  · exact lex_of_diff j heq hju hjv hlt
  · -- u ends before the difference: u is a proper leading part of v
    have hlen : u.length ≤ v.length := by omega
    have hpre : u <+: v := by
      rw [List.prefix_iff_eq_take]
      apply List.ext_getElem
      · rw [List.length_take]
        omega
      · intro i hi hi2
        have h1 := heq i (by omega)
        unfold padF at h1
        rw [List.getD_eq_getElem _ _ hi, List.getD_eq_getElem _ _ (by omega : i < v.length)] at h1
        rw [List.getElem_take]
        exact h1
    refine lex_of_extension hpre ?_
    intro heq2
    subst heq2
    omega

theorem kAt_zero_cons (y : Nat) (ys : Label) (d : Dname) :
    kAt ((y :: ys) :: d) 0 = lowB y := by
  rw [kAt_cons]
  have hshape : encLabel (y :: ys) ++ [SHIFT_NOBYTE] =
      lowB y :: ((if tableEntry y >>> 8 ≠ 0 then [tableEntry y >>> 8] else []) ++
        (encLabel ys ++ [SHIFT_NOBYTE])) := by
    simp [encLabel, encByte, lowB]
  rw [catF_zero _ _ _ _ hshape]

theorem foldName_cons (l : Label) (d : Dname) :
    foldName (l :: d) = labelFold l :: foldName d := rfl

/-- Order on names under the embedder comparator gives order on the
key streams. -/
theorem dnameLt_strLt : ∀ {a b : Dname}, validD a → validD b → dnameLt a b →
    StrLt (kAt a) (kAt b) := by
  intro a
  induction a with
  | nil =>
    intro b _ hb h
    unfold dnameLt at h
    cases b with
    | nil => exact absurd h (List.Lex.not_nil_right _ _)
    | cons lb b2 =>
      have hlb := hb.1 lb (List.mem_cons_self lb b2)
      cases hy : lb with
      | nil => exact absurd hy hlb.1
      | cons y ys =>
        subst hy
        have hybound := hlb.2.2 y (List.mem_cons_self y ys)
        have hlow := table_low_range y hybound
        refine ⟨0, fun i hi => absurd hi (Nat.not_lt_zero i), ?_⟩
        rw [kAt_nil, kAt_zero_cons]
        unfold lowB SHIFT_NOBYTE
        omega
  | cons la a2 ih =>
    intro b ha hb h
    unfold dnameLt at h
    cases b with
    | nil => exact absurd h (List.Lex.not_nil_right _ _)
    | cons lb b2 =>
      rw [foldName_cons, foldName_cons] at h
      have hla := ha.1 la (List.mem_cons_self la a2)
      have hlb := hb.1 lb (List.mem_cons_self lb b2)
      rcases lex_cons_inv h with hr | ⟨heq, ht⟩
      · rw [kAt_cons, kAt_cons]
        exact label_step hla.2.2 hlb.2.2 hr (kAt a2) (kAt b2)
      · rw [kAt_cons, kAt_cons, encLabel_fold_eq hla.2.2 hlb.2.2 heq]
        exact StrLt_catF_same _ (ih (validD_tail ha) (validD_tail hb) ht)

/-- Names equal under the embedder comparator produce equal keys. -/
theorem key_of_fold_eq : ∀ {a b : Dname}, validD a → validD b →
    foldName a = foldName b → dname_to_key a = dname_to_key b := by
  intro a
  induction a with
  | nil =>
    intro b _ _ h
    cases b with
    | nil => rfl
    | cons lb b2 => simp [foldName] at h
  | cons la a2 ih =>
    intro b ha hb h
    cases b with
    | nil => simp [foldName] at h
    | cons lb b2 =>
      rw [foldName_cons, foldName_cons] at h
      obtain ⟨h1, h2⟩ := List.cons.injEq .. ▸ h
      have hla := ha.1 la (List.mem_cons_self la a2)
      have hlb := hb.1 lb (List.mem_cons_self lb b2)
      simp only [dname_to_key, List.flatMap_cons]
      rw [encLabel_fold_eq hla.2.2 hlb.2.2 h1]
      have := ih (validD_tail ha) (validD_tail hb) h2
      simp only [dname_to_key] at this
      rw [this]

/-- C5: for valid names, the produced shift sequence of A is
lexicographically below that of B exactly when A precedes B in the
embedder ordering realized by the translation table (labels from the
root outward, bytes case folded). -/
theorem claim_C5 (a b : Dname) (ha : validD a) (hb : validD b) :
    List.Lex (· < ·) (dname_to_key a) (dname_to_key b) ↔ dnameLt a b := by
  constructor
  · intro h
    have hinst : IsTrichotomous (List (List Nat)) (List.Lex (List.Lex (· < ·))) :=
      inferInstance
    rcases hinst.trichotomous (foldName a) (foldName b) with ht | ht | ht
    · exact ht
    · exfalso
      have hk : dname_to_key a = dname_to_key b := key_of_fold_eq ha hb ht
      rw [hk] at h
      exact (IsAsymm.asymm _ _ h) h
    · exfalso
      have h2 : List.Lex (· < ·) (dname_to_key b) (dname_to_key a) :=
        lex_of_strLt (key_pos (fun l hl => (hb.1 l hl).2.2)) (dnameLt_strLt hb ha ht)
      exact (IsAsymm.asymm _ _ h) h2
  · intro h
    exact lex_of_strLt (key_pos (fun l hl => (ha.1 l hl).2.2)) (dnameLt_strLt ha hb h)

theorem claim_C5_witness :
    validD [[0x61]] ∧ validD [[0x61], [0x62]] ∧
      (List.Lex (· < ·) (dname_to_key [[0x61]]) (dname_to_key [[0x61], [0x62]]) ↔
        dnameLt [[0x61]] [[0x61], [0x62]]) :=
  ⟨by decide, by decide, claim_C5 _ _ (by decide) (by decide)⟩

/-! ### Bitmap arithmetic: popcount over masked words -/

theorem popcntGo_zero : ∀ fuel, popcntGo fuel 0 = 0
  | 0 => rfl
  | _ + 1 => by rw [popcntGo]; simp

theorem popcntGo_congr : ∀ f1 f2 n, n ≤ f1 → n ≤ f2 →
    popcntGo f1 n = popcntGo f2 n := by
  intro f1
  induction f1 with
  | zero =>
    intro f2 n h1 h2
    have hn : n = 0 := by omega
    subst hn
    rw [popcntGo_zero, popcntGo_zero]
  | succ f1 ih =>
    intro f2 n h1 h2
    by_cases hn : n = 0
    · subst hn
      rw [popcntGo_zero, popcntGo_zero]
    · cases f2 with
      | zero => omega
      | succ f2 =>
        rw [popcntGo, popcntGo]
        rw [if_neg hn, if_neg hn]
        rw [ih f2 (n / 2) (by omega) (by omega)]

theorem popcnt_zero : popcnt 0 = 0 := rfl

theorem popcnt_step (n : Nat) (h : n ≠ 0) : popcnt n = popcnt (n / 2) + n % 2 := by
  cases n with
  | zero => exact absurd rfl h
  | succ m =>
    show popcntGo (m + 1) (m + 1) = popcntGo ((m + 1) / 2) ((m + 1) / 2) + (m + 1) % 2
    rw [popcntGo, if_neg h]
    rw [popcntGo_congr m ((m + 1) / 2) ((m + 1) / 2) (by omega) (by omega)]

theorem popcnt_eq (n : Nat) : popcnt n = popcnt (n / 2) + n % 2 := by
  by_cases h : n = 0
  · subst h; simp [popcnt_zero]
  · exact popcnt_step n h

/-- Splitting a word at bit position k: popcount is additive. -/
theorem popcnt_add_mul_pow : ∀ (k a b : Nat), a < 2 ^ k →
    popcnt (a + 2 ^ k * b) = popcnt a + popcnt b := by
  intro k
  induction k with
  | zero =>
    intro a b ha
    have : a = 0 := by omega
    subst this
    simp [popcnt_zero]
  | succ k2 ih =>
    intro a b ha
    by_cases hz : a + 2 ^ (k2 + 1) * b = 0
    · have ha0 : a = 0 := by
        have := Nat.pos_pow_of_pos (k2 + 1) (by omega : 0 < 2)
        omega
      have hb0 : b = 0 := by
        have h2 : 0 < 2 ^ (k2 + 1) := Nat.pos_pow_of_pos _ (by omega)
        by_contra hb
        have : 1 ≤ b := Nat.pos_of_ne_zero hb
        have : 2 ^ (k2 + 1) ≤ 2 ^ (k2 + 1) * b := Nat.le_mul_of_pos_right _ (by omega)
        omega
      subst ha0; subst hb0; simp [popcnt_zero]
    · rw [popcnt_step _ hz]
      have hrw : 2 ^ (k2 + 1) * b = 2 * (2 ^ k2 * b) := by rw [Nat.pow_succ]; ring
      have hdiv : (a + 2 ^ (k2 + 1) * b) / 2 = a / 2 + 2 ^ k2 * b := by
        rw [hrw]
        omega
      have hmod : (a + 2 ^ (k2 + 1) * b) % 2 = a % 2 := by
        rw [hrw]
        omega
      rw [hdiv, hmod, ih (a / 2) b (by rw [Nat.pow_succ] at ha; omega), popcnt_eq a]
      omega

theorem popcnt_two_pow (k : Nat) : popcnt (2 ^ k) = 1 := by
  have := popcnt_add_mul_pow k 0 1 (Nat.pos_pow_of_pos _ (by omega))
  simp at this
  rw [this]
  have h1 : popcnt 1 = 1 := by decide
  simp [popcnt_zero, h1]

theorem popcnt_odd (q : Nat) : popcnt (1 + 2 * q) = popcnt q + 1 := by
  have h2 := popcnt_eq (1 + 2 * q)
  rw [show (1 + 2 * q) / 2 = q by omega, show (1 + 2 * q) % 2 = 1 by omega] at h2
  omega

theorem popcnt_even (q : Nat) : popcnt (2 * q) = popcnt q := by
  have h2 := popcnt_eq (2 * q)
  rw [show 2 * q / 2 = q by omega, show 2 * q % 2 = 0 by omega] at h2
  omega

theorem testBit_div_mod (n i : Nat) : n.testBit i = decide (n / 2 ^ i % 2 = 1) := by
  rw [Nat.testBit_to_div_mod]

/-- Decompose a word at a set bit. -/
theorem decomp_of_testBit {n b : Nat} (h : n.testBit b = true) :
    n = n % 2 ^ b + 2 ^ b + 2 ^ (b + 1) * (n / 2 ^ (b + 1)) := by
  rw [testBit_div_mod, decide_eq_true_eq] at h
  have h1 : n % 2 ^ (b + 1) = n % 2 ^ b + 2 ^ b * (n / 2 ^ b % 2) := by
    rw [Nat.pow_succ, Nat.mod_mul]
  have h2 := Nat.div_add_mod n (2 ^ (b + 1))
  rw [h1, h] at h2
  omega

theorem decomp_of_not_testBit {n b : Nat} (h : n.testBit b = false) :
    n = n % 2 ^ b + 2 ^ (b + 1) * (n / 2 ^ (b + 1)) := by
  rw [testBit_div_mod, decide_eq_false_iff_not] at h
  have h0 : n / 2 ^ b % 2 = 0 := by omega
  have h1 : n % 2 ^ (b + 1) = n % 2 ^ b + 2 ^ b * (n / 2 ^ b % 2) := by
    rw [Nat.pow_succ, Nat.mod_mul]
  have h2 := Nat.div_add_mod n (2 ^ (b + 1))
  rw [h1, h0] at h2
  omega

theorem twigpos_mono {bmp b1 b2 : Nat} (h : b1 ≤ b2) : twigpos bmp b1 ≤ twigpos bmp b2 := by
  unfold twigpos
  have hsplit : bmp % 2 ^ b2 = bmp % 2 ^ b1 + 2 ^ b1 * (bmp % 2 ^ b2 / 2 ^ b1) := by
    conv_lhs => rw [← Nat.mod_add_div (bmp % 2 ^ b2) (2 ^ b1)]
    rw [Nat.mod_mod_of_dvd _ (Nat.pow_dvd_pow 2 h)]
  rw [hsplit, popcnt_add_mul_pow _ _ _ (Nat.mod_lt _ (Nat.pos_pow_of_pos _ (by omega)))]
  omega

theorem twigpos_succ (bmp b : Nat) :
    twigpos bmp (b + 1) = twigpos bmp b + (if bmp.testBit b then 1 else 0) := by
  unfold twigpos
  have hsplit : bmp % 2 ^ (b + 1) = bmp % 2 ^ b + 2 ^ b * (bmp / 2 ^ b % 2) := by
    rw [Nat.pow_succ, Nat.mod_mul]
  rw [hsplit, popcnt_add_mul_pow _ _ _ (Nat.mod_lt _ (Nat.pos_pow_of_pos _ (by omega)))]
  rw [testBit_div_mod]
  have h2 : bmp / 2 ^ b % 2 = 0 ∨ bmp / 2 ^ b % 2 = 1 := by omega
  rcases h2 with h2 | h2
  · rw [h2]
    simp [popcnt_zero]
  · rw [h2]
    have h1 : popcnt 1 = 1 := by decide
    simp [h1]

theorem twigpos_lt_popcnt {bmp b : Nat} (h : bmp.testBit b = true) :
    twigpos bmp b < popcnt bmp := by
  have hd := decomp_of_testBit h
  have hm : bmp % 2 ^ b < 2 ^ b := Nat.mod_lt _ (Nat.pos_pow_of_pos _ (by omega))
  calc twigpos bmp b = popcnt (bmp % 2 ^ b) := rfl
    _ < popcnt (bmp % 2 ^ b) + popcnt (1 + 2 * (bmp / 2 ^ (b + 1))) := by
        have hpos : 1 ≤ popcnt (1 + 2 * (bmp / 2 ^ (b + 1))) := by
          have := popcnt_add_mul_pow 1 1 (bmp / 2 ^ (b + 1)) (by omega)
          have h1 : popcnt 1 = 1 := by decide
          simp only [pow_one] at this
          omega
        omega
    _ = popcnt bmp := by
        rw [← popcnt_add_mul_pow b (bmp % 2 ^ b) (1 + 2 * (bmp / 2 ^ (b + 1))) hm]
        congr 1
        have hr : 2 ^ b * (1 + 2 * (bmp / 2 ^ (b + 1))) =
            2 ^ b + 2 ^ (b + 1) * (bmp / 2 ^ (b + 1)) := by
          rw [Nat.pow_succ]
          ring
        omega

theorem twigpos_strict {bmp b1 b2 : Nat} (h1 : bmp.testBit b1 = true) (h : b1 < b2) :
    twigpos bmp b1 < twigpos bmp b2 := by
  have hs := twigpos_succ bmp b1
  rw [h1] at hs
  simp at hs
  have hmono : twigpos bmp (b1 + 1) ≤ twigpos bmp b2 := twigpos_mono h
  omega

/-- twigmax is the full popcount for a bitmap inside 48 bits. -/
theorem twigmax_eq {bmp : Nat} (h : bmp < 2 ^ 48) : twigmax bmp = popcnt bmp := by
  unfold twigmax SHIFT_OFFSET
  rw [Nat.mod_eq_of_lt h]

theorem testBit_lt_of_ge {bmp b : Nat} (hw : bmp < 2 ^ 48) (h : 48 ≤ b) :
    bmp.testBit b = false := by
  apply Nat.testBit_lt_two_pow
  exact Nat.lt_of_lt_of_le hw (Nat.pow_le_pow_right (by omega) h)

/-- Bitwise or with an unset bit is addition. -/
theorem lor_two_pow {n b : Nat} (h : n.testBit b = false) : n ||| 2 ^ b = n + 2 ^ b := by
  have hd := decomp_of_not_testBit h
  have hm : n % 2 ^ b < 2 ^ b := Nat.mod_lt _ (Nat.pos_pow_of_pos _ (by omega))
  have hdm : n / 2 ^ b % 2 = 0 := by
    rw [testBit_div_mod, decide_eq_false_iff_not] at h
    omega
  apply Nat.eq_of_testBit_eq
  intro i
  rw [Nat.testBit_or]
  rcases Nat.lt_trichotomy i b with hib | hib | hib
  · rw [Nat.testBit_two_pow_of_ne (by omega), Bool.or_false]
    have hdvd : 2 ^ b = 2 ^ (b - i) * 2 ^ i := by rw [← Nat.pow_add]; congr 1; omega
    have hdiv : (n + 2 ^ b) / 2 ^ i = n / 2 ^ i + 2 ^ (b - i) := by
      rw [hdvd]
      exact Nat.add_mul_div_right n (2 ^ (b - i)) (Nat.pos_pow_of_pos _ (by omega))
    have heven : 2 ^ (b - i) % 2 = 0 := by
      have hbi : b - i = (b - i - 1) + 1 := by omega
      rw [hbi, Nat.pow_succ]
      omega
    have hmod : (n + 2 ^ b) / 2 ^ i % 2 = n / 2 ^ i % 2 := by
      rw [hdiv]
      omega
    rw [testBit_div_mod, testBit_div_mod, hmod]
  · subst hib
    rw [Nat.testBit_two_pow_self, Bool.or_true]
    have hdiv : (n + 2 ^ i) / 2 ^ i = n / 2 ^ i + 1 := by
      have h2 := Nat.add_mul_div_right n 1 (Nat.pos_pow_of_pos i (by omega : 0 < 2))
      simpa using h2
    rw [testBit_div_mod, hdiv]
    have hone : (n / 2 ^ i + 1) % 2 = 1 := by omega
    simp [hone]
  · rw [Nat.testBit_two_pow_of_ne (by omega), Bool.or_false]
    have hpos : 0 < 2 ^ (b + 1) := Nat.pos_pow_of_pos _ (by omega)
    have hs1 : (n + 2 ^ b) / 2 ^ (b + 1) = n / 2 ^ (b + 1) := by
      have hlow : n % 2 ^ b + 2 ^ b < 2 ^ (b + 1) := by
        rw [Nat.pow_succ]
        omega
      have hr1 : n + 2 ^ b = 2 ^ (b + 1) * (n / 2 ^ (b + 1)) + (n % 2 ^ b + 2 ^ b) := by omega
      rw [hr1, Nat.mul_add_div hpos, Nat.div_eq_of_lt hlow]
      omega
    have hsplit : 2 ^ i = 2 ^ (b + 1) * 2 ^ (i - (b + 1)) := by
      rw [← Nat.pow_add]; congr 1; omega
    have key : (n + 2 ^ b) / 2 ^ i = n / 2 ^ i := by
      rw [hsplit, ← Nat.div_div_eq_div_mul, ← Nat.div_div_eq_div_mul, hs1]
    rw [testBit_div_mod, testBit_div_mod, key]

/-- Adding an unset power of two does not carry across the mask
boundary below it. -/
theorem mod_add_pow_lt {bmp nb b : Nat} (hnb : bmp.testBit nb = false) (hb : nb < b) :
    (bmp + 2 ^ nb) % 2 ^ b = bmp % 2 ^ b + 2 ^ nb := by
  have hnb2 : (bmp % 2 ^ b).testBit nb = false := by
    rw [Nat.testBit_mod_two_pow, hnb]
    simp
  have hdm := decomp_of_not_testBit hnb2
  have hmm : bmp % 2 ^ b % 2 ^ nb < 2 ^ nb := Nat.mod_lt _ (Nat.pos_pow_of_pos _ (by omega))
  have hq : bmp = 2 ^ b * (bmp / 2 ^ b) + bmp % 2 ^ b := by
    have := Nat.div_add_mod bmp (2 ^ b)
    omega
  have hr : bmp % 2 ^ b < 2 ^ b := Nat.mod_lt _ (Nat.pos_pow_of_pos _ (by omega))
  have hpos : 0 < 2 ^ (nb + 1) := Nat.pos_pow_of_pos _ (by omega)
  have hco : 2 ^ (nb + 1) * 2 ^ (b - (nb + 1)) = 2 ^ b := by
    rw [← Nat.pow_add]
    congr 1
    omega
  have hql : bmp % 2 ^ b / 2 ^ (nb + 1) < 2 ^ (b - (nb + 1)) := by
    rw [Nat.div_lt_iff_lt_mul hpos]
    calc bmp % 2 ^ b < 2 ^ b := hr
      _ = 2 ^ (b - (nb + 1)) * 2 ^ (nb + 1) := by rw [← Nat.pow_add]; congr 1; omega
  have hmul2 : 2 ^ (nb + 1) * (bmp % 2 ^ b / 2 ^ (nb + 1) + 1) ≤
      2 ^ (nb + 1) * 2 ^ (b - (nb + 1)) := Nat.mul_le_mul_left _ (by omega)
  have hx : 2 ^ (nb + 1) * (bmp % 2 ^ b / 2 ^ (nb + 1) + 1) =
      2 ^ (nb + 1) * (bmp % 2 ^ b / 2 ^ (nb + 1)) + 2 ^ (nb + 1) := by ring
  have hpow : 2 ^ (nb + 1) = 2 * 2 ^ nb := by rw [Nat.pow_succ]; ring
  have hlt : bmp % 2 ^ b + 2 ^ nb < 2 ^ b := by omega
  conv_lhs => rw [hq]
  rw [Nat.add_assoc, Nat.mul_add_mod]
  exact Nat.mod_eq_of_lt hlt

/-- Setting an unset bit: the rank of other bits moves by one exactly
above the new bit. -/
theorem twigpos_lor {bmp nb : Nat} (hnb : bmp.testBit nb = false) (b : Nat) :
    twigpos (bmp ||| 2 ^ nb) b = twigpos bmp b + (if nb < b then 1 else 0) := by
  rw [lor_two_pow hnb]
  unfold twigpos
  by_cases hb : nb < b
  · rw [mod_add_pow_lt hnb hb, if_pos hb]
    have hnb2 : (bmp % 2 ^ b).testBit nb = false := by
      rw [Nat.testBit_mod_two_pow, hnb]
      simp
    have hdm := decomp_of_not_testBit hnb2
    have hmm : bmp % 2 ^ b % 2 ^ nb < 2 ^ nb := Nat.mod_lt _ (Nat.pos_pow_of_pos _ (by omega))
    have hpow : 2 ^ (nb + 1) = 2 * 2 ^ nb := by rw [Nat.pow_succ]; ring
    have he1 : 2 ^ nb * (1 + 2 * (bmp % 2 ^ b / 2 ^ (nb + 1))) =
        2 ^ nb + 2 ^ (nb + 1) * (bmp % 2 ^ b / 2 ^ (nb + 1)) := by
      rw [hpow]
      ring
    have he2 : 2 ^ nb * (2 * (bmp % 2 ^ b / 2 ^ (nb + 1))) =
        2 ^ (nb + 1) * (bmp % 2 ^ b / 2 ^ (nb + 1)) := by
      rw [hpow]
      ring
    have hsum : bmp % 2 ^ b + 2 ^ nb = bmp % 2 ^ b % 2 ^ nb +
        2 ^ nb * (1 + 2 * (bmp % 2 ^ b / 2 ^ (nb + 1))) := by
      omega
    have hsplit2 : bmp % 2 ^ b = bmp % 2 ^ b % 2 ^ nb +
        2 ^ nb * (2 * (bmp % 2 ^ b / 2 ^ (nb + 1))) := by
      omega
    have hLeq : popcnt (bmp % 2 ^ b + 2 ^ nb) = popcnt (bmp % 2 ^ b % 2 ^ nb) +
        popcnt (1 + 2 * (bmp % 2 ^ b / 2 ^ (nb + 1))) := by
      rw [hsum]
      exact popcnt_add_mul_pow _ _ _ hmm
    have hReq : popcnt (bmp % 2 ^ b) = popcnt (bmp % 2 ^ b % 2 ^ nb) +
        popcnt (2 * (bmp % 2 ^ b / 2 ^ (nb + 1))) := by
      conv_lhs => rw [hsplit2]
      exact popcnt_add_mul_pow _ _ _ hmm
    rw [hLeq, hReq, popcnt_odd, popcnt_even]
    omega
  · have hmodadd : (bmp + 2 ^ nb) % 2 ^ b = bmp % 2 ^ b := by
      have hdv : 2 ^ b ∣ 2 ^ nb := Nat.pow_dvd_pow 2 (by omega)
      obtain ⟨c, hc⟩ := hdv
      rw [hc, Nat.add_mul_mod_self_left]
    rw [hmodadd, if_neg hb]
    omega

/-- Setting an unset bit adds one to the total popcount. -/
theorem popcnt_lor {bmp nb : Nat} (hnb : bmp.testBit nb = false) :
    popcnt (bmp ||| 2 ^ nb) = popcnt bmp + 1 := by
  rw [lor_two_pow hnb]
  have hd := decomp_of_not_testBit hnb
  have hm : bmp % 2 ^ nb < 2 ^ nb := Nat.mod_lt _ (Nat.pos_pow_of_pos _ (by omega))
  have hpow : 2 ^ (nb + 1) = 2 * 2 ^ nb := by rw [Nat.pow_succ]; ring
  have he1 : 2 ^ nb * (1 + 2 * (bmp / 2 ^ (nb + 1))) =
      2 ^ nb + 2 ^ (nb + 1) * (bmp / 2 ^ (nb + 1)) := by
    rw [hpow]
    ring
  have he2 : 2 ^ nb * (2 * (bmp / 2 ^ (nb + 1))) = 2 ^ (nb + 1) * (bmp / 2 ^ (nb + 1)) := by
    rw [hpow]
    ring
  have hsum : bmp + 2 ^ nb = bmp % 2 ^ nb + 2 ^ nb * (1 + 2 * (bmp / 2 ^ (nb + 1))) := by
    omega
  have hsplit : bmp = bmp % 2 ^ nb + 2 ^ nb * (2 * (bmp / 2 ^ (nb + 1))) := by
    omega
  have hLeq : popcnt (bmp + 2 ^ nb) = popcnt (bmp % 2 ^ nb) +
      popcnt (1 + 2 * (bmp / 2 ^ (nb + 1))) := by
    rw [hsum]
    exact popcnt_add_mul_pow _ _ _ hm
  have hReq : popcnt bmp = popcnt (bmp % 2 ^ nb) + popcnt (2 * (bmp / 2 ^ (nb + 1))) := by
    conv_lhs => rw [hsplit]
    exact popcnt_add_mul_pow _ _ _ hm
  rw [hLeq, hReq, popcnt_odd, popcnt_even]
  omega

/-- Clearing a set bit: total popcount. -/
theorem popcnt_clear {bmp bit : Nat} (h : bmp.testBit bit = true) :
    popcnt (bmp - 2 ^ bit) = popcnt bmp - 1 := by
  have hd := decomp_of_testBit h
  have hm : bmp % 2 ^ bit < 2 ^ bit := Nat.mod_lt _ (Nat.pos_pow_of_pos _ (by omega))
  have hpow : 2 ^ (bit + 1) = 2 * 2 ^ bit := by rw [Nat.pow_succ]; ring
  have he1 : 2 ^ bit * (1 + 2 * (bmp / 2 ^ (bit + 1))) =
      2 ^ bit + 2 ^ (bit + 1) * (bmp / 2 ^ (bit + 1)) := by
    rw [hpow]
    ring
  have he2 : 2 ^ bit * (2 * (bmp / 2 ^ (bit + 1))) = 2 ^ (bit + 1) * (bmp / 2 ^ (bit + 1)) := by
    rw [hpow]
    ring
  have h1 : bmp - 2 ^ bit = bmp % 2 ^ bit + 2 ^ bit * (2 * (bmp / 2 ^ (bit + 1))) := by omega
  have h2 : bmp = bmp % 2 ^ bit + 2 ^ bit * (1 + 2 * (bmp / 2 ^ (bit + 1))) := by omega
  have hLeq : popcnt (bmp - 2 ^ bit) = popcnt (bmp % 2 ^ bit) +
      popcnt (2 * (bmp / 2 ^ (bit + 1))) := by
    rw [h1]
    exact popcnt_add_mul_pow _ _ _ hm
  have hReq : popcnt bmp = popcnt (bmp % 2 ^ bit) +
      popcnt (1 + 2 * (bmp / 2 ^ (bit + 1))) := by
    conv_lhs => rw [h2]
    exact popcnt_add_mul_pow _ _ _ hm
  rw [hLeq, hReq, popcnt_odd, popcnt_even]
  omega

/-- Clearing a set bit: the rank of a position moves down by one
exactly above the cleared bit. -/
theorem twigpos_clear {bmp bit : Nat} (h : bmp.testBit bit = true) (b : Nat) :
    twigpos (bmp - 2 ^ bit) b = twigpos bmp b - (if bit < b then 1 else 0) := by
  unfold twigpos
  by_cases hb : bit < b
  · have hbit2 : (bmp % 2 ^ b).testBit bit = true := by
      rw [Nat.testBit_mod_two_pow, h]
      simp
      omega
    have hd := decomp_of_testBit hbit2
    have hge : 2 ^ bit ≤ bmp % 2 ^ b := by omega
    have hq : bmp = 2 ^ b * (bmp / 2 ^ b) + bmp % 2 ^ b := by
      have := Nat.div_add_mod bmp (2 ^ b)
      omega
    have hmod : (bmp - 2 ^ bit) % 2 ^ b = bmp % 2 ^ b - 2 ^ bit := by
      have hlt : bmp % 2 ^ b - 2 ^ bit < 2 ^ b := by
        have hml : bmp % 2 ^ b < 2 ^ b := Nat.mod_lt _ (Nat.pos_pow_of_pos _ (by omega))
        omega
      have hrw : bmp - 2 ^ bit = 2 ^ b * (bmp / 2 ^ b) + (bmp % 2 ^ b - 2 ^ bit) := by omega
      rw [hrw, Nat.mul_add_mod]
      exact Nat.mod_eq_of_lt hlt
    rw [hmod, if_pos hb]
    have hm : bmp % 2 ^ b % 2 ^ bit < 2 ^ bit := Nat.mod_lt _ (Nat.pos_pow_of_pos _ (by omega))
    have hpow : 2 ^ (bit + 1) = 2 * 2 ^ bit := by rw [Nat.pow_succ]; ring
    have he1 : 2 ^ bit * (1 + 2 * (bmp % 2 ^ b / 2 ^ (bit + 1))) =
        2 ^ bit + 2 ^ (bit + 1) * (bmp % 2 ^ b / 2 ^ (bit + 1)) := by
      rw [hpow]
      ring
    have he2 : 2 ^ bit * (2 * (bmp % 2 ^ b / 2 ^ (bit + 1))) =
        2 ^ (bit + 1) * (bmp % 2 ^ b / 2 ^ (bit + 1)) := by
      rw [hpow]
      ring
    have h1 : bmp % 2 ^ b - 2 ^ bit = bmp % 2 ^ b % 2 ^ bit +
        2 ^ bit * (2 * (bmp % 2 ^ b / 2 ^ (bit + 1))) := by omega
    have h2 : bmp % 2 ^ b = bmp % 2 ^ b % 2 ^ bit +
        2 ^ bit * (1 + 2 * (bmp % 2 ^ b / 2 ^ (bit + 1))) := by omega
    have hLeq : popcnt (bmp % 2 ^ b - 2 ^ bit) = popcnt (bmp % 2 ^ b % 2 ^ bit) +
        popcnt (2 * (bmp % 2 ^ b / 2 ^ (bit + 1))) := by
      rw [h1]
      exact popcnt_add_mul_pow _ _ _ hm
    have hReq : popcnt (bmp % 2 ^ b) = popcnt (bmp % 2 ^ b % 2 ^ bit) +
        popcnt (1 + 2 * (bmp % 2 ^ b / 2 ^ (bit + 1))) := by
      conv_lhs => rw [h2]
      exact popcnt_add_mul_pow _ _ _ hm
    rw [hLeq, hReq, popcnt_odd, popcnt_even]
    omega
  · have hd := decomp_of_testBit h
    have hmod : (bmp - 2 ^ bit) % 2 ^ b = bmp % 2 ^ b := by
      have hdv : 2 ^ b ∣ 2 ^ bit := Nat.pow_dvd_pow 2 (by omega)
      obtain ⟨c, hc⟩ := hdv
      have hge : 2 ^ bit ≤ bmp := by omega
      have hrw : bmp = (bmp - 2 ^ bit) + 2 ^ b * c := by omega
      conv_rhs => rw [hrw]
      rw [Nat.add_mul_mod_self_left]
    rw [hmod, if_neg hb]
    omega

/-- testBit after clearing a set bit. -/
theorem testBit_clear {bmp bit : Nat} (h : bmp.testBit bit = true) (b : Nat) :
    (bmp - 2 ^ bit).testBit b = (bmp.testBit b && !(b == bit)) := by
  have hd := decomp_of_testBit h
  have hm : bmp % 2 ^ bit < 2 ^ bit := Nat.mod_lt _ (Nat.pos_pow_of_pos _ (by omega))
  have hpow : 2 ^ (bit + 1) = 2 * 2 ^ bit := by rw [Nat.pow_succ]; ring
  have he2 : 2 ^ bit * (2 * (bmp / 2 ^ (bit + 1))) = 2 ^ (bit + 1) * (bmp / 2 ^ (bit + 1)) := by
    rw [hpow]
    ring
  have h1 : bmp - 2 ^ bit = bmp % 2 ^ bit + 2 ^ bit * (2 * (bmp / 2 ^ (bit + 1))) := by omega
  rcases Nat.lt_trichotomy b bit with hbb | hbb | hbb
  · have e1 : (bmp - 2 ^ bit).testBit b = ((bmp - 2 ^ bit) % 2 ^ bit).testBit b := by
      rw [Nat.testBit_mod_two_pow]
      simp [hbb]
    have e2 : bmp.testBit b = (bmp % 2 ^ bit).testBit b := by
      rw [Nat.testBit_mod_two_pow]
      simp [hbb]
    have e3 : (bmp - 2 ^ bit) % 2 ^ bit = bmp % 2 ^ bit := by
      rw [h1, Nat.add_mul_mod_self_left, Nat.mod_eq_of_lt hm]
    rw [e1, e3, ← e2]
    simp [Nat.ne_of_lt hbb]
  · subst hbb
    have e1 : (bmp - 2 ^ b) / 2 ^ b = 2 * (bmp / 2 ^ (b + 1)) := by
      rw [h1, Nat.add_mul_div_left _ _ (Nat.pos_pow_of_pos _ (by omega : 0 < 2)),
        Nat.div_eq_of_lt hm]
      omega
    rw [testBit_div_mod, e1]
    have : 2 * (bmp / 2 ^ (b + 1)) % 2 = 0 := by omega
    simp [this, h]
  · have hpos : 0 < 2 ^ (bit + 1) := Nat.pos_pow_of_pos _ (by omega)
    have hs1 : (bmp - 2 ^ bit) / 2 ^ (bit + 1) = bmp / 2 ^ (bit + 1) := by
      have hr1 : bmp - 2 ^ bit = 2 ^ (bit + 1) * (bmp / 2 ^ (bit + 1)) + bmp % 2 ^ bit := by
        omega
      have hlt : bmp % 2 ^ bit < 2 ^ (bit + 1) := by omega
      rw [hr1, Nat.mul_add_div hpos, Nat.div_eq_of_lt hlt]
      omega
    have hsplit : 2 ^ b = 2 ^ (bit + 1) * 2 ^ (b - (bit + 1)) := by
      rw [← Nat.pow_add]; congr 1; omega
    have key : (bmp - 2 ^ bit) / 2 ^ b = bmp / 2 ^ b := by
      rw [hsplit, ← Nat.div_div_eq_div_mul, ← Nat.div_div_eq_div_mul, hs1]
    rw [testBit_div_mod, testBit_div_mod, key]
    simp [Nat.ne_of_gt hbb]

/-- testBit after setting a new bit. -/
theorem testBit_lor_pow (bmp nb b : Nat) :
    (bmp ||| 2 ^ nb).testBit b = (bmp.testBit b || b == nb) := by
  rw [Nat.testBit_or]
  by_cases h : b = nb
  · subst h
    simp [Nat.testBit_two_pow_self]
  · rw [Nat.testBit_two_pow_of_ne (fun hc => h hc.symm)]
    simp [h]

/-! ### Bridges between folding, key streams and the embedder order -/

theorem dnameEq_iff {a b : Dname} : dnameEq a b = true ↔ foldName a = foldName b := by
  unfold dnameEq
  simp

theorem StrLt_irrefl {f : Nat → Nat} (h : StrLt f f) : False := StrLt_asymm h h

theorem kAt_of_fold_eq {a b : Dname} (ha : validD a) (hb : validD b)
    (h : foldName a = foldName b) : kAt a = kAt b := by
  funext i
  unfold kAt
  rw [key_of_fold_eq ha hb h]

theorem fold_trichotomy (a b : Dname) :
    dnameLt a b ∨ foldName a = foldName b ∨ dnameLt b a := by
  have hinst : IsTrichotomous (List (List Nat)) (List.Lex (List.Lex (· < ·))) := inferInstance
  exact hinst.trichotomous (foldName a) (foldName b)

theorem strLt_dnameLt {a b : Dname} (ha : validD a) (hb : validD b)
    (h : StrLt (kAt a) (kAt b)) : dnameLt a b := by
  rcases fold_trichotomy a b with hc | hc | hc
  · exact hc
  · exfalso
    rw [kAt_of_fold_eq ha hb hc] at h
    exact StrLt_irrefl h
  · exact absurd (dnameLt_strLt hb ha hc) (fun h2 => StrLt_asymm h h2)

theorem fold_eq_of_kAt_eq {a b : Dname} (ha : validD a) (hb : validD b)
    (h : ∀ i, kAt a i = kAt b i) : foldName a = foldName b := by
  rcases fold_trichotomy a b with hc | hc | hc
  · exfalso
    obtain ⟨j, _, hlt⟩ := dnameLt_strLt ha hb hc
    rw [h j] at hlt
    omega
  · exact hc
  · exfalso
    obtain ⟨j, _, hlt⟩ := dnameLt_strLt hb ha hc
    rw [h j] at hlt
    omega

theorem kAt_pos {d : Dname} (h : validD d) (i : Nat) : 1 ≤ kAt d i := by
  unfold kAt
  rcases Nat.lt_or_ge i (dname_to_key d).length with hi | hi
  · rw [List.getD_eq_getElem _ _ hi]
    exact key_pos (fun l hl => (h.1 l hl).2.2) _ (List.getElem_mem hi)
  · rw [List.getD_eq_default _ _ hi]
    decide

/-! ### Rank lemmas: bitmap bits and twig-vector indices -/

theorem twigpos_zero (bmp : Nat) : twigpos bmp 0 = 0 := by
  unfold twigpos
  rw [Nat.pow_zero, Nat.mod_one]
  exact popcnt_zero

theorem twigpos_succ_div (bmp b : Nat) :
    twigpos bmp (b + 1) = bmp % 2 + twigpos (bmp / 2) b := by
  unfold twigpos
  have hpow : (2 : Nat) ^ (b + 1) = 2 * 2 ^ b := by rw [Nat.pow_succ]; ring
  have h1 : bmp % 2 ^ (b + 1) = bmp % 2 + 2 * (bmp / 2 % 2 ^ b) := by
    rw [hpow, Nat.mod_mul]
  rw [h1]
  have h2 : bmp % 2 = 0 ∨ bmp % 2 = 1 := by omega
  rcases h2 with h2 | h2
  · rw [h2]
    simpa using popcnt_even (bmp / 2 % 2 ^ b)
  · rw [h2, popcnt_odd]
    omega

theorem testBit_zero_mod (n : Nat) : n.testBit 0 = decide (n % 2 = 1) := by
  have h := testBit_div_mod n 0
  simpa using h

theorem testBit_succ_div (n b : Nat) : n.testBit (b + 1) = (n / 2).testBit b := by
  rw [testBit_div_mod, testBit_div_mod]
  have h : n / 2 ^ (b + 1) = n / 2 / 2 ^ b := by
    rw [Nat.div_div_eq_div_mul]
    congr 1
    rw [Nat.pow_succ]
    ring
  rw [h]

/-- Rank surjectivity: every index below the popcount is the rank of a
set bit. -/
theorem rank_surj : ∀ bmp i, i < popcnt bmp →
    ∃ b, bmp.testBit b = true ∧ twigpos bmp b = i := by
  intro bmp
  induction bmp using Nat.strong_induction_on with
  | _ bmp ih =>
    intro i hi
    have hbmp : bmp ≠ 0 := by
      intro h0
      rw [h0, popcnt_zero] at hi
      omega
    have hrec := popcnt_eq bmp
    by_cases hpar : bmp % 2 = 1
    · cases i with
      | zero =>
        refine ⟨0, ?_, twigpos_zero bmp⟩
        rw [testBit_zero_mod]
        simp [hpar]
      | succ j =>
        have hj : j < popcnt (bmp / 2) := by omega
        obtain ⟨b, hb1, hb2⟩ := ih (bmp / 2) (by omega) j hj
        refine ⟨b + 1, ?_, ?_⟩
        · rw [testBit_succ_div]
          exact hb1
        · rw [twigpos_succ_div, hpar, hb2]
          omega
    · have hpar0 : bmp % 2 = 0 := by omega
      have hj : i < popcnt (bmp / 2) := by omega
      obtain ⟨b, hb1, hb2⟩ := ih (bmp / 2) (by omega) i hj
      refine ⟨b + 1, ?_, ?_⟩
      · rw [testBit_succ_div]
        exact hb1
      · rw [twigpos_succ_div, hpar0, hb2]
        omega

theorem rank_surj_lt {bmp : Nat} (hw : bmp < 2 ^ 48) {i : Nat} (hi : i < popcnt bmp) :
    ∃ b, b < 48 ∧ bmp.testBit b = true ∧ twigpos bmp b = i := by
  obtain ⟨b, hb1, hb2⟩ := rank_surj bmp i hi
  refine ⟨b, ?_, hb1, hb2⟩
  by_contra hge
  rw [testBit_lt_of_ge hw (by omega)] at hb1
  exact Bool.noConfusion hb1

theorem rank_bit_eq {bmp b1 b2 : Nat} (h1 : bmp.testBit b1 = true)
    (h2 : bmp.testBit b2 = true) (h : twigpos bmp b1 = twigpos bmp b2) : b1 = b2 := by
  rcases Nat.lt_trichotomy b1 b2 with hc | hc | hc
  · have := twigpos_strict h1 hc
    omega
  · exact hc
  · have := twigpos_strict h2 hc
    omega

/-! ### List helpers for the twig vectors -/

theorem twigGet_eq_getElem {ts : List QpNode} {i : Nat} (h : i < ts.length) :
    twigGet ts i = ts[i] := by
  simp [twigGet, List.getD_eq_getElem?_getD, List.getElem?_eq_getElem h]

theorem insertIdx_split {α : Type} (a : α) :
    ∀ (n : Nat) (l : List α), n ≤ l.length →
      l.insertIdx n a = l.take n ++ a :: l.drop n
  | 0, l, _ => by simp
  | n + 1, [], h => by simp at h
  | n + 1, x :: xs, h => by
    rw [List.insertIdx_succ_cons]
    simp only [List.take_succ_cons, List.drop_succ_cons, List.cons_append]
    rw [insertIdx_split a n xs (by simpa using h)]

theorem range_flatMap_getD {α β : Type} (d : α) (f : α → List β) :
    ∀ (l : List α), (List.range l.length).flatMap (fun i => f (l.getD i d)) = l.flatMap f
  | [] => by simp
  | x :: xs => by
    rw [List.length_cons, List.range_succ_eq_map, List.flatMap_cons, List.flatMap_map]
    simp only [Nat.succ_eq_add_one, List.getD_cons_succ, List.getD_cons_zero]
    rw [range_flatMap_getD d f xs, List.flatMap_cons]

theorem mem_flatMap_idx {α β : Type} {d : α} {f : α → List β} {l : List α} {b : β}
    (h : b ∈ l.flatMap f) : ∃ i, i < l.length ∧ b ∈ f (l.getD i d) := by
  rw [List.mem_flatMap] at h
  obtain ⟨a, ha, hb⟩ := h
  obtain ⟨i, hi, heq⟩ := List.getElem_of_mem ha
  refine ⟨i, hi, ?_⟩
  rw [List.getD_eq_getElem _ _ hi, heq]
  exact hb

theorem pairwise_flatMap_idx {α β : Type} (d : α) {R : β → β → Prop} (f : α → List β) :
    ∀ (l : List α),
      (∀ i, i < l.length → (f (l.getD i d)).Pairwise R) →
      (∀ i j, i < j → j < l.length →
        ∀ p ∈ f (l.getD i d), ∀ q ∈ f (l.getD j d), R p q) →
      (l.flatMap f).Pairwise R
  | [], _, _ => by simp
  | x :: xs, hself, hcross => by
    rw [List.flatMap_cons, List.pairwise_append]
    refine ⟨by simpa using hself 0 (by simp), ?_, ?_⟩
    · refine pairwise_flatMap_idx d f xs (fun i hi => ?_) (fun i j hij hj => ?_)
      · simpa using hself (i + 1) (by simpa using hi)
      · simpa using hcross (i + 1) (j + 1) (by omega) (by simpa using hj)
    · intro p hp q hq
      obtain ⟨j, hj, hqj⟩ := mem_flatMap_idx (d := d) hq
      refine hcross 0 (j + 1) (by omega) (by simpa using hj) p (by simpa using hp) q ?_
      simpa using hqj

/-! ### Equation lemmas for the subtree functions -/

theorem leaves_branch (off bmp : Nat) (ts : List QpNode) :
    leavesList (.branch off bmp ts) = ts.flatMap leavesList := by
  rw [leavesList]
  conv_rhs => rw [← List.attach_map_subtype_val ts]
  rw [List.flatMap_map]

theorem foreach_branch (off bmp : Nat) (ts : List QpNode) :
    qp_foreach (.branch off bmp ts) =
      (List.range (twigmax bmp)).flatMap (fun i => qp_foreach (twigGet ts i)) := by
  rw [qp_foreach]
  conv_rhs => rw [← List.attach_map_subtype_val (List.range (twigmax bmp))]
  rw [List.flatMap_map]

theorem foreach_flat {off bmp : Nat} {ts : List QpNode} (hlen : ts.length = twigmax bmp) :
    qp_foreach (.branch off bmp ts) = ts.flatMap qp_foreach := by
  rw [foreach_branch, ← hlen]
  have h := range_flatMap_getD QpNode.nullLeaf qp_foreach ts
  simpa [twigGet] using h

theorem leaves_mem_branch {off bmp : Nat} {ts : List QpNode} {p : Dname × Nat} :
    p ∈ leavesList (.branch off bmp ts) ↔
      ∃ i, i < ts.length ∧ p ∈ leavesList (twigGet ts i) := by
  rw [leaves_branch, List.mem_flatMap]
  constructor
  · rintro ⟨x, hx, hp⟩
    obtain ⟨i, hi, heq⟩ := List.getElem_of_mem hx
    exact ⟨i, hi, by rwa [twigGet_eq_getElem hi, heq]⟩
  · rintro ⟨i, hi, hp⟩
    refine ⟨twigGet ts i, ?_, hp⟩
    rw [twigGet_eq_getElem hi]
    exact List.getElem_mem hi

/-! ### Shape of valid keys: no adjacent separators -/

/-- Boolean scan: no two adjacent entries are both the NOBYTE shift. -/
def noDouble : List Nat → Bool
  | x :: y :: rest => !(x == SHIFT_NOBYTE && y == SHIFT_NOBYTE) && noDouble (y :: rest)
  | _ => true

theorem noDouble_cons_of_ne {x : Nat} (hx : x ≠ SHIFT_NOBYTE) {l : List Nat}
    (hl : noDouble l = true) : noDouble (x :: l) = true := by
  cases l with
  | nil => rfl
  | cons y ys =>
    show (!(x == SHIFT_NOBYTE && y == SHIFT_NOBYTE) && noDouble (y :: ys)) = true
    simp [hx, hl]

theorem noDouble_cons_nb {z : Nat} (hz : z ≠ SHIFT_NOBYTE) {l : List Nat}
    (hl : noDouble (z :: l) = true) : noDouble (SHIFT_NOBYTE :: z :: l) = true := by
  show (!(SHIFT_NOBYTE == SHIFT_NOBYTE && z == SHIFT_NOBYTE) && noDouble (z :: l)) = true
  simp [hz, hl]

theorem noDouble_append_of_all :
    ∀ {u : List Nat}, (∀ x ∈ u, x ≠ SHIFT_NOBYTE) →
      ∀ {v : List Nat}, noDouble v = true → noDouble (u ++ v) = true
  | [], _, v, hv => hv
  | x :: xs, hu, v, hv => by
    rw [List.cons_append]
    refine noDouble_cons_of_ne (hu x (by simp)) ?_
    exact noDouble_append_of_all (fun y hy => hu y (by simp [hy])) hv

theorem noDouble_idx : ∀ {u : List Nat}, noDouble u = true →
    ∀ i, u.getD i SHIFT_NOBYTE = SHIFT_NOBYTE →
      u.getD (i + 1) SHIFT_NOBYTE = SHIFT_NOBYTE → u.length ≤ i + 1
  | [], _, i, _, _ => by simp
  | [x], _, i, _, _ => by
    simp only [List.length_singleton]
    omega
  | x :: y :: rest, h, 0, h1, h2 => by
    exfalso
    simp only [noDouble, Bool.and_eq_true, Bool.not_eq_true', Bool.and_eq_false_iff] at h
    simp only [List.getD_cons_zero] at h1
    simp only [List.getD_cons_succ, List.getD_cons_zero] at h2
    rcases h.1 with hc | hc
    · rw [h1] at hc
      simp at hc
    · rw [h2] at hc
      simp at hc
  | x :: y :: rest, h, i + 1, h1, h2 => by
    have htail : noDouble (y :: rest) = true := by
      simp only [noDouble, Bool.and_eq_true] at h
      exact h.2
    have hrec := noDouble_idx htail i (by simpa using h1) (by simpa using h2)
    simp only [List.length_cons] at hrec ⊢
    omega

theorem encLabel_ge_two {l : Label} (hl : ∀ b ∈ l, b < 256) :
    ∀ x ∈ encLabel l, 2 ≤ x := by
  intro x hx
  rw [encLabel, List.mem_flatMap] at hx
  obtain ⟨b, hbm, hxb⟩ := hx
  have hb := hl b hbm
  have hlow := table_low_range b hb
  have hhigh := table_high_range b hb
  rw [encByte_eq] at hxb
  unfold lowB highB at hxb
  by_cases hh : tableEntry b >>> 8 = 0
  · rw [if_pos hh, List.mem_singleton] at hxb
    omega
  · rw [if_neg hh] at hxb
    simp only [List.mem_cons, List.mem_singleton, List.not_mem_nil, or_false] at hxb
    rcases hhigh with h2 | h2 <;> rcases hxb with rfl | rfl <;> omega

theorem dname_to_key_nil : dname_to_key [] = [] := rfl

theorem key_ne_nil {d : Dname} (hd : d ≠ []) : dname_to_key d ≠ [] := by
  cases d with
  | nil => exact absurd rfl hd
  | cons l d2 =>
    intro hcon
    have hmem : SHIFT_NOBYTE ∈ dname_to_key (l :: d2) := by
      rw [dname_to_key, List.flatMap_cons]
      simp
    rw [hcon] at hmem
    exact List.not_mem_nil _ hmem

theorem key_head_shape {d : Dname} (h : validD d) (hd : d ≠ []) :
    ∃ z rest, dname_to_key d = z :: rest ∧ 2 ≤ z ∧ z < 48 := by
  cases d with
  | nil => exact absurd rfl hd
  | cons l d2 =>
    have hl := h.1 l (List.mem_cons_self l d2)
    cases hy : l with
    | nil => exact absurd hy hl.1
    | cons y ys =>
      subst hy
      have hyb := hl.2.2 y (List.mem_cons_self y ys)
      have hlow := table_low_range y hyb
      refine ⟨lowB y,
        (if tableEntry y >>> 8 ≠ 0 then [tableEntry y >>> 8] else []) ++
          (encLabel ys ++ ([SHIFT_NOBYTE] ++
            d2.flatMap (fun l2 => encLabel l2 ++ [SHIFT_NOBYTE]))), ?_, ?_, ?_⟩
      · rw [dname_to_key, List.flatMap_cons]
        rw [show encLabel (y :: ys) = encByte y ++ encLabel ys from by
          rw [encLabel, encLabel, List.flatMap_cons]]
        rw [encByte_eq]
        unfold lowB highB
        by_cases hh : tableEntry y >>> 8 = 0 <;> simp [hh]
      · unfold lowB
        omega
      · unfold lowB
        omega

theorem key_getLast : ∀ {d : Dname}, d ≠ [] →
    (dname_to_key d).getLast? = some SHIFT_NOBYTE
  | [], hd => absurd rfl hd
  | l :: d2, _ => by
    rw [dname_to_key, List.flatMap_cons]
    by_cases h2 : d2 = []
    · subst h2
      rw [show ([] : Dname).flatMap (fun l => encLabel l ++ [SHIFT_NOBYTE]) = [] from rfl,
        List.append_nil]
      rw [List.getLast?_append_of_ne_nil _ (by simp)]
      simp
    · have h3 : d2.flatMap (fun l2 => encLabel l2 ++ [SHIFT_NOBYTE]) ≠ [] := key_ne_nil h2
      rw [List.getLast?_append_of_ne_nil _ h3]
      exact key_getLast h2

theorem key_noDouble : ∀ {d : Dname}, validD d → noDouble (dname_to_key d) = true
  | [], _ => rfl
  | l :: d2, h => by
    have hl := h.1 l (List.mem_cons_self l d2)
    have hrest := key_noDouble (validD_tail h)
    rw [dname_to_key, List.flatMap_cons]
    have hassoc : encLabel l ++ [SHIFT_NOBYTE] ++
        d2.flatMap (fun l2 => encLabel l2 ++ [SHIFT_NOBYTE]) =
        encLabel l ++ (SHIFT_NOBYTE :: dname_to_key d2) := by
      rw [dname_to_key, List.append_assoc]
      rfl
    rw [hassoc]
    refine noDouble_append_of_all (fun x hx => ?_) ?_
    · have := encLabel_ge_two hl.2.2 x hx
      unfold SHIFT_NOBYTE
      omega
    · by_cases h2 : d2 = []
      · subst h2
        rfl
      · obtain ⟨z, rest, hk, hz2, _⟩ := key_head_shape (validD_tail h) h2
        rw [hk]
        refine noDouble_cons_nb ?_ ?_
        · intro hzeq
          rw [hzeq] at hz2
          revert hz2
          decide
        · rw [← hk]
          exact hrest

/-! ### The divergence offset of two keys -/

/-- Keys of fold-distinct valid names differ at a position no further
than the first name's key length. -/
theorem diverge_exists {a b : Dname} (ha : validD a) (hb : validD b)
    (hne : foldName a ≠ foldName b) :
    ∃ off, off ≤ (dname_to_key a).length ∧ kAt a off ≠ kAt b off := by
  by_contra hno
  push_neg at hno
  have hall : ∀ i, kAt a i = kAt b i := by
    have hlb : (dname_to_key b).length ≤ (dname_to_key a).length := by
      by_contra hgt
      push_neg at hgt
      by_cases hanil : a = []
      · subst hanil
        have hbne : b ≠ [] := by
          intro hbnil
          subst hbnil
          simp [dname_to_key_nil] at hgt
        obtain ⟨z, rest, hk, hz2, _⟩ := key_head_shape hb hbne
        have h0 := hno 0 (by omega)
        rw [kAt_nil] at h0
        unfold kAt at h0
        rw [hk] at h0
        simp only [List.getD_cons_zero] at h0
        unfold SHIFT_NOBYTE at h0
        omega
      · have hka := key_ne_nil hanil
        have hlena : 1 ≤ (dname_to_key a).length := by
          cases hk : dname_to_key a with
          | nil => exact absurd hk hka
          | cons z rest => simp [hk]
        have hend : kAt a ((dname_to_key a).length - 1) = SHIFT_NOBYTE := by
          have hg := key_getLast hanil
          rw [List.getLast?_eq_getElem?] at hg
          unfold kAt
          rw [List.getD_eq_getElem?_getD, hg]
          rfl
        have hbend : kAt b ((dname_to_key a).length - 1) = SHIFT_NOBYTE := by
          rw [← hno ((dname_to_key a).length - 1) (by omega)]
          exact hend
        have hbend2 : kAt b (dname_to_key a).length = SHIFT_NOBYTE := by
          rw [← hno (dname_to_key a).length (by omega)]
          unfold kAt
          rw [List.getD_eq_default _ _ (by omega)]
        have hnd := key_noDouble hb
        have hidx := noDouble_idx hnd ((dname_to_key a).length - 1) hbend (by
          have heq1 : (dname_to_key a).length - 1 + 1 = (dname_to_key a).length := by omega
          rw [heq1]
          exact hbend2)
        omega
    intro i
    rcases Nat.lt_or_ge (dname_to_key a).length i with hgt | hle
    · unfold kAt
      rw [List.getD_eq_default _ _ (by omega), List.getD_eq_default _ _ (by omega)]
    · exact hno i hle
  exact hne (fold_eq_of_kAt_eq ha hb hall)

theorem range_find_spec {p : Nat → Bool} {n x : Nat}
    (h : (List.range n).find? p = some x) :
    p x = true ∧ x < n ∧ ∀ j, j < x → p j = false := by
  obtain ⟨hp, as, bs, heq, hall⟩ := List.find?_eq_some.mp h
  have hxlt : x < n := by
    have hm := List.mem_of_find?_eq_some h
    simpa [List.mem_range] using hm
  have hlen : as.length < n := by
    have hc := congrArg List.length heq
    simp only [List.length_range, List.length_append, List.length_cons] at hc
    omega
  have hx : x = as.length := by
    have h1 : (List.range n)[as.length]? = some as.length := List.getElem?_range hlen
    rw [heq, List.getElem?_append_right (Nat.le_refl as.length)] at h1
    simp only [Nat.sub_self, List.getElem?_cons_zero, Option.some.injEq] at h1
    exact h1
  refine ⟨hp, hxlt, fun j hj => ?_⟩
  rw [hx] at hj
  have hjas : j ∈ as := by
    have h1 : (List.range n)[j]? = some j := List.getElem?_range (by omega)
    rw [heq, List.getElem?_append] at h1
    rw [if_pos (show j < as.length by omega)] at h1
    exact List.getElem?_mem h1
  have := hall j hjas
  simpa using this

theorem range_find_none {p : Nat → Bool} {n : Nat}
    (h : (List.range n).find? p = none) : ∀ j, j < n → p j = false := by
  intro j hj
  have hm := List.find?_eq_none.mp h j (by simpa [List.mem_range] using hj)
  simpa using hm

theorem divergeOff_isSome {a b : Dname} (ha : validD a) (hb : validD b)
    (hne : foldName a ≠ foldName b) : ∃ off, divergeOff a b = some off := by
  obtain ⟨off, hle, hne2⟩ := diverge_exists ha hb hne
  unfold divergeOff
  cases hf : (List.range ((dname_to_key a).length + 1)).find?
      (fun o => kAt a o != kAt b o) with
  | some x => exact ⟨x, rfl⟩
  | none =>
    exfalso
    have hj := range_find_none hf off (by omega)
    simp only [bne_eq_false_iff_eq] at hj
    exact hne2 hj

theorem divergeOff_spec {a b : Dname} {off : Nat} (h : divergeOff a b = some off) :
    kAt a off ≠ kAt b off ∧ (∀ j, j < off → kAt a j = kAt b j) ∧
      off ≤ (dname_to_key a).length := by
  unfold divergeOff at h
  obtain ⟨h1, h2, h3⟩ := range_find_spec h
  refine ⟨by simpa using h1, fun j hj => ?_, by omega⟩
  have := h3 j hj
  simpa only [bne_eq_false_iff_eq] using this

/-! ### The structural invariant of a qp-trie subtree -/

/-- Well-formed qp-trie subtree: leaves carry non-NULL values and
valid names; a branch keeps its bitmap inside the 48-bit field with at
least two twigs, a twig vector whose length is the bitmap weight,
each twig holding exactly the leaves whose key byte at the branch
offset maps to the twig's bitmap bit, all leaves agreeing on the key
below the offset, and child branches testing strictly larger
offsets. -/
inductive WF : QpNode → Prop
  | leaf {v : Nat} {nm : Dname} : v ≠ 0 → validD nm → WF (.leaf v nm)
  | branch {off bmp : Nat} {ts : List QpNode} :
      bmp < 2 ^ 48 →
      2 ≤ twigmax bmp →
      ts.length = twigmax bmp →
      (∀ i, i < ts.length → WF (twigGet ts i)) →
      (∀ i, i < ts.length → ∀ p ∈ leavesList (twigGet ts i),
        hastwig bmp (kAt p.1 off) = true ∧ twigpos bmp (kAt p.1 off) = i) →
      (∀ p ∈ leavesList (.branch off bmp ts), ∀ q ∈ leavesList (.branch off bmp ts),
        ∀ j, j < off → kAt p.1 j = kAt q.1 j) →
      (∀ i, i < ts.length → ∀ o2 b2 t2, twigGet ts i = QpNode.branch o2 b2 t2 → off < o2) →
      WF (.branch off bmp ts)

theorem hastwig_testBit (bmp b : Nat) : hastwig bmp b = bmp.testBit b := rfl

theorem leaves_leaf (v : Nat) (nm : Dname) : leavesList (.leaf v nm) = [(nm, v)] := by
  rw [leavesList]

theorem leaves_null : leavesList .nullLeaf = [] := by
  rw [leavesList]

theorem WF_not_null {t : QpNode} (h : WF t) : t ≠ .nullLeaf := by
  cases h <;> intro hc <;> exact QpNode.noConfusion hc

theorem leaves_ne_nil {t : QpNode} (h : WF t) : leavesList t ≠ [] := by
  induction h with
  | @leaf v nm hv hd =>
    rw [leaves_leaf]
    intro hc
    exact List.noConfusion hc
  | @branch off bmp ts hw h2 hlen hwf hbit hagree hoff ih =>
    have h0 : 0 < ts.length := by omega
    rw [leaves_branch]
    cases hts : ts with
    | nil =>
      rw [hts] at h0
      simp at h0
    | cons t0 rest =>
      rw [List.flatMap_cons]
      have hne := ih 0 h0
      rw [hts] at hne
      simp only [twigGet, List.getD_cons_zero] at hne
      intro hc
      rcases List.append_eq_nil.mp hc with ⟨h1, _⟩
      exact hne h1

theorem leaves_valid {t : QpNode} (h : WF t) :
    ∀ p ∈ leavesList t, validD p.1 ∧ p.2 ≠ 0 := by
  induction h with
  | @leaf v nm hv hd =>
    intro p hp
    rw [leaves_leaf, List.mem_singleton] at hp
    subst hp
    exact ⟨hd, hv⟩
  | @branch off bmp ts hw h2 hlen hwf hbit hagree hoff ih =>
    intro p hp
    obtain ⟨i, hi, hpi⟩ := leaves_mem_branch.mp hp
    exact ih i hi p hpi

/-- The leaves of a well-formed subtree are strictly sorted in key
stream order. -/
theorem leaves_sorted {t : QpNode} (h : WF t) :
    (leavesList t).Pairwise (fun p q => StrLt (kAt p.1) (kAt q.1)) := by
  induction h with
  | leaf hv hd =>
    rw [leaves_leaf]
    simp
  | @branch off bmp ts hw h2 hlen hwf hbit hagree hoff ih =>
    rw [leaves_branch]
    refine pairwise_flatMap_idx QpNode.nullLeaf leavesList ts (fun i hi => ?_) ?_
    · have hp := ih i hi
      simpa [twigGet] using hp
    · intro i j hij hj p hp q hq
      have hpB : p ∈ leavesList (QpNode.branch off bmp ts) :=
        leaves_mem_branch.mpr ⟨i, by omega, by simpa [twigGet] using hp⟩
      have hqB : q ∈ leavesList (QpNode.branch off bmp ts) :=
        leaves_mem_branch.mpr ⟨j, hj, by simpa [twigGet] using hq⟩
      have hpbit := hbit i (by omega) p (by simpa [twigGet] using hp)
      have hqbit := hbit j hj q (by simpa [twigGet] using hq)
      refine ⟨off, fun k hk => hagree p hpB q hqB k hk, ?_⟩
      rw [hastwig_testBit] at hpbit hqbit
      by_contra hge
      push_neg at hge
      rcases Nat.lt_or_eq_of_le hge with hlt | heqb
      · have hs := twigpos_strict hqbit.1 hlt
        rw [hpbit.2, hqbit.2] at hs
        omega
      · have : twigpos bmp (kAt q.1 off) = twigpos bmp (kAt p.1 off) := by rw [heqb]
        rw [hpbit.2, hqbit.2] at this
        omega

theorem first_leaf_branch (off bmp : Nat) (ts : List QpNode) :
    first_leaf (.branch off bmp ts) = first_leaf (twigGet ts 0) := by
  rw [first_leaf]

theorem last_leaf_branch (off bmp : Nat) (ts : List QpNode) :
    last_leaf (.branch off bmp ts) = last_leaf (twigGet ts (twigmax bmp - 1)) := by
  rw [last_leaf]

theorem first_leaf_spec {t : QpNode} (h : WF t) :
    ∃ v nm, first_leaf t = .leaf v nm ∧ (leavesList t).head? = some (nm, v) := by
  induction h with
  | @leaf v nm hv hd =>
    refine ⟨v, nm, by simp [first_leaf], ?_⟩
    rw [leaves_leaf]
    rfl
  | @branch off bmp ts hw h2 hlen hwf hbit hagree hoff ih =>
    have h0 : 0 < ts.length := by omega
    obtain ⟨v, nm, h1, h2h⟩ := ih 0 h0
    refine ⟨v, nm, ?_, ?_⟩
    · rw [first_leaf_branch]
      exact h1
    · rw [leaves_branch]
      cases hts : ts with
      | nil =>
        rw [hts] at h0
        simp at h0
      | cons t0 rest =>
        rw [List.flatMap_cons]
        have hne : leavesList t0 ≠ [] := by
          have hx := leaves_ne_nil (hwf 0 h0)
          rw [hts] at hx
          simpa [twigGet] using hx
        rw [List.head?_append_of_ne_nil _ hne]
        rw [hts] at h2h
        simpa [twigGet] using h2h

theorem flatMap_getLast? {α β : Type} (d : α) (f : α → List β) :
    ∀ (l : List α), l ≠ [] → f (l.getD (l.length - 1) d) ≠ [] →
      (l.flatMap f).getLast? = (f (l.getD (l.length - 1) d)).getLast?
  | [], h, _ => absurd rfl h
  | [x], _, _ => by simp
  | x :: y :: rest, _, h => by
    have hlen2 : (x :: y :: rest).length - 1 = (y :: rest).length - 1 + 1 := by
      simp
    rw [hlen2, List.getD_cons_succ] at h ⊢
    have hne2 : (y :: rest).flatMap f ≠ [] := by
      intro hc
      rw [List.flatMap_eq_nil_iff] at hc
      refine h (hc _ ?_)
      rw [List.getD_eq_getElem _ _ (by simp)]
      exact List.getElem_mem _
    rw [List.flatMap_cons, List.getLast?_append_of_ne_nil _ hne2]
    exact flatMap_getLast? d f (y :: rest) (by simp) h

theorem last_leaf_spec {t : QpNode} (h : WF t) :
    ∃ v nm, last_leaf t = .leaf v nm ∧ (leavesList t).getLast? = some (nm, v) := by
  induction h with
  | @leaf v nm hv hd =>
    refine ⟨v, nm, by simp [last_leaf], ?_⟩
    rw [leaves_leaf]
    rfl
  | @branch off bmp ts hw h2 hlen hwf hbit hagree hoff ih =>
    have hlast : ts.length - 1 < ts.length := by omega
    obtain ⟨v, nm, h1, h2h⟩ := ih (ts.length - 1) hlast
    refine ⟨v, nm, ?_, ?_⟩
    · rw [last_leaf_branch, ← hlen]
      exact h1
    · rw [leaves_branch]
      have hne1 : ts ≠ [] := by
        intro hc
        rw [hc] at hlast
        simp at hlast
      have hne2 : leavesList (ts.getD (ts.length - 1) QpNode.nullLeaf) ≠ [] := by
        have hx := leaves_ne_nil (hwf (ts.length - 1) hlast)
        simpa [twigGet] using hx
      rw [flatMap_getLast? QpNode.nullLeaf leavesList ts hne1 hne2]
      simpa [twigGet] using h2h

theorem flatMap_congr_idx {α β : Type} (d : α) (f g : α → List β) :
    ∀ (l : List α), (∀ i, i < l.length → f (l.getD i d) = g (l.getD i d)) →
      l.flatMap f = l.flatMap g
  | [], _ => rfl
  | x :: xs, h => by
    rw [List.flatMap_cons, List.flatMap_cons]
    rw [show f x = g x from by simpa using h 0 (by simp)]
    rw [flatMap_congr_idx d f g xs (fun i hi => by simpa using h (i + 1) (by simpa using hi))]

/-- foreach enumerates exactly the values of the leaves, in twig
order. -/
theorem foreach_eq {t : QpNode} (h : WF t) :
    qp_foreach t = (leavesList t).map (fun p => p.2) := by
  induction h with
  | @leaf v nm hv hd =>
    rw [qp_foreach, leaves_leaf]
    simp [hv]
  | @branch off bmp ts hw h2 hlen hwf hbit hagree hoff ih =>
    rw [foreach_flat hlen, leaves_branch, List.map_flatMap]
    exact flatMap_congr_idx QpNode.nullLeaf _ _ ts
      (fun i hi => by simpa [twigGet] using ih i hi)

/-- The names of the leaves of a well-formed subtree are strictly
ascending under the embedder comparator. -/
theorem leaves_names_sorted {t : QpNode} (h : WF t) :
    ((leavesList t).map (fun p => p.1)).Pairwise dnameLt := by
  have hs := leaves_sorted h
  have hv := leaves_valid h
  refine List.Pairwise.map _ (fun a b hab => hab) ?_
  refine hs.imp_of_mem (fun {p q} hp hq hpq => ?_)
  exact strLt_dnameLt (hv p hp).1 (hv q hq).1 hpq

/-! ### Twig vector surgery: reading shrunk, grown and patched vectors -/

theorem set_twigGet_self {ts : List QpNode} {pos : Nat} (h : pos < ts.length) :
    ts.set pos (twigGet ts pos) = ts := by
  rw [twigGet_eq_getElem h, List.set_eq_take_cons_drop _ h, ← List.drop_eq_getElem_cons h,
    List.take_append_drop]

theorem getD_take_lt {α : Type} {l : List α} {n j : Nat} (d : α) (h : j < n) :
    (l.take n).getD j d = l.getD j d := by
  rw [List.getD_eq_getElem?_getD, List.getD_eq_getElem?_getD, List.getElem?_take, if_pos h]

theorem getD_drop {α : Type} (l : List α) (n j : Nat) (d : α) :
    (l.drop n).getD j d = l.getD (n + j) d := by
  rw [List.getD_eq_getElem?_getD, List.getD_eq_getElem?_getD, List.getElem?_drop]

theorem twigGet_set {ts : List QpNode} {pos : Nat} (r : QpNode) (h : pos < ts.length) :
    ∀ j, twigGet (ts.set pos r) j = if j = pos then r else twigGet ts j := by
  intro j
  unfold twigGet
  rw [List.set_eq_take_cons_drop _ h]
  rcases Nat.lt_trichotomy j pos with hj | hj | hj
  · rw [if_neg (by omega)]
    rw [List.getD_append _ _ _ _ (by rw [List.length_take]; omega)]
    exact getD_take_lt _ hj
  · subst hj
    rw [if_pos rfl]
    rw [List.getD_append_right _ _ _ _ (by rw [List.length_take]; omega)]
    rw [List.length_take, Nat.min_eq_left (by omega), Nat.sub_self]
    rfl
  · rw [if_neg (by omega)]
    rw [List.getD_append_right _ _ _ _ (by rw [List.length_take]; omega)]
    rw [List.length_take, Nat.min_eq_left (by omega)]
    have hj2 : j - pos = (j - pos - 1) + 1 := by omega
    rw [hj2]
    show (List.drop (pos + 1) ts).getD (j - pos - 1) QpNode.nullLeaf = ts.getD j QpNode.nullLeaf
    rw [getD_drop]
    congr 1
    omega

theorem twigGet_eraseIdx {ts : List QpNode} {pos : Nat} (h : pos < ts.length) :
    ∀ j, twigGet (ts.eraseIdx pos) j =
      if j < pos then twigGet ts j else twigGet ts (j + 1) := by
  intro j
  unfold twigGet
  rw [List.eraseIdx_eq_take_drop_succ]
  rcases Nat.lt_or_ge j pos with hj | hj
  · rw [if_pos hj]
    rw [List.getD_append _ _ _ _ (by rw [List.length_take]; omega)]
    exact getD_take_lt _ hj
  · rw [if_neg (by omega)]
    rw [List.getD_append_right _ _ _ _ (by rw [List.length_take]; omega)]
    rw [List.length_take, Nat.min_eq_left (by omega), getD_drop]
    congr 1
    omega

theorem twigGet_insertIdx {ts : List QpNode} {pos : Nat} (r : QpNode) (h : pos ≤ ts.length) :
    ∀ j, twigGet (ts.insertIdx pos r) j =
      if j < pos then twigGet ts j else if j = pos then r else twigGet ts (j - 1) := by
  intro j
  unfold twigGet
  rw [insertIdx_split r pos ts h]
  rcases Nat.lt_trichotomy j pos with hj | hj | hj
  · rw [if_pos hj]
    rw [List.getD_append _ _ _ _ (by rw [List.length_take]; omega)]
    exact getD_take_lt _ hj
  · subst hj
    rw [if_neg (by omega), if_pos rfl]
    rw [List.getD_append_right _ _ _ _ (by rw [List.length_take]; omega)]
    rw [List.length_take, Nat.min_eq_left (by omega), Nat.sub_self]
    rfl
  · rw [if_neg (by omega), if_neg (by omega)]
    rw [List.getD_append_right _ _ _ _ (by rw [List.length_take]; omega)]
    rw [List.length_take, Nat.min_eq_left (by omega)]
    have hj2 : j - pos = (j - pos - 1) + 1 := by omega
    rw [hj2]
    show (List.drop pos ts).getD (j - pos - 1) QpNode.nullLeaf = ts.getD (j - 1) QpNode.nullLeaf
    rw [getD_drop]
    congr 1
    omega

/-- Splitting the twig vector at a live position splits the leaves
list around that twig's leaves. -/
theorem leaves_split {off bmp : Nat} {ts : List QpNode} {pos : Nat} (h : pos < ts.length) :
    leavesList (.branch off bmp ts) =
      (ts.take pos).flatMap leavesList ++ leavesList (twigGet ts pos) ++
        (ts.drop (pos + 1)).flatMap leavesList := by
  rw [leaves_branch]
  conv_lhs => rw [← List.take_append_drop pos ts]
  rw [List.drop_eq_getElem_cons h, List.flatMap_append, List.flatMap_cons]
  rw [twigGet_eq_getElem h, List.append_assoc]

/-! ### qp_get: equations and correctness over well-formed subtrees -/

theorem qp_get_null (d : Dname) : qp_get d .nullLeaf = none := by
  rw [qp_get]

theorem qp_get_leaf (d : Dname) (v : Nat) (nm : Dname) :
    qp_get d (.leaf v nm) = if v ≠ 0 ∧ dnameEq d nm then some v else none := by
  rw [qp_get]

theorem qp_get_branch (d : Dname) (off bmp : Nat) (ts : List QpNode) :
    qp_get d (.branch off bmp ts) =
      if hastwig bmp (kAt d off) then
        qp_get d (twigGet ts (twigpos bmp (kAt d off)))
      else none := by
  rw [qp_get]

/-- get finds the stored value of any leaf whose name folds to the
query. -/
theorem qp_get_mem {t : QpNode} (h : WF t) {d : Dname} (hd : validD d) :
    ∀ {nm v}, (nm, v) ∈ leavesList t → foldName d = foldName nm →
      qp_get d t = some v := by
  induction h with
  | @leaf v2 nm2 hv2 hd2 =>
    intro nm v hmem heq
    rw [leaves_leaf, List.mem_singleton] at hmem
    have h1 : nm = nm2 := congrArg Prod.fst hmem
    have h2 : v = v2 := congrArg Prod.snd hmem
    subst h1
    subst h2
    rw [qp_get_leaf, if_pos ⟨hv2, dnameEq_iff.mpr heq⟩]
  | @branch off bmp ts hw h2 hlen hwf hbit hagree hoff ih =>
    intro nm v hmem heq
    obtain ⟨i, hi, hpi⟩ := leaves_mem_branch.mp hmem
    have hb := hbit i hi (nm, v) hpi
    have hvd : validD nm := (leaves_valid (hwf i hi) (nm, v) hpi).1
    have hk : kAt d = kAt nm := kAt_of_fold_eq hd hvd heq
    rw [qp_get_branch, hk, if_pos hb.1, hb.2]
    exact ih i hi hpi heq

/-- Everything get returns is the value of some leaf whose name folds
to the query. -/
theorem qp_get_some {t : QpNode} (h : WF t) {d : Dname} :
    ∀ {v}, qp_get d t = some v →
      ∃ nm, (nm, v) ∈ leavesList t ∧ dnameEq d nm = true := by
  induction h with
  | @leaf v2 nm2 hv2 hd2 =>
    intro v hg
    rw [qp_get_leaf] at hg
    split at hg
    · rename_i hc
      refine ⟨nm2, ?_, hc.2⟩
      rw [leaves_leaf, List.mem_singleton]
      have hv : v2 = v := Option.some.inj hg
      rw [hv]
    · exact absurd hg (by simp)
  | @branch off bmp ts hw h2 hlen hwf hbit hagree hoff ih =>
    intro v hg
    rw [qp_get_branch] at hg
    split at hg
    · rename_i hc
      rw [hastwig_testBit] at hc
      have hpos : twigpos bmp (kAt d off) < ts.length := by
        rw [hlen, twigmax_eq hw]
        exact twigpos_lt_popcnt hc
      obtain ⟨nm, hmem, hdeq⟩ := ih _ hpos hg
      exact ⟨nm, leaves_mem_branch.mpr ⟨_, hpos, hmem⟩, hdeq⟩
    · exact absurd hg (by simp)

theorem qp_get_none {t : QpNode} (h : WF t) {d : Dname}
    (habs : ∀ p ∈ leavesList t, dnameEq d p.1 = false) : qp_get d t = none := by
  cases hg : qp_get d t with
  | none => rfl
  | some v =>
    obtain ⟨nm, hmem, hdeq⟩ := qp_get_some h hg
    have hc := habs (nm, v) hmem
    rw [hdeq] at hc
    exact Bool.noConfusion hc

/-! ### qp_del: correctness over well-formed subtrees -/

/-- Deleting an absent name below the root is a structural no-op. -/
theorem qp_del_go_absent {t : QpNode} (h : WF t) {d : Dname} :
    ∀ off bmp ts, t = QpNode.branch off bmp ts →
      (∀ p ∈ leavesList t, dnameEq d p.1 = false) →
      qp_del_go d off bmp ts = some (QpNode.branch off bmp ts, false) := by
  induction h with
  | @leaf v nm hv hd2 =>
    intro off bmp ts hc
    exact absurd hc (by simp)
  | @branch off bmp ts hw h2 hlen hwf hbit hagree hoff ih =>
    intro off2 bmp2 ts2 hc habs
    injection hc with hc1 hc2 hc3
    subst hc1
    subst hc2
    subst hc3
    rw [qp_del_go]
    by_cases hht : hastwig bmp (kAt d off) = false
    · rw [if_pos hht]
    · simp only [Bool.not_eq_false] at hht
      rw [hht]
      rw [if_neg (by simp)]
      have hht2 : bmp.testBit (kAt d off) = true := by
        rw [← hastwig_testBit]
        exact hht
      have hpos : twigpos bmp (kAt d off) < ts.length := by
        rw [hlen, twigmax_eq hw]
        exact twigpos_lt_popcnt hht2
      have habs2 : ∀ p ∈ leavesList (twigGet ts (twigpos bmp (kAt d off))),
          dnameEq d p.1 = false :=
        fun p hp => habs p (leaves_mem_branch.mpr ⟨_, hpos, hp⟩)
      split
      · rename_i off3 bmp3 ts3 heq
        conv_lhs => rw [ih _ hpos off3 bmp3 ts3 heq habs2]
        show some (QpNode.branch off bmp
          (ts.set (twigpos bmp (kAt d off)) (QpNode.branch off3 bmp3 ts3)), false) =
          some (QpNode.branch off bmp ts, false)
        rw [← heq, set_twigGet_self hpos]
      · rename_i hne
        cases htw : twigGet ts (twigpos bmp (kAt d off)) with
        | nullLeaf => exact absurd htw (WF_not_null (hwf _ hpos))
        | leaf v2 nm2 =>
          have hmem2 : (nm2, v2) ∈ leavesList (twigGet ts (twigpos bmp (kAt d off))) := by
            rw [htw, leaves_leaf]
            simp
          have hne2 := habs2 (nm2, v2) hmem2
          simp [leafnameO, hne2]
        | branch o3 b3 t3 => exact absurd htw (fun hc => hne o3 b3 t3 hc)

theorem bit_lt_of_rank_lt {bmp b1 b2 : Nat} (h1 : bmp.testBit b1 = true)
    (h2 : bmp.testBit b2 = true) (h : twigpos bmp b1 < twigpos bmp b2) : b1 < b2 := by
  rcases Nat.lt_trichotomy b1 b2 with hc | hc | hc
  · exact hc
  · subst hc
    omega
  · have := twigpos_strict h2 hc
    omega

theorem list_len2 {α : Type} : ∀ {l : List α}, l.length = 2 → ∃ a b, l = [a, b]
  | [], h => by simp at h
  | [_], h => by simp at h
  | [a, b], _ => ⟨a, b, rfl⟩
  | _ :: _ :: _ :: _, h => by simp at h

/-- Replacing one twig by a well-formed node whose leaves keep the
twig's bit and rank and agree with the other leaves below the offset
keeps the branch well-formed. -/
theorem WF_set_twig {off bmp : Nat} {ts : List QpNode} (h : WF (.branch off bmp ts))
    {i : Nat} (hi : i < ts.length) {r2 : QpNode} (hWF2 : WF r2)
    (hsub : ∀ p ∈ leavesList r2, hastwig bmp (kAt p.1 off) = true ∧
      twigpos bmp (kAt p.1 off) = i)
    (hagr : ∀ p ∈ leavesList r2, ∀ q ∈ leavesList (.branch off bmp ts),
      ∀ j, j < off → kAt p.1 j = kAt q.1 j)
    (hoffr : ∀ o2 b2 t2, r2 = QpNode.branch o2 b2 t2 → off < o2) :
    WF (.branch off bmp (ts.set i r2)) := by
  cases h with
  | branch hw h2 hlen hwf hbit hagree hoff =>
    have hlen2 : (ts.set i r2).length = ts.length := List.length_set ..
    have hmem_new : ∀ p, p ∈ leavesList (QpNode.branch off bmp (ts.set i r2)) →
        p ∈ leavesList r2 ∨ p ∈ leavesList (QpNode.branch off bmp ts) := by
      intro p hp
      obtain ⟨j, hj, hpj⟩ := leaves_mem_branch.mp hp
      rw [hlen2] at hj
      rw [twigGet_set r2 hi] at hpj
      by_cases hji : j = i
      · rw [if_pos hji] at hpj
        exact Or.inl hpj
      · rw [if_neg hji] at hpj
        exact Or.inr (leaves_mem_branch.mpr ⟨j, hj, hpj⟩)
    -- a witness old leaf, to relate two new leaves below the offset
    have hwit : ∃ w, w ∈ leavesList (QpNode.branch off bmp ts) := by
      have h0 : 0 < ts.length := by omega
      have hne := leaves_ne_nil (hwf 0 h0)
      cases hl : leavesList (twigGet ts 0) with
      | nil => exact absurd hl hne
      | cons w rest =>
        exact ⟨w, leaves_mem_branch.mpr ⟨0, h0, by rw [hl]; simp⟩⟩
    obtain ⟨w, hwmem⟩ := hwit
    refine WF.branch hw h2 (by rw [hlen2]; exact hlen) ?_ ?_ ?_ ?_
    · intro j hj
      rw [hlen2] at hj
      rw [twigGet_set r2 hi]
      by_cases hji : j = i
      · rw [if_pos hji]
        exact hWF2
      · rw [if_neg hji]
        exact hwf j hj
    · intro j hj p hp
      rw [hlen2] at hj
      rw [twigGet_set r2 hi] at hp
      by_cases hji : j = i
      · rw [if_pos hji] at hp
        subst hji
        exact hsub p hp
      · rw [if_neg hji] at hp
        exact hbit j hj p hp
    · intro p hp q hq j hj
      rcases hmem_new p hp with hp2 | hp2 <;> rcases hmem_new q hq with hq2 | hq2
      · rw [hagr p hp2 w hwmem j hj, hagr q hq2 w hwmem j hj]
      · exact hagr p hp2 q hq2 j hj
      · rw [hagr q hq2 p hp2 j hj]
      · exact hagree p hp2 q hq2 j hj
    · intro j hj o2 b2 t2 heq
      rw [hlen2] at hj
      rw [twigGet_set r2 hi] at heq
      by_cases hji : j = i
      · rw [if_pos hji] at heq
        exact hoffr o2 b2 t2 heq
      · rw [if_neg hji] at heq
        exact hoff j hj o2 b2 t2 heq

/-- Erasing the twig of rank i and clearing its bit keeps a branch of
at least three twigs well-formed. -/
theorem WF_erase_twig {off bmp : Nat} {ts : List QpNode} (h : WF (.branch off bmp ts))
    {i bit : Nat} (hi : i < ts.length) (hbitset : bmp.testBit bit = true)
    (hrank : twigpos bmp bit = i) (htm : 3 ≤ twigmax bmp) :
    WF (.branch off (bmp - 2 ^ bit) (ts.eraseIdx i)) := by
  cases h with
  | branch hw h2 hlen hwf hbit hagree hoff =>
    have hble : 2 ^ bit ≤ bmp := by
      have hd := decomp_of_testBit hbitset
      omega
    have hw2 : bmp - 2 ^ bit < 2 ^ 48 := Nat.lt_of_le_of_lt (Nat.sub_le _ _) hw
    have htm2 : twigmax (bmp - 2 ^ bit) = twigmax bmp - 1 := by
      rw [twigmax_eq hw2, twigmax_eq hw, popcnt_clear hbitset]
    have hlen2 : (ts.eraseIdx i).length = ts.length - 1 := by
      rw [List.length_eraseIdx, if_pos hi]
    have hmem_old : ∀ p, p ∈ leavesList (QpNode.branch off (bmp - 2 ^ bit) (ts.eraseIdx i)) →
        p ∈ leavesList (QpNode.branch off bmp ts) := by
      intro p hp
      obtain ⟨j, hj, hpj⟩ := leaves_mem_branch.mp hp
      rw [hlen2] at hj
      rw [twigGet_eraseIdx hi] at hpj
      by_cases hji : j < i
      · rw [if_pos hji] at hpj
        exact leaves_mem_branch.mpr ⟨j, by omega, hpj⟩
      · rw [if_neg hji] at hpj
        exact leaves_mem_branch.mpr ⟨j + 1, by omega, hpj⟩
    refine WF.branch hw2 (by omega) (by omega) ?_ ?_ ?_ ?_
    · intro j hj
      rw [hlen2] at hj
      rw [twigGet_eraseIdx hi]
      by_cases hji : j < i
      · rw [if_pos hji]
        exact hwf j (by omega)
      · rw [if_neg hji]
        exact hwf (j + 1) (by omega)
    · intro j hj p hp
      rw [hlen2] at hj
      rw [twigGet_eraseIdx hi] at hp
      by_cases hji : j < i
      · rw [if_pos hji] at hp
        have hold := hbit j (by omega) p hp
        rw [hastwig_testBit] at hold ⊢
        have hpb : kAt p.1 off < bit := by
          refine bit_lt_of_rank_lt hold.1 hbitset ?_
          rw [hold.2, hrank]
          omega
        constructor
        · rw [testBit_clear hbitset]
          rw [hold.1]
          simp
          omega
        · rw [twigpos_clear hbitset, hold.2]
          rw [if_neg (show ¬ bit < kAt p.1 off by omega)]
          omega
      · rw [if_neg hji] at hp
        have hold := hbit (j + 1) (by omega) p hp
        rw [hastwig_testBit] at hold ⊢
        have hpb : bit < kAt p.1 off := by
          refine bit_lt_of_rank_lt hbitset hold.1 ?_
          rw [hold.2, hrank]
          omega
        constructor
        · rw [testBit_clear hbitset]
          rw [hold.1]
          simp
          omega
        · rw [twigpos_clear hbitset, hold.2]
          rw [if_pos (show bit < kAt p.1 off by omega)]
          omega
    · intro p hp q hq j hj
      exact hagree p (hmem_old p hp) q (hmem_old q hq) j hj
    · intro j hj o2 b2 t2 heq
      rw [hlen2] at hj
      rw [twigGet_eraseIdx hi] at heq
      by_cases hji : j < i
      · rw [if_pos hji] at heq
        exact hoff j (by omega) o2 b2 t2 heq
      · rw [if_neg hji] at heq
        exact hoff (j + 1) (by omega) o2 b2 t2 heq

theorem leaves_set {off bmp : Nat} {ts : List QpNode} {i : Nat} (hi : i < ts.length)
    (r2 : QpNode) :
    leavesList (.branch off bmp (ts.set i r2)) =
      (ts.take i).flatMap leavesList ++
        (leavesList r2 ++ (ts.drop (i + 1)).flatMap leavesList) := by
  rw [List.set_eq_take_cons_drop _ hi, leaves_branch, List.flatMap_append, List.flatMap_cons]

theorem leaves_erase {off bmp2 : Nat} {ts : List QpNode} (i : Nat) :
    leavesList (.branch off bmp2 (ts.eraseIdx i)) =
      (ts.take i).flatMap leavesList ++ (ts.drop (i + 1)).flatMap leavesList := by
  rw [List.eraseIdx_eq_take_drop_succ, leaves_branch, List.flatMap_append]

/-- Deleting a present name below the root removes exactly that leaf
and keeps the subtree well-formed. -/
theorem qp_del_go_present {t : QpNode} (h : WF t) {d : Dname} (hd : validD d) :
    ∀ off bmp ts, t = QpNode.branch off bmp ts →
      ∀ nm v, (nm, v) ∈ leavesList t → dnameEq d nm = true →
      ∃ l1 l2 r, leavesList t = l1 ++ (nm, v) :: l2 ∧
        qp_del_go d off bmp ts = some (r, true) ∧ WF r ∧
        leavesList r = l1 ++ l2 ∧
        (∀ o2 b2 t2, r = QpNode.branch o2 b2 t2 → off ≤ o2) := by
  induction h with
  | @leaf v2 nm2 hv2 hd2 =>
    intro off bmp ts hc
    exact absurd hc (by simp)
  | @branch off bmp ts hw h2 hlen hwf hbit hagree hoff ih =>
    intro off2 bmp2 ts2 hc nm v hmem hdeq
    injection hc with hc1 hc2 hc3
    subst hc1
    subst hc2
    subst hc3
    obtain ⟨i, hi, hpi⟩ := leaves_mem_branch.mp hmem
    have hb := hbit i hi (nm, v) hpi
    have hvd : validD nm := (leaves_valid (hwf i hi) (nm, v) hpi).1
    have hk : kAt d = kAt nm := kAt_of_fold_eq hd hvd (dnameEq_iff.mp hdeq)
    cases htw : twigGet ts i with
    | nullLeaf => exact absurd htw (WF_not_null (hwf _ hi))
    | branch off3 bmp3 ts3 =>
      obtain ⟨l1x, l2x, rx, hsplitx, hrunx, hWFx, hlvx, hoffx⟩ :=
        ih i hi off3 bmp3 ts3 htw nm v hpi hdeq
      have hrun : qp_del_go d off bmp ts =
          some (QpNode.branch off bmp (ts.set i rx), true) := by
        rw [qp_del_go, hk, hb.1]
        rw [if_neg (by simp)]
        rw [hb.2]
        split
        · rename_i off4 bmp4 ts4 heq
          rw [htw] at heq
          injection heq with e1 e2 e3
          subst e1
          subst e2
          subst e3
          rw [hrunx]
        · rename_i hne
          exact absurd htw (fun hc => hne off3 bmp3 ts3 hc)
      have hsubmem : ∀ p ∈ leavesList rx, p ∈ leavesList (twigGet ts i) := by
        intro p hp
        rw [hsplitx]
        rw [hlvx] at hp
        rcases List.mem_append.mp hp with h1 | h1
        · exact List.mem_append.mpr (Or.inl h1)
        · exact List.mem_append.mpr (Or.inr (by simp [h1]))
      refine ⟨(ts.take i).flatMap leavesList ++ l1x,
        l2x ++ (ts.drop (i + 1)).flatMap leavesList,
        QpNode.branch off bmp (ts.set i rx), ?_, hrun, ?_, ?_, ?_⟩
      · rw [leaves_split hi, hsplitx]
        simp [List.append_assoc]
      · refine WF_set_twig (WF.branch hw h2 hlen hwf hbit hagree hoff) hi hWFx ?_ ?_ ?_
        · intro p hp
          exact hbit i hi p (hsubmem p hp)
        · intro p hp q hq j hj
          exact hagree p (leaves_mem_branch.mpr ⟨i, hi, hsubmem p hp⟩) q hq j hj
        · intro o2 b2 t2 heq2
          have hx1 := hoffx o2 b2 t2 heq2
          have hx2 := hoff i hi off3 bmp3 ts3 htw
          omega
      · rw [leaves_set hi, hlvx]
        simp [List.append_assoc]
      · intro o2 b2 t2 heq2
        injection heq2 with e1 e2 e3
        omega
    | leaf v2 nm2 =>
      rw [htw, leaves_leaf, List.mem_singleton] at hpi
      have he1 : nm = nm2 := congrArg Prod.fst hpi
      have he2 : v = v2 := congrArg Prod.snd hpi
      subst he1
      subst he2
      have hbt : bmp.testBit (kAt nm off) = true := by
        rw [← hastwig_testBit]
        exact hb.1
      by_cases htm : twigmax bmp = 2
      · have hrun : qp_del_go d off bmp ts =
            some (twigGet ts (if i = 0 then 1 else 0), true) := by
          rw [qp_del_go, hk, hb.1]
          rw [if_neg (by simp)]
          rw [hb.2]
          split
          · rename_i off4 bmp4 ts4 heq
            rw [htw] at heq
            exact QpNode.noConfusion heq
          · rename_i hne
            rw [htw]
            simp only [leafnameO]
            rw [hdeq]
            rw [if_neg (by simp), if_pos htm]
        have hlen22 : ts.length = 2 := by rw [hlen, htm]
        obtain ⟨t0, t1, rfl⟩ := list_len2 hlen22
        by_cases hi0 : i = 0
        · subst hi0
          have ht0 : t0 = QpNode.leaf v nm := by simpa [twigGet] using htw
          subst ht0
          refine ⟨[], leavesList t1, t1, ?_, hrun, ?_, ?_, ?_⟩
          · rw [leaves_branch]
            simp [leaves_leaf]
          · have := hwf 1 (by simp)
            simpa [twigGet] using this
          · simp
          · intro o2 b2 t2 heq2
            refine Nat.le_of_lt (hoff 1 (by simp) o2 b2 t2 ?_)
            simpa [twigGet] using heq2
        · have hi1 : i = 1 := by
            simp only [List.length_cons, List.length_nil] at hi
            omega
          subst hi1
          have ht1 : t1 = QpNode.leaf v nm := by simpa [twigGet] using htw
          subst ht1
          refine ⟨leavesList t0, [], t0, ?_, hrun, ?_, ?_, ?_⟩
          · rw [leaves_branch]
            simp [leaves_leaf]
          · have := hwf 0 (by simp)
            simpa [twigGet] using this
          · simp
          · intro o2 b2 t2 heq2
            refine Nat.le_of_lt (hoff 0 (by simp) o2 b2 t2 ?_)
            simpa [twigGet] using heq2
      · have hrun : qp_del_go d off bmp ts =
            some (QpNode.branch off (bmp - 2 ^ kAt nm off) (ts.eraseIdx i), true) := by
          rw [qp_del_go, hk, hb.1]
          rw [if_neg (by simp)]
          rw [hb.2]
          split
          · rename_i off4 bmp4 ts4 heq
            rw [htw] at heq
            exact QpNode.noConfusion heq
          · rename_i hne
            rw [htw]
            simp only [leafnameO]
            rw [hdeq]
            rw [if_neg (by simp), if_neg htm]
        refine ⟨(ts.take i).flatMap leavesList, (ts.drop (i + 1)).flatMap leavesList,
          QpNode.branch off (bmp - 2 ^ kAt nm off) (ts.eraseIdx i), ?_, hrun, ?_, ?_, ?_⟩
        · rw [leaves_split hi, htw, leaves_leaf]
          simp [List.append_assoc]
        · refine WF_erase_twig (WF.branch hw h2 hlen hwf hbit hagree hoff) hi hbt hb.2 ?_
          omega
        · exact leaves_erase i
        · intro o2 b2 t2 heq2
          injection heq2 with e1 e2 e3
          omega

/-- qp_del of an absent name on a non-empty well-formed trie is a
no-op returning normally. -/
theorem qp_del_absent {root : QpNode} (h : WF root) {d : Dname}
    (habs : ∀ p ∈ leavesList root, dnameEq d p.1 = false) (cnt : Nat) :
    qp_del root cnt d = some (root, cnt) := by
  cases root with
  | nullLeaf => exact absurd rfl (WF_not_null h)
  | leaf v nm =>
    have hne : dnameEq d nm = false := by
      have hx := habs (nm, v) (by rw [leaves_leaf]; simp)
      simpa using hx
    simp [qp_del, leafnameO, hne]
  | branch off bmp ts =>
    have hrun := qp_del_go_absent h off bmp ts rfl habs
    rw [qp_del, hrun]
    rfl

/-- qp_del of a present name removes exactly that leaf and decrements
the counter. -/
theorem qp_del_present {root : QpNode} (h : WF root) {d : Dname} (hd : validD d)
    {nm : Dname} {v : Nat} (hmem : (nm, v) ∈ leavesList root)
    (hdeq : dnameEq d nm = true) (cnt : Nat) :
    ∃ l1 l2, leavesList root = l1 ++ (nm, v) :: l2 ∧
      ((l1 = [] ∧ l2 = [] ∧ qp_del root cnt d = some (QpNode.nullLeaf, cnt - 1)) ∨
       (∃ r, qp_del root cnt d = some (r, cnt - 1) ∧ WF r ∧ leavesList r = l1 ++ l2)) := by
  cases root with
  | nullLeaf =>
    rw [leaves_null] at hmem
    exact absurd hmem (List.not_mem_nil _)
  | leaf v2 nm2 =>
    rw [leaves_leaf, List.mem_singleton] at hmem
    have he1 : nm = nm2 := congrArg Prod.fst hmem
    have he2 : v = v2 := congrArg Prod.snd hmem
    subst he1
    subst he2
    refine ⟨[], [], by rw [leaves_leaf]; rfl, Or.inl ⟨rfl, rfl, ?_⟩⟩
    simp [qp_del, leafnameO, hdeq]
  | branch off bmp ts =>
    obtain ⟨l1, l2, r, hsplit, hrun, hWFr, hlv, _⟩ :=
      qp_del_go_present h hd off bmp ts rfl nm v hmem hdeq
    refine ⟨l1, l2, hsplit, Or.inr ⟨r, ?_, hWFr, hlv⟩⟩
    rw [qp_del, hrun]
    rfl

/-! ### qp_add: prerequisites -/

theorem key_lt_48 {d : Dname} (h : ∀ l ∈ d, ∀ b ∈ l, b < 256) :
    ∀ x ∈ dname_to_key d, x < 48 := by
  intro x hx
  rw [dname_to_key, List.mem_flatMap] at hx
  obtain ⟨l, hl, hxl⟩ := hx
  rcases List.mem_append.mp hxl with h1 | h1
  · rw [encLabel, List.mem_flatMap] at h1
    obtain ⟨b, hbm, hxb⟩ := h1
    have hb := h l hl b hbm
    have hlow := table_low_range b hb
    have hhigh := table_high_range b hb
    rw [encByte_eq] at hxb
    unfold lowB highB at hxb
    by_cases hh : tableEntry b >>> 8 = 0
    · rw [if_pos hh, List.mem_singleton] at hxb
      omega
    · rw [if_neg hh] at hxb
      simp only [List.mem_cons, List.mem_singleton, List.not_mem_nil, or_false] at hxb
      rcases hhigh with h3 | h3 <;> rcases hxb with rfl | rfl <;> omega
  · have hx1 : x = SHIFT_NOBYTE := List.mem_singleton.mp h1
    subst hx1
    decide

theorem kAt_lt_48 {d : Dname} (h : validD d) (i : Nat) : kAt d i < 48 := by
  unfold kAt
  rcases Nat.lt_or_ge i (dname_to_key d).length with hi | hi
  · rw [List.getD_eq_getElem _ _ hi]
    exact key_lt_48 (fun l hl => (h.1 l hl).2.2) _ (List.getElem_mem hi)
  · rw [List.getD_eq_default _ _ hi]
    decide

theorem twigpos_le_popcnt (bmp b : Nat) : twigpos bmp b ≤ popcnt bmp := by
  unfold twigpos
  have hsplit := Nat.div_add_mod bmp (2 ^ b)
  have hm : bmp % 2 ^ b < 2 ^ b := Nat.mod_lt _ (Nat.pos_pow_of_pos _ (by omega))
  have h1 : popcnt bmp = popcnt (bmp % 2 ^ b) + popcnt (bmp / 2 ^ b) := by
    conv_lhs => rw [show bmp = bmp % 2 ^ b + 2 ^ b * (bmp / 2 ^ b) by omega]
    exact popcnt_add_mul_pow _ _ _ hm
  omega

theorem lor_pair_eq_add {a b : Nat} (hab : a ≠ b) : 2 ^ a ||| 2 ^ b = 2 ^ a + 2 ^ b :=
  lor_two_pow (Nat.testBit_two_pow_of_ne hab)

theorem twigpos_pair_lo {a b : Nat} (hab : a < b) : twigpos (2 ^ a + 2 ^ b) a = 0 := by
  unfold twigpos
  obtain ⟨c, hc⟩ : 2 ^ a ∣ 2 ^ b := Nat.pow_dvd_pow 2 (by omega)
  rw [hc, show 2 ^ a + 2 ^ a * c = 2 ^ a * (1 + c) by ring, Nat.mul_mod_right]
  exact popcnt_zero

theorem twigpos_pair_hi {a b : Nat} (hab : a < b) : twigpos (2 ^ a + 2 ^ b) b = 1 := by
  unfold twigpos
  rw [Nat.add_mod_right, Nat.mod_eq_of_lt (Nat.pow_lt_pow_right (by omega) hab)]
  exact popcnt_two_pow a

theorem popcnt_pair {a b : Nat} (hab : a ≠ b) : popcnt (2 ^ a + 2 ^ b) = 2 := by
  rw [← lor_pair_eq_add hab,
    popcnt_lor (Nat.testBit_two_pow_of_ne hab), popcnt_two_pow]

theorem testBit_pair {a b x : Nat} (hab : a ≠ b) :
    (2 ^ a + 2 ^ b).testBit x = (decide (x = a) || decide (x = b)) := by
  rw [← lor_pair_eq_add hab, Nat.testBit_or]
  by_cases hx1 : x = a
  · subst hx1
    rw [Nat.testBit_two_pow_self]
    simp
  · rw [Nat.testBit_two_pow_of_ne (fun hc => hx1 hc.symm)]
    by_cases hx2 : x = b
    · subst hx2
      rw [Nat.testBit_two_pow_self]
      simp
    · rw [Nat.testBit_two_pow_of_ne (fun hc => hx2 hc.symm)]
      simp [hx1, hx2]

theorem descendAny_branch (d : Dname) (off bmp : Nat) (ts : List QpNode) :
    descendAny d (.branch off bmp ts) =
      descendAny d (twigGet ts
        (if hastwig bmp (kAt d off) then twigpos bmp (kAt d off) else 0)) := by
  rw [descendAny]

theorem descendAny_leaf (d : Dname) (v : Nat) (nm : Dname) :
    descendAny d (.leaf v nm) = .leaf v nm := by
  simp [descendAny]

/-- The carefree first descent of qp_add always finds a leaf of the
subtree. -/
theorem descendAny_spec {t : QpNode} (h : WF t) (d : Dname) :
    ∃ v0 nm0, descendAny d t = QpNode.leaf v0 nm0 ∧ (nm0, v0) ∈ leavesList t := by
  induction h with
  | @leaf v nm hv hd2 =>
    refine ⟨v, nm, descendAny_leaf d v nm, ?_⟩
    rw [leaves_leaf]
    simp
  | @branch off bmp ts hw h2 hlen hwf hbit hagree hoff ih =>
    have hpos : (if hastwig bmp (kAt d off) then twigpos bmp (kAt d off) else 0) <
        ts.length := by
      by_cases hht : hastwig bmp (kAt d off)
      · rw [if_pos hht, hlen, twigmax_eq hw]
        exact twigpos_lt_popcnt (by rw [← hastwig_testBit]; exact hht)
      · rw [if_neg hht]
        omega
    obtain ⟨v0, nm0, h1, h2m⟩ := ih _ hpos
    refine ⟨v0, nm0, ?_, leaves_mem_branch.mpr ⟨_, hpos, h2m⟩⟩
    rw [descendAny_branch]
    exact h1

/-- The prev pointer tracks the node holding the last leaf of the part
of the trie left of the descent path. -/
def PrevOK (p : Option QpNode) (l1 : List (Dname × Nat)) : Prop :=
  match p with
  | none => l1 = []
  | some q => WF q ∧ (leavesList q).getLast? = l1.getLast?

/-- The next pointer tracks the node holding the first leaf of the
part of the trie right of the descent path. -/
def NextOK (p : Option QpNode) (l2 : List (Dname × Nat)) : Prop :=
  match p with
  | none => l2 = []
  | some q => WF q ∧ (leavesList q).head? = l2.head?

theorem leaves_pair (off bmp : Nat) (tA tB : QpNode) :
    leavesList (QpNode.branch off bmp [tA, tB]) = leavesList tA ++ leavesList tB := by
  rw [leaves_branch]
  simp

/-- A fresh branch over exactly two twigs with distinct bits is
well-formed. -/
theorem WF_pair {off a b : Nat} (hab : a < b) (hb48 : b < 48)
    {tA tB : QpNode} (hWA : WF tA) (hWB : WF tB)
    (hbitsA : ∀ p ∈ leavesList tA, kAt p.1 off = a)
    (hbitsB : ∀ p ∈ leavesList tB, kAt p.1 off = b)
    (hagr2 : ∀ p ∈ leavesList tA ++ leavesList tB,
      ∀ q ∈ leavesList tA ++ leavesList tB, ∀ j, j < off → kAt p.1 j = kAt q.1 j)
    (hoffA : ∀ o2 b2 t2, tA = QpNode.branch o2 b2 t2 → off < o2)
    (hoffB : ∀ o2 b2 t2, tB = QpNode.branch o2 b2 t2 → off < o2) :
    WF (QpNode.branch off (2 ^ a ||| 2 ^ b) [tA, tB]) := by
  have hne : a ≠ b := by omega
  have hadd := lor_pair_eq_add hne
  have hw48 : (2 ^ a) ||| (2 ^ b) < 2 ^ 48 :=
    Nat.or_lt_two_pow (Nat.pow_lt_pow_right (by omega) (by omega))
      (Nat.pow_lt_pow_right (by omega) hb48)
  have htm : twigmax ((2 ^ a) ||| (2 ^ b)) = 2 := by
    rw [twigmax_eq hw48, hadd, popcnt_pair hne]
  have hmemo : ∀ i : Nat, i < 2 →
      twigGet [tA, tB] i = if i = 0 then tA else tB := by
    intro i hi
    interval_cases i <;> simp [twigGet]
  refine WF.branch hw48 (by omega) (by simp [htm]) ?_ ?_ ?_ ?_
  · intro i hi
    simp only [List.length_cons, List.length_nil] at hi
    rw [hmemo i (by omega)]
    by_cases hi0 : i = 0
    · rw [if_pos hi0]
      exact hWA
    · rw [if_neg hi0]
      exact hWB
  · intro i hi p hp
    simp only [List.length_cons, List.length_nil] at hi
    rw [hmemo i (by omega)] at hp
    by_cases hi0 : i = 0
    · rw [if_pos hi0] at hp
      rw [hastwig_testBit, hadd, testBit_pair hne, hbitsA p hp, twigpos_pair_lo hab, hi0]
      simp
    · rw [if_neg hi0] at hp
      rw [hastwig_testBit, hadd, testBit_pair hne, hbitsB p hp, twigpos_pair_hi hab]
      constructor
      · simp
      · omega
  · intro p hp q hq j hj
    rw [leaves_pair] at hp hq
    exact hagr2 p hp q hq j hj
  · intro i hi o2 b2 t2 heq
    simp only [List.length_cons, List.length_nil] at hi
    rw [hmemo i (by omega)] at heq
    by_cases hi0 : i = 0
    · rw [if_pos hi0] at heq
      exact hoffA o2 b2 t2 heq
    · rw [if_neg hi0] at heq
      exact hoffB o2 b2 t2 heq

/-- Correctness of the newbranch arm: the fresh two-twig branch is
well-formed and splits the leaves around the new one. -/
theorem mkNewBranch_spec {off oldb : Nat} {d : Dname} {val : Nat}
    (hd : validD d) (hval : val ≠ 0) (holdb : oldb < 48)
    {oldn : QpNode} (hWFo : WF oldn) (hne : kAt d off ≠ oldb)
    (hbits : ∀ p ∈ leavesList oldn, kAt p.1 off = oldb)
    (hagr : ∀ p ∈ leavesList oldn, ∀ j, j < off → kAt p.1 j = kAt d j)
    (hoffo : ∀ o2 b2 t2, oldn = QpNode.branch o2 b2 t2 → off < o2)
    (pn : PN) {l1 l2 : List (Dname × Nat)}
    (hpn1 : PrevOK pn.prev l1) (hpn2 : NextOK pn.next l2) :
    ∃ r2 pn2 La Lb,
      mkNewBranch off (kAt d off) oldb (QpNode.leaf val d) oldn pn = (r2, pn2) ∧
      leavesList oldn = La ++ Lb ∧
      leavesList r2 = La ++ (d, val) :: Lb ∧ WF r2 ∧
      (∀ p ∈ La, StrLt (kAt p.1) (kAt d)) ∧
      (∀ q ∈ Lb, StrLt (kAt d) (kAt q.1)) ∧
      PrevOK pn2.prev (l1 ++ La) ∧ NextOK pn2.next (Lb ++ l2) ∧
      (∀ o2 b2 t2, r2 = QpNode.branch o2 b2 t2 → o2 = off) := by
  have hnewb : kAt d off < 48 := kAt_lt_48 hd off
  have holne := leaves_ne_nil hWFo
  have hleafd : leavesList (QpNode.leaf val d) = [(d, val)] := leaves_leaf val d
  have hbitsd : ∀ p ∈ leavesList (QpNode.leaf val d), kAt p.1 off = kAt d off := by
    intro p hp
    rw [hleafd, List.mem_singleton] at hp
    rw [hp]
  have hagr2 : ∀ p ∈ leavesList (QpNode.leaf val d) ++ leavesList oldn,
      ∀ q ∈ leavesList (QpNode.leaf val d) ++ leavesList oldn,
      ∀ j, j < off → kAt p.1 j = kAt q.1 j := by
    intro p hp q hq j hj
    rw [hleafd] at hp hq
    rcases List.mem_append.mp hp with h1 | h1 <;> rcases List.mem_append.mp hq with h2 | h2
    · rw [List.mem_singleton.mp h1, List.mem_singleton.mp h2]
    · rw [List.mem_singleton.mp h1, (hagr q h2 j hj).symm]
    · rw [List.mem_singleton.mp h2, hagr p h1 j hj]
    · rw [hagr p h1 j hj, (hagr q h2 j hj).symm]
  have hagr2r : ∀ p ∈ leavesList oldn ++ leavesList (QpNode.leaf val d),
      ∀ q ∈ leavesList oldn ++ leavesList (QpNode.leaf val d),
      ∀ j, j < off → kAt p.1 j = kAt q.1 j := by
    intro p hp q hq j hj
    refine hagr2 p ?_ q ?_ j hj <;> rw [List.mem_append] at * <;> tauto
  have hoffd : ∀ o2 b2 t2, QpNode.leaf val d = QpNode.branch o2 b2 t2 → off < o2 := by
    intro o2 b2 t2 hc
    exact QpNode.noConfusion hc
  by_cases hlt : kAt d off < oldb
  · refine ⟨QpNode.branch off ((2 ^ (kAt d off)) ||| (2 ^ oldb))
      [QpNode.leaf val d, oldn], { pn with next := some oldn },
      [], leavesList oldn, ?_, by simp, ?_, ?_, by simp, ?_, ?_, ?_, ?_⟩
    · rw [mkNewBranch, if_pos hlt]
    · rw [leaves_pair, hleafd]
      rfl
    · exact WF_pair hlt holdb (WF.leaf hval hd) hWFo hbitsd hbits hagr2 hoffd hoffo
    · intro q hq
      exact ⟨off, fun j hj => (hagr q hq j hj).symm, by rw [hbits q hq]; exact hlt⟩
    · simpa using hpn1
    · show WF oldn ∧ (leavesList oldn).head? = (leavesList oldn ++ l2).head?
      exact ⟨hWFo, (List.head?_append_of_ne_nil _ holne).symm⟩
    · intro o2 b2 t2 heq
      injection heq with e1 e2 e3
      omega
  · have hgt : oldb < kAt d off := by omega
    refine ⟨QpNode.branch off ((2 ^ (kAt d off)) ||| (2 ^ oldb))
      [oldn, QpNode.leaf val d], { pn with prev := some oldn },
      leavesList oldn, [], ?_, by simp, ?_, ?_, ?_, by simp, ?_, ?_, ?_⟩
    · rw [mkNewBranch, if_neg hlt]
    · rw [leaves_pair, hleafd]
    · rw [show (2 ^ (kAt d off)) ||| (2 ^ oldb) = (2 ^ oldb) ||| (2 ^ (kAt d off)) from
        Nat.lor_comm ..]
      exact WF_pair hgt hnewb hWFo (WF.leaf hval hd) hbits hbitsd hagr2r hoffo hoffd
    · intro p hp
      exact ⟨off, fun j hj => hagr p hp j hj, by rw [hbits p hp]; exact hgt⟩
    · show WF oldn ∧ (leavesList oldn).getLast? = (l1 ++ leavesList oldn).getLast?
      exact ⟨hWFo, (List.getLast?_append_of_ne_nil _ holne).symm⟩
    · simpa using hpn2
    · intro o2 b2 t2 heq
      injection heq with e1 e2 e3
      omega

/-- Growing a branch with the new leaf at its bit's rank keeps it
well-formed. -/
theorem WF_insert_twig {off bmp : Nat} {ts : List QpNode} (h : WF (.branch off bmp ts))
    {d : Dname} {val : Nat} (hd : validD d) (hval : val ≠ 0)
    (hnot : bmp.testBit (kAt d off) = false)
    (hagr : ∀ q ∈ leavesList (.branch off bmp ts), ∀ j, j < off → kAt d j = kAt q.1 j) :
    WF (.branch off (bmp ||| 2 ^ (kAt d off))
      (ts.insertIdx (twigpos bmp (kAt d off)) (QpNode.leaf val d))) := by
  cases h with
  | branch hw h2 hlen hwf hbit hagree hoff =>
    have hple : twigpos bmp (kAt d off) ≤ ts.length := by
      rw [hlen, twigmax_eq hw]
      exact twigpos_le_popcnt bmp (kAt d off)
    have hnewb48 : kAt d off < 48 := kAt_lt_48 hd off
    have hw48 : bmp ||| 2 ^ (kAt d off) < 2 ^ 48 :=
      Nat.or_lt_two_pow hw (Nat.pow_lt_pow_right (by omega) hnewb48)
    have htm2 : twigmax (bmp ||| 2 ^ (kAt d off)) = twigmax bmp + 1 := by
      rw [twigmax_eq hw48, twigmax_eq hw, popcnt_lor hnot]
    have hlen2 : (ts.insertIdx (twigpos bmp (kAt d off)) (QpNode.leaf val d)).length =
        ts.length + 1 := List.length_insertIdx _ _ hple
    have htg := twigGet_insertIdx (QpNode.leaf val d) hple
    have hmem_new : ∀ p,
        p ∈ leavesList (QpNode.branch off (bmp ||| 2 ^ (kAt d off))
          (ts.insertIdx (twigpos bmp (kAt d off)) (QpNode.leaf val d))) →
        p = (d, val) ∨ p ∈ leavesList (QpNode.branch off bmp ts) := by
      intro p hp
      obtain ⟨j, hj, hpj⟩ := leaves_mem_branch.mp hp
      rw [hlen2] at hj
      rw [htg j] at hpj
      by_cases hj1 : j < twigpos bmp (kAt d off)
      · rw [if_pos hj1] at hpj
        exact Or.inr (leaves_mem_branch.mpr ⟨j, by omega, hpj⟩)
      · rw [if_neg hj1] at hpj
        by_cases hj2 : j = twigpos bmp (kAt d off)
        · rw [if_pos hj2, leaves_leaf, List.mem_singleton] at hpj
          exact Or.inl hpj
        · rw [if_neg hj2] at hpj
          exact Or.inr (leaves_mem_branch.mpr ⟨j - 1, by omega, hpj⟩)
    refine WF.branch hw48 (by omega) (by omega) ?_ ?_ ?_ ?_
    · intro j hj
      rw [hlen2] at hj
      rw [htg j]
      by_cases hj1 : j < twigpos bmp (kAt d off)
      · rw [if_pos hj1]
        exact hwf j (by omega)
      · rw [if_neg hj1]
        by_cases hj2 : j = twigpos bmp (kAt d off)
        · rw [if_pos hj2]
          exact WF.leaf hval hd
        · rw [if_neg hj2]
          exact hwf (j - 1) (by omega)
    · intro j hj p hp
      rw [hlen2] at hj
      rw [htg j] at hp
      rw [hastwig_testBit]
      by_cases hj1 : j < twigpos bmp (kAt d off)
      · rw [if_pos hj1] at hp
        have hold := hbit j (by omega) p hp
        rw [hastwig_testBit] at hold
        have hpb : kAt p.1 off < kAt d off := by
          by_contra hge
          push_neg at hge
          have hne2 : kAt d off ≠ kAt p.1 off := by
            intro hc
            rw [← hc] at hold
            rw [hold.1] at hnot
            exact Bool.noConfusion hnot
          have hmono := @twigpos_mono bmp _ _ (show kAt d off ≤ kAt p.1 off by omega)
          omega
        constructor
        · rw [testBit_lor_pow, hold.1]
          simp
        · rw [twigpos_lor hnot, hold.2, if_neg (show ¬ kAt d off < kAt p.1 off by omega)]
          omega
      · rw [if_neg hj1] at hp
        by_cases hj2 : j = twigpos bmp (kAt d off)
        · rw [if_pos hj2, leaves_leaf, List.mem_singleton] at hp
          subst hp
          have hp1 : ((d, val) : Dname × Nat).1 = d := rfl
          constructor
          · rw [hp1, testBit_lor_pow]
            simp
          · rw [hp1, twigpos_lor hnot]
            rw [if_neg (show ¬ kAt d off < kAt d off by omega)]
            omega
        · rw [if_neg hj2] at hp
          have hold := hbit (j - 1) (by omega) p hp
          rw [hastwig_testBit] at hold
          have hpb : kAt d off < kAt p.1 off := by
            by_contra hge
            push_neg at hge
            have hne2 : kAt p.1 off ≠ kAt d off := by
              intro hc
              rw [hc] at hold
              rw [hold.1] at hnot
              exact Bool.noConfusion hnot
            have hstrict := twigpos_strict hold.1 (show kAt p.1 off < kAt d off by omega)
            omega
          constructor
          · rw [testBit_lor_pow, hold.1]
            simp
          · rw [twigpos_lor hnot, hold.2, if_pos hpb]
            omega
    · intro p hp q hq j hj
      rcases hmem_new p hp with hp2 | hp2 <;> rcases hmem_new q hq with hq2 | hq2
      · rw [hp2, hq2]
      · rw [hp2]
        exact hagr q hq2 j hj
      · rw [hq2]
        exact (hagr p hp2 j hj).symm
      · exact hagree p hp2 q hq2 j hj
    · intro j hj o2 b2 t2 heq
      rw [hlen2] at hj
      rw [htg j] at heq
      by_cases hj1 : j < twigpos bmp (kAt d off)
      · rw [if_pos hj1] at heq
        exact hoff j (by omega) o2 b2 t2 heq
      · rw [if_neg hj1] at heq
        by_cases hj2 : j = twigpos bmp (kAt d off)
        · rw [if_pos hj2] at heq
          exact QpNode.noConfusion heq
        · rw [if_neg hj2] at heq
          exact hoff (j - 1) (by omega) o2 b2 t2 heq

theorem descendAny_mem {t : QpNode} (h : WF t) {d : Dname} {v0 : Nat} {nm0 : Dname}
    (hdes : descendAny d t = QpNode.leaf v0 nm0) : (nm0, v0) ∈ leavesList t := by
  obtain ⟨v1, nm1, h1, h2⟩ := descendAny_spec h d
  rw [hdes] at h1
  injection h1 with e1 e2
  rw [e2, e1]
  exact h2

theorem take_flatMap_ne_nil {ts : List QpNode} {pos : Nat}
    (hpos : 0 < pos) (hple : pos ≤ ts.length)
    (hne : ∀ i, i < ts.length → leavesList (twigGet ts i) ≠ []) :
    (ts.take pos).flatMap leavesList ≠ [] := by
  intro hc
  rw [List.flatMap_eq_nil_iff] at hc
  have hlt : (ts.take pos).length = pos := by
    rw [List.length_take]
    omega
  have hmem : (ts.take pos).getD (pos - 1) QpNode.nullLeaf ∈ ts.take pos := by
    rw [List.getD_eq_getElem _ _ (by omega)]
    exact List.getElem_mem _
  have hx := hc _ hmem
  rw [getD_take_lt _ (by omega)] at hx
  exact hne (pos - 1) (by omega) (by simpa [twigGet] using hx)

theorem take_flatMap_getLast? {ts : List QpNode} {pos : Nat}
    (hpos : 0 < pos) (hple : pos ≤ ts.length)
    (hne : leavesList (twigGet ts (pos - 1)) ≠ []) :
    ((ts.take pos).flatMap leavesList).getLast? =
      (leavesList (twigGet ts (pos - 1))).getLast? := by
  have hlt : (ts.take pos).length = pos := by
    rw [List.length_take]
    omega
  have e1 : (ts.take pos).getD ((ts.take pos).length - 1) QpNode.nullLeaf
      = twigGet ts (pos - 1) := by
    rw [hlt, getD_take_lt _ (by omega)]
    rfl
  have hne2 : leavesList ((ts.take pos).getD ((ts.take pos).length - 1)
      QpNode.nullLeaf) ≠ [] := by
    rw [e1]
    exact hne
  have htne : ts.take pos ≠ [] := by
    intro hc
    rw [hc] at hlt
    simp at hlt
    omega
  rw [flatMap_getLast? QpNode.nullLeaf leavesList (ts.take pos) htne hne2, e1]

theorem drop_flatMap_head? {ts : List QpNode} {pos : Nat} (hpos : pos < ts.length)
    (hne : leavesList (twigGet ts pos) ≠ []) :
    ((ts.drop pos).flatMap leavesList).head? = (leavesList (twigGet ts pos)).head? := by
  rw [List.drop_eq_getElem_cons hpos, List.flatMap_cons,
    ← twigGet_eq_getElem hpos, List.head?_append_of_ne_nil _ hne]

theorem addWalk_leaf (d : Dname) (off : Nat) (newn : QpNode) (newb oldb v : Nat)
    (nm : Dname) (pn : PN) :
    addWalk d off newn newb oldb (QpNode.leaf v nm) pn =
      some (mkNewBranch off newb oldb newn (QpNode.leaf v nm) pn) := by
  simp [addWalk]

theorem addWalk_branch (d : Dname) (off : Nat) (newn : QpNode) (newb oldb o bmp : Nat)
    (ts : List QpNode) (pn : PN) :
    addWalk d off newn newb oldb (QpNode.branch o bmp ts) pn =
      (if off < o then some (mkNewBranch off newb oldb newn (QpNode.branch o bmp ts) pn)
      else if off = o then
        if hastwig bmp newb then none
        else
          some (.branch o (bmp ||| 2 ^ newb) (ts.insertIdx (twigpos bmp newb) newn),
            prev_next_step pn (ts.insertIdx (twigpos bmp newb) newn)
              (twigpos bmp newb) (twigmax bmp + 1))
      else
        if hastwig bmp (kAt d o) then
          match addWalk d off newn newb oldb (twigGet ts (twigpos bmp (kAt d o)))
              (prev_next_step pn ts (twigpos bmp (kAt d o)) (twigmax bmp)) with
          | none => none
          | some (sub, pn3) =>
            some (.branch o bmp (ts.set (twigpos bmp (kAt d o)) sub), pn3)
        else none) := by
  rw [addWalk]

/-- The second descent of qp_add: full correctness.  Inserting a leaf
for a name diverging at off from the leaf found by the carefree
descent succeeds, splits the leaves around the new one in key order,
keeps the subtree well-formed and tracks the two adjacent twigs. -/
theorem addWalk_spec {t : QpNode} (h : WF t) {d : Dname} {val v0 : Nat} {nm0 : Dname}
    (hd : validD d) (hval : val ≠ 0) {off : Nat}
    (hdiv1 : ∀ j, j < off → kAt d j = kAt nm0 j)
    (hdiv2 : kAt d off ≠ kAt nm0 off) :
    ∀ pn l1 l2, descendAny d t = QpNode.leaf v0 nm0 →
      PrevOK pn.prev l1 → NextOK pn.next l2 →
      ∃ r2 pn2 La Lb,
        addWalk d off (QpNode.leaf val d) (kAt d off) (kAt nm0 off) t pn =
          some (r2, pn2) ∧
        leavesList t = La ++ Lb ∧
        leavesList r2 = La ++ (d, val) :: Lb ∧ WF r2 ∧
        (∀ p ∈ La, StrLt (kAt p.1) (kAt d)) ∧
        (∀ q ∈ Lb, StrLt (kAt d) (kAt q.1)) ∧
        PrevOK pn2.prev (l1 ++ La) ∧ NextOK pn2.next (Lb ++ l2) ∧
        (∀ o2 b2 t2, r2 = QpNode.branch o2 b2 t2 →
          off ≤ o2 ∨ ∃ bn tn, t = QpNode.branch o2 bn tn) := by
  induction h with
  | @leaf v nm hv hd2 =>
    intro pn l1 l2 hdes hpn1 hpn2
    rw [descendAny_leaf] at hdes
    injection hdes with e1 e2
    subst e1
    subst e2
    have hbits : ∀ p ∈ leavesList (QpNode.leaf v nm), kAt p.1 off = kAt nm off := by
      intro p hp
      rw [leaves_leaf, List.mem_singleton] at hp
      rw [hp]
    have hagr : ∀ p ∈ leavesList (QpNode.leaf v nm), ∀ j, j < off →
        kAt p.1 j = kAt d j := by
      intro p hp j hj
      rw [leaves_leaf, List.mem_singleton] at hp
      rw [hp]
      exact (hdiv1 j hj).symm
    obtain ⟨r2, pn2, La, Lb, hmk, hsp, hlv, hWF2, hLa, hLb, hp1, hp2, hoffc⟩ :=
      mkNewBranch_spec hd hval (kAt_lt_48 hd2 off) (WF.leaf hv hd2) hdiv2
        hbits hagr (fun o2 b2 t2 hc => QpNode.noConfusion hc) pn hpn1 hpn2
    refine ⟨r2, pn2, La, Lb, ?_, hsp, hlv, hWF2, hLa, hLb, hp1, hp2, ?_⟩
    · rw [addWalk_leaf, hmk]
    · intro o2 b2 t2 heq
      exact Or.inl (Nat.le_of_eq (hoffc o2 b2 t2 heq).symm)
  | @branch o bmp ts hw h2 hlen hwf hbit hagree hoff ih =>
    intro pn l1 l2 hdes hpn1 hpn2
    have hlv_ne : ∀ i, i < ts.length → leavesList (twigGet ts i) ≠ [] :=
      fun i hi => leaves_ne_nil (hwf i hi)
    rw [addWalk_branch]
    rcases Nat.lt_trichotomy off o with hcase | hcase | hcase
    · -- newbranch above this node
      rw [if_pos hcase]
      have hmem0 : (nm0, v0) ∈ leavesList (QpNode.branch o bmp ts) :=
        descendAny_mem (WF.branch hw h2 hlen hwf hbit hagree hoff) hdes
      have hbits : ∀ p ∈ leavesList (QpNode.branch o bmp ts),
          kAt p.1 off = kAt nm0 off := by
        intro p hp
        exact hagree p hp (nm0, v0) hmem0 off hcase
      have hagr : ∀ p ∈ leavesList (QpNode.branch o bmp ts), ∀ j, j < off →
          kAt p.1 j = kAt d j := by
        intro p hp j hj
        rw [hagree p hp (nm0, v0) hmem0 j (by omega)]
        exact (hdiv1 j hj).symm
      obtain ⟨r2, pn2, La, Lb, hmk, hsp, hlv, hWF2, hLa, hLb, hxp1, hxp2, hoffc⟩ :=
        mkNewBranch_spec hd hval (kAt_lt_48 (leaves_valid
            (WF.branch hw h2 hlen hwf hbit hagree hoff) (nm0, v0) hmem0).1 off)
          (WF.branch hw h2 hlen hwf hbit hagree hoff) hdiv2 hbits hagr
          (fun o2 b2 t2 hc => by
            injection hc with e1 e2 e3
            omega)
          pn hpn1 hpn2
      refine ⟨r2, pn2, La, Lb, ?_, hsp, hlv, hWF2, hLa, hLb, hxp1, hxp2, ?_⟩
      · rw [hmk]
      · intro o2 b2 t2 heq
        exact Or.inl (Nat.le_of_eq (hoffc o2 b2 t2 heq).symm)
    · -- growbranch at this node
      subst hcase
      rw [if_neg (by omega), if_pos rfl]
      have hnot : bmp.testBit (kAt d off) = false := by
        by_contra hc
        simp only [Bool.not_eq_false] at hc
        have hposlt : twigpos bmp (kAt d off) < ts.length := by
          rw [hlen, twigmax_eq hw]
          exact twigpos_lt_popcnt hc
        rw [descendAny_branch, if_pos (by rw [hastwig_testBit]; exact hc)] at hdes
        have hmem0 := descendAny_mem (hwf _ hposlt) hdes
        have hb0 := hbit _ hposlt (nm0, v0) hmem0
        rw [hastwig_testBit] at hb0
        exact hdiv2 (rank_bit_eq hc hb0.1 hb0.2.symm)
      rw [if_neg (by rw [hastwig_testBit, hnot]; simp)]
      have hmem0 : (nm0, v0) ∈ leavesList (QpNode.branch off bmp ts) :=
        descendAny_mem (WF.branch hw h2 hlen hwf hbit hagree hoff) hdes
      have hagr : ∀ q ∈ leavesList (QpNode.branch off bmp ts), ∀ j, j < off →
          kAt d j = kAt q.1 j := by
        intro q hq j hj
        rw [hdiv1 j hj]
        exact hagree (nm0, v0) hmem0 q hq j hj
      have hple : twigpos bmp (kAt d off) ≤ ts.length := by
        rw [hlen, twigmax_eq hw]
        exact twigpos_le_popcnt bmp (kAt d off)
      refine ⟨QpNode.branch off (bmp ||| 2 ^ (kAt d off))
          (ts.insertIdx (twigpos bmp (kAt d off)) (QpNode.leaf val d)),
        prev_next_step pn (ts.insertIdx (twigpos bmp (kAt d off)) (QpNode.leaf val d))
          (twigpos bmp (kAt d off)) (twigmax bmp + 1),
        (ts.take (twigpos bmp (kAt d off))).flatMap leavesList,
        (ts.drop (twigpos bmp (kAt d off))).flatMap leavesList,
        rfl, ?_, ?_, ?_, ?_, ?_, ?_, ?_, ?_⟩
      · rw [leaves_branch]
        conv_lhs => rw [← List.take_append_drop (twigpos bmp (kAt d off)) ts]
        rw [List.flatMap_append]
      · rw [insertIdx_split _ _ _ hple, leaves_branch, List.flatMap_append,
          List.flatMap_cons, leaves_leaf]
        rfl
      · exact WF_insert_twig (WF.branch hw h2 hlen hwf hbit hagree hoff) hd hval hnot hagr
      · intro p hp
        obtain ⟨j, hj, hpj⟩ := mem_flatMap_idx (d := QpNode.nullLeaf) hp
        have hjlt : j < twigpos bmp (kAt d off) := by
          have := List.length_take (twigpos bmp (kAt d off)) ts
          omega
        have hpj2 : p ∈ leavesList (twigGet ts j) := by
          rw [getD_take_lt _ hjlt] at hpj
          exact hpj
        have hold := hbit j (by omega) p hpj2
        rw [hastwig_testBit] at hold
        have hpb : kAt p.1 off < kAt d off := by
          by_contra hge
          push_neg at hge
          have hne2 : kAt d off ≠ kAt p.1 off := by
            intro hc
            rw [← hc] at hold
            rw [hold.1] at hnot
            exact Bool.noConfusion hnot
          have hmono := @twigpos_mono bmp _ _ (show kAt d off ≤ kAt p.1 off by omega)
          omega
        refine ⟨off, fun i hi => ?_, hpb⟩
        exact (hagr p (leaves_mem_branch.mpr ⟨j, by omega, hpj2⟩) i hi).symm
      · intro q hq
        obtain ⟨j, hj, hqj⟩ := mem_flatMap_idx (d := QpNode.nullLeaf) hq
        have hlendrop := List.length_drop (twigpos bmp (kAt d off)) ts
        have hqj2 : q ∈ leavesList (twigGet ts (twigpos bmp (kAt d off) + j)) := by
          rw [getD_drop] at hqj
          exact hqj
        have hold := hbit _ (by omega) q hqj2
        rw [hastwig_testBit] at hold
        have hqb : kAt d off < kAt q.1 off := by
          by_contra hge
          push_neg at hge
          have hne2 : kAt q.1 off ≠ kAt d off := by
            intro hc
            rw [hc] at hold
            rw [hold.1] at hnot
            exact Bool.noConfusion hnot
          have hstrict := twigpos_strict hold.1 (show kAt q.1 off < kAt d off by omega)
          omega
        refine ⟨off, fun i hi => ?_, hqb⟩
        exact hagr q (leaves_mem_branch.mpr ⟨_, by omega, hqj2⟩) i hi
      · -- PrevOK after prev_next_step on the grown vector
        unfold prev_next_step PrevOK
        by_cases hpos0 : 0 < twigpos bmp (kAt d off)
        · rw [if_pos hpos0]
          rw [twigGet_insertIdx (QpNode.leaf val d) hple (twigpos bmp (kAt d off) - 1)]
          rw [if_pos (show twigpos bmp (kAt d off) - 1 < twigpos bmp (kAt d off) by omega)]
          refine ⟨hwf _ (by omega), ?_⟩
          have hAne : (ts.take (twigpos bmp (kAt d off))).flatMap leavesList ≠ [] :=
            take_flatMap_ne_nil hpos0 hple hlv_ne
          rw [List.getLast?_append_of_ne_nil _ hAne]
          exact (take_flatMap_getLast? hpos0 hple (hlv_ne _ (by omega))).symm
        · rw [if_neg hpos0]
          have hpz : twigpos bmp (kAt d off) = 0 := by omega
          rw [hpz]
          rw [show ts.take 0 = ([] : List QpNode) from rfl]
          rw [show ([] : List QpNode).flatMap leavesList = [] from rfl, List.append_nil]
          exact hpn1
      · -- NextOK
        unfold prev_next_step NextOK
        by_cases hpos1 : twigpos bmp (kAt d off) + 1 < twigmax bmp + 1
        · rw [if_pos hpos1]
          rw [twigGet_insertIdx (QpNode.leaf val d) hple (twigpos bmp (kAt d off) + 1)]
          rw [if_neg (show ¬ twigpos bmp (kAt d off) + 1 < twigpos bmp (kAt d off) by
            omega)]
          rw [if_neg (show ¬ twigpos bmp (kAt d off) + 1 = twigpos bmp (kAt d off) by
            omega)]
          have hplt : twigpos bmp (kAt d off) < ts.length := by
            rw [hlen]
            omega
          refine ⟨by simpa using hwf _ hplt, ?_⟩
          have hBne : leavesList (twigGet ts (twigpos bmp (kAt d off))) ≠ [] :=
            hlv_ne _ hplt
          rw [List.head?_append_of_ne_nil]
          · rw [drop_flatMap_head? hplt hBne]
            simp
          · rw [List.drop_eq_getElem_cons hplt, List.flatMap_cons]
            intro hc
            rcases List.append_eq_nil.mp hc with ⟨hc1, _⟩
            rw [← twigGet_eq_getElem hplt] at hc1
            exact hBne hc1
        · rw [if_neg hpos1]
          have hpz : twigpos bmp (kAt d off) = twigmax bmp := by
            have := twigpos_le_popcnt bmp (kAt d off)
            rw [← twigmax_eq hw] at this
            omega
          rw [hpz, ← hlen, List.drop_length]
          rw [show ([] : List QpNode).flatMap leavesList = [] from rfl]
          exact hpn2
      · intro o2 b2 t2 heq
        injection heq with e1 e2 e3
        exact Or.inl (Nat.le_of_eq e1)
    · -- descend
      rw [if_neg (by omega), if_neg (by omega)]
      have hht : bmp.testBit (kAt d o) = true := by
        by_contra hc
        simp only [Bool.not_eq_true] at hc
        rw [descendAny_branch, if_neg (by rw [hastwig_testBit, hc]; simp)] at hdes
        have h0lt : 0 < ts.length := by omega
        have hmem0 := descendAny_mem (hwf 0 h0lt) hdes
        have hb0 := hbit 0 h0lt (nm0, v0) hmem0
        rw [hastwig_testBit] at hb0
        rw [hdiv1 o hcase] at hc
        rw [hb0.1] at hc
        exact Bool.noConfusion hc
      rw [if_pos (by rw [hastwig_testBit]; exact hht)]
      have hposlt : twigpos bmp (kAt d o) < ts.length := by
        rw [hlen, twigmax_eq hw]
        exact twigpos_lt_popcnt hht
      rw [descendAny_branch, if_pos (by rw [hastwig_testBit]; exact hht)] at hdes
      have hmemsub := descendAny_mem (hwf _ hposlt) hdes
      have hmem0 : (nm0, v0) ∈ leavesList (QpNode.branch o bmp ts) :=
        leaves_mem_branch.mpr ⟨_, hposlt, hmemsub⟩
      -- prev/next bookkeeping for the step into the twig
      have hP3 : PrevOK (prev_next_step pn ts (twigpos bmp (kAt d o)) (twigmax bmp)).prev
          (l1 ++ (ts.take (twigpos bmp (kAt d o))).flatMap leavesList) := by
        unfold prev_next_step PrevOK
        by_cases hpos0 : 0 < twigpos bmp (kAt d o)
        · rw [if_pos hpos0]
          refine ⟨hwf _ (by omega), ?_⟩
          have hAne : (ts.take (twigpos bmp (kAt d o))).flatMap leavesList ≠ [] :=
            take_flatMap_ne_nil hpos0 (by omega) hlv_ne
          rw [List.getLast?_append_of_ne_nil _ hAne]
          exact (take_flatMap_getLast? hpos0 (by omega) (hlv_ne _ (by omega))).symm
        · rw [if_neg hpos0]
          have hpz : twigpos bmp (kAt d o) = 0 := by omega
          rw [hpz]
          rw [show ts.take 0 = ([] : List QpNode) from rfl]
          rw [show ([] : List QpNode).flatMap leavesList = [] from rfl, List.append_nil]
          exact hpn1
      have hN3 : NextOK (prev_next_step pn ts (twigpos bmp (kAt d o)) (twigmax bmp)).next
          ((ts.drop (twigpos bmp (kAt d o) + 1)).flatMap leavesList ++ l2) := by
        unfold prev_next_step NextOK
        by_cases hpos1 : twigpos bmp (kAt d o) + 1 < twigmax bmp
        · rw [if_pos hpos1]
          have hplt2 : twigpos bmp (kAt d o) + 1 < ts.length := by omega
          refine ⟨hwf _ hplt2, ?_⟩
          have hBne : leavesList (twigGet ts (twigpos bmp (kAt d o) + 1)) ≠ [] :=
            hlv_ne _ hplt2
          rw [List.head?_append_of_ne_nil]
          · exact (drop_flatMap_head? hplt2 hBne).symm
          · rw [List.drop_eq_getElem_cons hplt2, List.flatMap_cons]
            intro hc
            rcases List.append_eq_nil.mp hc with ⟨hc1, _⟩
            rw [← twigGet_eq_getElem hplt2] at hc1
            exact hBne hc1
        · rw [if_neg hpos1]
          have hpz : ts.length ≤ twigpos bmp (kAt d o) + 1 := by omega
          rw [List.drop_eq_nil_of_le hpz]
          rw [show ([] : List QpNode).flatMap leavesList = [] from rfl]
          exact hpn2
      obtain ⟨sub, pn3, La2, Lb2, hrun, hsp2, hlv2, hWF2, hLa2, hLb2, hxp1, hxp2, hoffc⟩ :=
        ih _ hposlt (prev_next_step pn ts (twigpos bmp (kAt d o)) (twigmax bmp))
          (l1 ++ (ts.take (twigpos bmp (kAt d o))).flatMap leavesList)
          ((ts.drop (twigpos bmp (kAt d o) + 1)).flatMap leavesList ++ l2)
          hdes hP3 hN3
      refine ⟨QpNode.branch o bmp (ts.set (twigpos bmp (kAt d o)) sub), pn3,
        (ts.take (twigpos bmp (kAt d o))).flatMap leavesList ++ La2,
        Lb2 ++ (ts.drop (twigpos bmp (kAt d o) + 1)).flatMap leavesList,
        ?_, ?_, ?_, ?_, ?_, ?_, ?_, ?_, ?_⟩
      · rw [hrun]
      · rw [leaves_split hposlt, hsp2]
        simp [List.append_assoc]
      · rw [leaves_set hposlt, hlv2]
        simp [List.append_assoc]
      · refine WF_set_twig (WF.branch hw h2 hlen hwf hbit hagree hoff) hposlt hWF2
          ?_ ?_ ?_
        · intro p hp
          rw [hlv2] at hp
          rcases List.mem_append.mp hp with h1 | h1
          · exact hbit _ hposlt p (by rw [hsp2, List.mem_append]; exact Or.inl h1)
          · rcases List.mem_cons.mp h1 with h1 | h1
            · subst h1
              have hbnm := hbit _ hposlt (nm0, v0) hmemsub
              constructor
              · rw [show kAt ((d, val) : Dname × Nat).1 o = kAt d o from rfl,
                  hdiv1 o hcase]
                exact hbnm.1
              · rw [show kAt ((d, val) : Dname × Nat).1 o = kAt d o from rfl]
            · exact hbit _ hposlt p (by rw [hsp2, List.mem_append]; exact Or.inr (by simp [h1]))
        · intro p hp q hq j hj
          rw [hlv2] at hp
          rcases List.mem_append.mp hp with h1 | h1
          · exact hagree p (leaves_mem_branch.mpr ⟨_, hposlt,
              by rw [hsp2, List.mem_append]; exact Or.inl h1⟩) q hq j hj
          · rcases List.mem_cons.mp h1 with h1 | h1
            · subst h1
              rw [show kAt ((d, val) : Dname × Nat).1 j = kAt d j from rfl,
                hdiv1 j (by omega)]
              exact hagree (nm0, v0) hmem0 q hq j hj
            · exact hagree p (leaves_mem_branch.mpr ⟨_, hposlt,
                by rw [hsp2, List.mem_append]; exact Or.inr (by simp [h1])⟩) q hq j hj
        · intro o2 b2 t2 heq
          rcases hoffc o2 b2 t2 heq with h1 | h1
          · omega
          · obtain ⟨bn, tn, h1⟩ := h1
            exact hoff _ hposlt o2 bn tn h1
      · intro p hp
        rcases List.mem_append.mp hp with h1 | h1
        · obtain ⟨j, hj, hpj⟩ := mem_flatMap_idx (d := QpNode.nullLeaf) h1
          have hjlt : j < twigpos bmp (kAt d o) := by
            have := List.length_take (twigpos bmp (kAt d o)) ts
            omega
          have hpj2 : p ∈ leavesList (twigGet ts j) := by
            rw [getD_take_lt _ hjlt] at hpj
            exact hpj
          have hold := hbit j (by omega) p hpj2
          rw [hastwig_testBit] at hold
          have hpb : kAt p.1 o < kAt d o := by
            refine bit_lt_of_rank_lt hold.1 hht ?_
            rw [hold.2]
            omega
          refine ⟨o, fun i hi => ?_, hpb⟩
          rw [hagree p (leaves_mem_branch.mpr ⟨j, by omega, hpj2⟩) (nm0, v0) hmem0 i hi]
          exact (hdiv1 i (by omega)).symm
        · exact hLa2 p h1
      · intro q hq
        rcases List.mem_append.mp hq with h1 | h1
        · exact hLb2 q h1
        · obtain ⟨j, hj, hqj⟩ := mem_flatMap_idx (d := QpNode.nullLeaf) h1
          have hqj2 : q ∈ leavesList (twigGet ts (twigpos bmp (kAt d o) + 1 + j)) := by
            rw [getD_drop] at hqj
            exact hqj
          have hlendrop := List.length_drop (twigpos bmp (kAt d o) + 1) ts
          have hold := hbit _ (by omega) q hqj2
          rw [hastwig_testBit] at hold
          have hqb : kAt d o < kAt q.1 o := by
            refine bit_lt_of_rank_lt hht hold.1 ?_
            rw [hold.2]
            omega
          refine ⟨o, fun i hi => ?_, hqb⟩
          rw [hdiv1 i (by omega)]
          exact hagree (nm0, v0) hmem0 q
            (leaves_mem_branch.mpr ⟨_, by omega, hqj2⟩) i hi
      · rw [← List.append_assoc]
        exact hxp1
      · rw [List.append_assoc]
        exact hxp2
      · intro o2 b2 t2 heq
        injection heq with e1 e2 e3
        subst e1
        exact Or.inr ⟨bmp, ts, rfl⟩

theorem qp_add_zero (root : QpNode) (val : Nat) (d : Dname) :
    qp_add root 0 val d = some (QpNode.leaf val d, 1, (none, none)) := by
  rw [qp_add, if_pos rfl]

/-- qp_add on a non-empty well-formed trie with an absent valid name:
it succeeds, inserts the leaf at its sorted position and returns the
values of the neighbouring leaves of the old trie. -/
theorem qp_add_spec {root : QpNode} (h : WF root) {d : Dname} {val : Nat}
    (hd : validD d) (hval : val ≠ 0) {cnt : Nat} (hcnt : cnt ≠ 0)
    (habs : ∀ p ∈ leavesList root, foldName p.1 ≠ foldName d) :
    ∃ r2 La Lb,
      qp_add root cnt val d =
        some (r2, cnt + 1,
          (La.getLast?.map (fun p => p.2), Lb.head?.map (fun p => p.2))) ∧
      leavesList root = La ++ Lb ∧
      leavesList r2 = La ++ (d, val) :: Lb ∧ WF r2 ∧
      (∀ p ∈ La, StrLt (kAt p.1) (kAt d)) ∧
      (∀ q ∈ Lb, StrLt (kAt d) (kAt q.1)) := by
  obtain ⟨v0, nm0, hdes, hmem0⟩ := descendAny_spec h d
  have hvd0 : validD nm0 := (leaves_valid h (nm0, v0) hmem0).1
  have hfne : foldName d ≠ foldName nm0 := fun hc => habs (nm0, v0) hmem0 hc.symm
  obtain ⟨off, hdoff⟩ := divergeOff_isSome hd hvd0 hfne
  obtain ⟨hne, hagree0, hle0⟩ := divergeOff_spec hdoff
  obtain ⟨r2, pn2, La, Lb, hrun, hsp, hlv, hWF2, hLa, hLb, hxp1, hxp2, _⟩ :=
    addWalk_spec h hd hval hagree0 hne { prev := none, next := none } [] []
      hdes rfl rfl
  have hprev : pn2.prev.map (fun p => leafval (last_leaf p)) =
      La.getLast?.map (fun p => p.2) := by
    cases hpv : pn2.prev with
    | none =>
      rw [hpv] at hxp1
      simp only [PrevOK] at hxp1
      have hLa0 : La = [] := by simpa using hxp1
      rw [hLa0]
      rfl
    | some q =>
      rw [hpv] at hxp1
      simp only [PrevOK] at hxp1
      obtain ⟨hWq, hlast⟩ := hxp1
      obtain ⟨vq, nmq, hlq, hlast2⟩ := last_leaf_spec hWq
      rw [hlast2] at hlast
      rw [Option.map_some', hlq]
      rw [show (([] : List (Dname × Nat)) ++ La) = La from rfl] at hlast
      rw [← hlast]
      rfl
  have hnext : pn2.next.map (fun q => leafval (first_leaf q)) =
      Lb.head?.map (fun p => p.2) := by
    cases hpv : pn2.next with
    | none =>
      rw [hpv] at hxp2
      simp only [NextOK] at hxp2
      have hLb0 : Lb = [] := by simpa using hxp2
      rw [hLb0]
      rfl
    | some q =>
      rw [hpv] at hxp2
      simp only [NextOK] at hxp2
      obtain ⟨hWq, hhead⟩ := hxp2
      obtain ⟨vq, nmq, hfq, hhead2⟩ := first_leaf_spec hWq
      rw [hhead2] at hhead
      rw [Option.map_some', hfq]
      rw [show (Lb ++ ([] : List (Dname × Nat))) = Lb from List.append_nil Lb] at hhead
      rw [← hhead]
      rfl
  have hpnl : prev_next_leaves pn2 =
      (La.getLast?.map (fun p => p.2), Lb.head?.map (fun p => p.2)) := by
    unfold prev_next_leaves
    rw [hprev, hnext]
  refine ⟨r2, La, Lb, ?_, hsp, hlv, hWF2, hLa, hLb⟩
  rw [qp_add, if_neg hcnt]
  simp only [hdes, leafnameO, hdoff, hrun, hpnl]

/-! ### Reachable states -/

/-- Trie states reachable from the empty trie by successful qp_add and
qp_del calls, with distinct (never re-added) valid names and non-NULL
values.  The third component tracks the multiset of current entries. -/
inductive Reach : QpNode → Nat → List (Dname × Nat) → Prop
  | empty : Reach QpNode.nullLeaf 0 []
  | add {root cnt M root2 pn d val} :
      Reach root cnt M → validD d → val ≠ 0 →
      (∀ p ∈ M, foldName p.1 ≠ foldName d) →
      qp_add root cnt val d = some (root2, cnt + 1, pn) →
      Reach root2 (cnt + 1) ((d, val) :: M)
  | del {root cnt M root2 cnt2 d} :
      Reach root cnt M → validD d →
      qp_del root cnt d = some (root2, cnt2) →
      Reach root2 cnt2 (M.filter (fun p => !(dnameEq d p.1)))

/-- Invariant carried by every reachable state: either the trie is the
all-zero empty root, or it is well-formed, the counter equals the
number of leaves, and the leaves are exactly the tracked entries. -/
def Good (root : QpNode) (cnt : Nat) (M : List (Dname × Nat)) : Prop :=
  (root = QpNode.nullLeaf ∧ cnt = 0 ∧ M = []) ∨
  (WF root ∧ cnt = (leavesList root).length ∧ 0 < cnt ∧
    (∀ x, x ∈ leavesList root ↔ x ∈ M))

theorem reach_good {root : QpNode} {cnt : Nat} {M : List (Dname × Nat)}
    (h : Reach root cnt M) : Good root cnt M := by
  induction h with
  | empty => exact Or.inl ⟨rfl, rfl, rfl⟩
  | @add root cnt M root2 pn d val hre hd hval hdist heq ih =>
    rcases ih with ⟨hr0, hc0, hM0⟩ | ⟨hWF, hlen, hpos, hmem⟩
    · subst hr0
      subst hc0
      subst hM0
      rw [qp_add_zero] at heq
      simp only [Option.some.injEq, Prod.mk.injEq] at heq
      obtain ⟨h1, -, -⟩ := heq
      subst h1
      refine Or.inr ⟨WF.leaf hval hd, by rw [leaves_leaf]; rfl, by omega, ?_⟩
      intro x
      rw [leaves_leaf]
    · have habs : ∀ p ∈ leavesList root, foldName p.1 ≠ foldName d :=
        fun p hp => hdist p ((hmem p).mp hp)
      obtain ⟨r2, La, Lb, hrun, hsp, hlv, hWF2, hLa, hLb⟩ :=
        qp_add_spec hWF hd hval (show cnt ≠ 0 by omega) habs
      rw [hrun] at heq
      simp only [Option.some.injEq, Prod.mk.injEq] at heq
      obtain ⟨h1, -, -⟩ := heq
      subst h1
      refine Or.inr ⟨hWF2, ?_, by omega, ?_⟩
      · have := congrArg List.length hsp
        rw [hlv]
        simp only [List.length_append, List.length_cons] at this ⊢
        omega
      · intro x
        have hx2 := hmem x
        rw [hsp, List.mem_append] at hx2
        rw [hlv]
        simp only [List.mem_append, List.mem_cons]
        rw [← hx2]
        tauto
  | @del root cnt M root2 cnt2 d hre hd heq ih =>
    rcases ih with ⟨hr0, hc0, hM0⟩ | ⟨hWF, hlen, hpos, hmem⟩
    · subst hr0
      rw [show qp_del QpNode.nullLeaf cnt d = none from rfl] at heq
      exact Option.noConfusion heq
    · by_cases hpres : ∃ p ∈ leavesList root, dnameEq d p.1 = true
      · obtain ⟨⟨nm, v⟩, hmemp, hdeqp⟩ := hpres
        obtain ⟨l1, l2, hsplit, hor⟩ := qp_del_present hWF hd hmemp hdeqp cnt
        have hsort := leaves_sorted hWF
        rw [hsplit, List.pairwise_append, List.pairwise_cons] at hsort
        obtain ⟨hs1, ⟨hnml2, hs2⟩, hs12⟩ := hsort
        have hvall := leaves_valid hWF
        have hfilt : ∀ x ∈ leavesList root, x ≠ ((nm, v) : Dname × Nat) →
            dnameEq d x.1 = false := by
          intro x hx hxne
          cases hc : dnameEq d x.1 with
          | false => rfl
          | true =>
            have hfx : foldName x.1 = foldName nm :=
              (dnameEq_iff.mp hc).symm.trans (dnameEq_iff.mp hdeqp)
            have hkx : kAt x.1 = kAt nm :=
              kAt_of_fold_eq (hvall x hx).1
                (hvall (nm, v) hmemp).1 hfx
            rw [hsplit] at hx
            rcases List.mem_append.mp hx with hx1 | hx2
            · have := hs12 x hx1 (nm, v) (List.mem_cons_self _ _)
              rw [hkx] at this
              exact absurd this StrLt_irrefl
            · rcases List.mem_cons.mp hx2 with hx3 | hx3
              · exact absurd hx3 hxne
              · have := hnml2 x hx3
                rw [hkx] at this
                exact absurd this StrLt_irrefl
        rcases hor with ⟨hl1, hl2, hrun⟩ | ⟨r, hrun, hWFr, hlvr⟩
        · rw [hrun] at heq
          simp only [Option.some.injEq, Prod.mk.injEq] at heq
          obtain ⟨h1, h2⟩ := heq
          subst h1
          subst h2
          refine Or.inl ⟨rfl, ?_, ?_⟩
          · rw [hl1, hl2] at hsplit
            rw [hsplit] at hlen
            simp at hlen
            omega
          · rw [List.filter_eq_nil_iff]
            intro a ha
            have hax : a ∈ leavesList root := (hmem a).mpr ha
            rw [hl1, hl2] at hsplit
            rw [hsplit] at hax
            simp only [List.nil_append, List.mem_singleton] at hax
            subst hax
            simp [hdeqp]
        · rw [hrun] at heq
          simp only [Option.some.injEq, Prod.mk.injEq] at heq
          obtain ⟨h1, h2⟩ := heq
          subst h1
          subst h2
          have hlenr : (leavesList r).length + 1 = (leavesList root).length := by
            rw [hsplit, hlvr]
            simp only [List.length_append, List.length_cons]
            omega
          have hlenpos : 0 < (leavesList r).length :=
            List.length_pos.mpr (leaves_ne_nil hWFr)
          refine Or.inr ⟨hWFr, by omega, by omega, ?_⟩
          intro x
          rw [List.mem_filter, ← hmem x]
          constructor
          · intro hx
            have hx0 : x ∈ leavesList root := by
              rw [hsplit]
              rw [hlvr, List.mem_append] at hx
              rcases hx with hx | hx
              · exact List.mem_append.mpr (Or.inl hx)
              · exact List.mem_append.mpr (Or.inr (List.mem_cons_of_mem _ hx))
            have hxne : x ≠ ((nm, v) : Dname × Nat) := by
              intro hc
              subst hc
              rw [hlvr, List.mem_append] at hx
              rcases hx with hx1 | hx1
              · exact absurd (hs12 (nm, v) hx1 (nm, v) (List.mem_cons_self _ _))
                  StrLt_irrefl
              · exact absurd (hnml2 (nm, v) hx1) StrLt_irrefl
            refine ⟨hx0, ?_⟩
            rw [hfilt x hx0 hxne]
            rfl
          · rintro ⟨hx0, hxp⟩
            have hxne : x ≠ ((nm, v) : Dname × Nat) := by
              intro hc
              subst hc
              simp [hdeqp] at hxp
            rw [hsplit] at hx0
            rw [hlvr, List.mem_append]
            rcases List.mem_append.mp hx0 with hx1 | hx1
            · exact Or.inl hx1
            · rcases List.mem_cons.mp hx1 with hx2 | hx2
              · exact absurd hx2 hxne
              · exact Or.inr hx2
      · have habs : ∀ p ∈ leavesList root, dnameEq d p.1 = false := by
          intro p hp
          cases hc : dnameEq d p.1 with
          | false => rfl
          | true => exact absurd ⟨p, hp, hc⟩ hpres
        have hrun := qp_del_absent hWF habs cnt
        rw [hrun] at heq
        simp only [Option.some.injEq, Prod.mk.injEq] at heq
        obtain ⟨h1, h2⟩ := heq
        subst h1
        subst h2
        refine Or.inr ⟨hWF, by omega, by omega, ?_⟩
        intro x
        rw [List.mem_filter, ← hmem x]
        constructor
        · intro hx
          refine ⟨hx, ?_⟩
          rw [habs x hx]
          rfl
        · exact fun hx => hx.1

/-! ### C1, C3, C4, C6: functional correctness over reachable states -/

/-- C1: over every state reachable by qp_add and qp_del with distinct
names, qp_get returns exactly the value supplied to qp_add for every
currently inserted name, and none for every name not currently in the
trie. -/
theorem claim_C1 {root : QpNode} {cnt : Nat} {M : List (Dname × Nat)}
    (hre : Reach root cnt M) {d : Dname} (hd : validD d) :
    (∀ val, (d, val) ∈ M → qp_get d root = some val) ∧
    ((∀ p ∈ M, foldName p.1 ≠ foldName d) → qp_get d root = none) := by
  rcases reach_good hre with ⟨hr0, hc0, hM0⟩ | ⟨hWF, hlen, hpos, hmem⟩
  · subst hr0
    subst hM0
    exact ⟨fun val hv => absurd hv (List.not_mem_nil _), fun _ => qp_get_null d⟩
  · constructor
    · intro val hv
      exact qp_get_mem hWF hd ((hmem (d, val)).mpr hv) rfl
    · intro habs
      refine qp_get_none hWF (fun p hp => ?_)
      have hne := habs p ((hmem p).mp hp)
      cases hc : dnameEq d p.1 with
      | false => rfl
      | true => exact absurd (dnameEq_iff.mp hc).symm hne

theorem claim_C1_witness :
    qp_get [[0x61]] (QpNode.leaf 5 [[0x61]]) = some 5 ∧
    qp_get [[0x62]] (QpNode.leaf 5 [[0x61]]) = none := by
  have hre : Reach (QpNode.leaf 5 [[0x61]]) 1 [([[0x61]], 5)] :=
    Reach.add Reach.empty (by decide) (by decide)
      (fun p hp => absurd hp (List.not_mem_nil _))
      (qp_add_zero QpNode.nullLeaf 5 [[0x61]])
  exact ⟨(claim_C1 hre (by decide)).1 5 (by simp),
         (claim_C1 hre (by decide)).2 (by decide)⟩

/-- C3: over every reachable state, qp_foreach yields exactly the
values of the leaves, the leaf names are strictly ascending under the
embedder comparator, and the leaves are exactly the currently inserted
entries (so each is visited exactly once). -/
theorem claim_C3 {root : QpNode} {cnt : Nat} {M : List (Dname × Nat)}
    (hre : Reach root cnt M) :
    qp_foreach root = (leavesList root).map (fun p => p.2) ∧
    ((leavesList root).map (fun p => p.1)).Pairwise dnameLt ∧
    (∀ x, x ∈ leavesList root ↔ x ∈ M) := by
  rcases reach_good hre with ⟨hr0, hc0, hM0⟩ | ⟨hWF, hlen, hpos, hmem⟩
  · subst hr0
    subst hM0
    refine ⟨?_, ?_, fun x => ?_⟩
    · simp [qp_foreach, leaves_null]
    · rw [leaves_null]
      exact List.Pairwise.nil
    · rw [leaves_null]
  · exact ⟨foreach_eq hWF, leaves_names_sorted hWF, hmem⟩

theorem claim_C3_witness :
    qp_foreach (QpNode.leaf 5 [[0x61]]) =
      (leavesList (QpNode.leaf 5 [[0x61]])).map (fun p => p.2) := by
  have hre : Reach (QpNode.leaf 5 [[0x61]]) 1 [([[0x61]], 5)] :=
    Reach.add Reach.empty (by decide) (by decide)
      (fun p hp => absurd hp (List.not_mem_nil _))
      (qp_add_zero QpNode.nullLeaf 5 [[0x61]])
  exact (claim_C3 hre).1

/-- C4: for every reachable state and absent name, qp_add succeeds and
returns exactly the values of the rightmost pre-insertion leaf below
the new name and the leftmost pre-insertion leaf above it, none where
no such leaf exists. -/
theorem claim_C4 {root : QpNode} {cnt : Nat} {M : List (Dname × Nat)}
    (hre : Reach root cnt M) {d : Dname} {val : Nat}
    (hd : validD d) (hval : val ≠ 0)
    (habs : ∀ p ∈ M, foldName p.1 ≠ foldName d) :
    ∃ r2 La Lb,
      leavesList root = La ++ Lb ∧
      (∀ p ∈ La, dnameLt p.1 d) ∧
      (∀ q ∈ Lb, dnameLt d q.1) ∧
      qp_add root cnt val d =
        some (r2, cnt + 1,
          (La.getLast?.map (fun p => p.2), Lb.head?.map (fun p => p.2))) := by
  rcases reach_good hre with ⟨hr0, hc0, hM0⟩ | ⟨hWF, hlen, hpos, hmem⟩
  · subst hr0
    subst hc0
    exact ⟨QpNode.leaf val d, [], [], by rw [leaves_null]; rfl,
      fun p hp => absurd hp (List.not_mem_nil _),
      fun q hq => absurd hq (List.not_mem_nil _),
      qp_add_zero QpNode.nullLeaf val d⟩
  · obtain ⟨r2, La, Lb, hrun, hsp, hlv, hWF2, hLa, hLb⟩ :=
      qp_add_spec hWF hd hval (show cnt ≠ 0 by omega)
        (fun p hp => habs p ((hmem p).mp hp))
    have hvall := leaves_valid hWF
    refine ⟨r2, La, Lb, hsp, ?_, ?_, hrun⟩
    · intro p hp
      have hpm : p ∈ leavesList root := by
        rw [hsp]
        exact List.mem_append.mpr (Or.inl hp)
      exact strLt_dnameLt (hvall p hpm).1 hd (hLa p hp)
    · intro q hq
      have hqm : q ∈ leavesList root := by
        rw [hsp]
        exact List.mem_append.mpr (Or.inr hq)
      exact strLt_dnameLt hd (hvall q hqm).1 (hLb q hq)

theorem claim_C4_witness :
    ∃ r2 La Lb,
      leavesList (QpNode.leaf 5 [[0x61]]) = La ++ Lb ∧
      (∀ p ∈ La, dnameLt p.1 [[0x62]]) ∧
      (∀ q ∈ Lb, dnameLt [[0x62]] q.1) ∧
      qp_add (QpNode.leaf 5 [[0x61]]) 1 7 [[0x62]] =
        some (r2, 1 + 1,
          (La.getLast?.map (fun p => p.2), Lb.head?.map (fun p => p.2))) := by
  have hre : Reach (QpNode.leaf 5 [[0x61]]) 1 [([[0x61]], 5)] :=
    Reach.add Reach.empty (by decide) (by decide)
      (fun p hp => absurd hp (List.not_mem_nil _))
      (qp_add_zero QpNode.nullLeaf 5 [[0x61]])
  exact claim_C4 hre (by decide) (by decide) (by decide)

/-- C6: deleting an absent name is a normal no-op on every non-empty
reachable state; but on the empty trie qp_del follows the NULL twig
pointer of the all-zero root inside leafname before any emptiness
check, modelled by the none result, so the claimed no-op fails there. -/
theorem claim_C6 :
    (∀ (cnt : Nat) (d : Dname), qp_del QpNode.nullLeaf cnt d = none) ∧
    (∀ root cnt M (d : Dname), Reach root cnt M → validD d →
      root ≠ QpNode.nullLeaf →
      (∀ p ∈ M, foldName p.1 ≠ foldName d) →
      qp_del root cnt d = some (root, cnt)) := by
  refine ⟨fun cnt d => rfl, ?_⟩
  intro root cnt M d hre hd hnn habs
  rcases reach_good hre with ⟨hr0, hc0, hM0⟩ | ⟨hWF, hlen, hpos, hmem⟩
  · exact absurd hr0 hnn
  · refine qp_del_absent hWF (fun p hp => ?_) cnt
    have hne := habs p ((hmem p).mp hp)
    cases hc : dnameEq d p.1 with
    | false => rfl
    | true => exact absurd (dnameEq_iff.mp hc).symm hne

theorem claim_C6_witness :
    qp_del QpNode.nullLeaf 0 [[0x61]] = none ∧
    qp_del (QpNode.leaf 5 [[0x61]]) 1 [[0x62]] =
      some (QpNode.leaf 5 [[0x61]], 1) := by
  have hre : Reach (QpNode.leaf 5 [[0x61]]) 1 [([[0x61]], 5)] :=
    Reach.add Reach.empty (by decide) (by decide)
      (fun p hp => absurd hp (List.not_mem_nil _))
      (qp_add_zero QpNode.nullLeaf 5 [[0x61]])
  exact ⟨claim_C6.1 0 [[0x61]],
         claim_C6.2 _ 1 _ [[0x62]] hre (by decide)
           (fun h => QpNode.noConfusion h) (by decide)⟩

/-! ### qp_find_le: the first walk -/

theorem findGoA_null (d : Dname) : findGoA d QpNode.nullLeaf = QpNode.nullLeaf := by
  simp [findGoA]

theorem findGoA_leaf (d : Dname) (v : Nat) (nm : Dname) :
    findGoA d (QpNode.leaf v nm) = QpNode.leaf v nm := by
  simp [findGoA]

theorem findGoA_branch (d : Dname) (o bmp : Nat) (ts : List QpNode) :
    findGoA d (QpNode.branch o bmp ts) =
      if hastwig bmp (kAt d o) then findGoA d (twigGet ts (twigpos bmp (kAt d o)))
      else QpNode.branch o bmp ts := by
  rw [findGoA]

/-- The stop node of the first walk is a well-formed subtree whose
leaves belong to the trie. -/
theorem findGoA_sub {t : QpNode} (h : WF t) (d : Dname) :
    WF (findGoA d t) ∧
      ∀ p ∈ leavesList (findGoA d t), p ∈ leavesList t := by
  induction h with
  | @leaf v nm hv hd =>
    rw [findGoA_leaf]
    exact ⟨WF.leaf hv hd, fun p hp => hp⟩
  | @branch o bmp ts hw h2 hlen hwf hbit hagree hoff ih =>
    rw [findGoA_branch]
    cases hc : hastwig bmp (kAt d o) with
    | true =>
      rw [if_pos rfl]
      have hposlt : twigpos bmp (kAt d o) < ts.length := by
        rw [hlen, twigmax_eq hw]
        exact twigpos_lt_popcnt hc
      refine ⟨(ih _ hposlt).1, fun p hp => ?_⟩
      exact leaves_mem_branch.mpr ⟨_, hposlt, (ih _ hposlt).2 p hp⟩
    | false =>
      rw [if_neg Bool.false_ne_true]
      exact ⟨WF.branch hw h2 hlen hwf hbit hagree hoff, fun p hp => hp⟩

/-- The first walk reaches the leaf of any name present in the trie. -/
theorem findGoA_mem {t : QpNode} (h : WF t) {d : Dname} (hd : validD d) :
    ∀ {nm v}, (nm, v) ∈ leavesList t → foldName d = foldName nm →
      findGoA d t = QpNode.leaf v nm := by
  induction h with
  | @leaf v2 nm2 hv2 hd2 =>
    intro nm v hmem heq
    rw [leaves_leaf, List.mem_singleton] at hmem
    have h1 : nm = nm2 := congrArg Prod.fst hmem
    have h2 : v = v2 := congrArg Prod.snd hmem
    subst h1
    subst h2
    exact findGoA_leaf d v nm
  | @branch off bmp ts hw h2 hlen hwf hbit hagree hoff ih =>
    intro nm v hmem heq
    obtain ⟨i, hi, hpi⟩ := leaves_mem_branch.mp hmem
    have hb := hbit i hi (nm, v) hpi
    have hvd : validD nm := (leaves_valid (hwf i hi) (nm, v) hpi).1
    have hk : kAt d = kAt nm := kAt_of_fold_eq hd hvd heq
    rw [findGoA_branch, hk, if_pos hb.1, hb.2]
    exact ih i hi hpi heq

/-- When the first walk stops at a branch, the twig for the search key
is missing there. -/
theorem findGoA_stop {t : QpNode} (h : WF t) {d : Dname} :
    ∀ o bmp ts, findGoA d t = QpNode.branch o bmp ts →
      hastwig bmp (kAt d o) = false := by
  induction h with
  | @leaf v nm hv hd2 =>
    intro o bmp ts hc
    rw [findGoA_leaf] at hc
    exact QpNode.noConfusion hc
  | @branch o2 bmp2 ts2 hw h2 hlen hwf hbit hagree hoff ih =>
    intro o bmp ts hc
    rw [findGoA_branch] at hc
    cases hcc : hastwig bmp2 (kAt d o2) with
    | true =>
      rw [if_pos hcc] at hc
      have hposlt : twigpos bmp2 (kAt d o2) < ts2.length := by
        rw [hlen, twigmax_eq hw]
        exact twigpos_lt_popcnt hcc
      exact ih _ hposlt o bmp ts hc
    | false =>
      rw [if_neg (by rw [hcc]; simp)] at hc
      injection hc with e1 e2 e3
      subst e1
      subst e2
      exact hcc

/-- If a leaf of the trie agrees with the search key through position
off, so does some leaf of the stop subtree of the first walk. -/
theorem findGoA_no_longer {t : QpNode} (h : WF t) {d : Dname} {off : Nat} :
    ∀ {x : Dname × Nat}, x ∈ leavesList t →
      (∀ j, j ≤ off → kAt x.1 j = kAt d j) →
      ∃ y : Dname × Nat, y ∈ leavesList (findGoA d t) ∧
        ∀ j, j ≤ off → kAt y.1 j = kAt d j := by
  induction h with
  | @leaf v nm hv hd2 =>
    intro x hx hagr
    rw [findGoA_leaf]
    exact ⟨x, hx, hagr⟩
  | @branch o bmp ts hw h2 hlen hwf hbit hagree hoff ih =>
    intro x hx hagr
    rw [findGoA_branch]
    cases hcc : hastwig bmp (kAt d o) with
    | false =>
      rw [if_neg Bool.false_ne_true]
      exact ⟨x, hx, hagr⟩
    | true =>
      rw [if_pos rfl]
      have hposlt : twigpos bmp (kAt d o) < ts.length := by
        rw [hlen, twigmax_eq hw]
        exact twigpos_lt_popcnt hcc
      by_cases ho : o ≤ off
      · obtain ⟨i, hi, hxi⟩ := leaves_mem_branch.mp hx
        have hb := hbit i hi x hxi
        have hxo : kAt x.1 o = kAt d o := hagr o ho
        have hieq : twigpos bmp (kAt d o) = i := by
          rw [← hxo]
          exact hb.2
        rw [← hieq] at hxi
        exact ih _ hposlt hxi hagr
      · push_neg at ho
        have hne := leaves_ne_nil (hwf _ hposlt)
        obtain ⟨y, hy⟩ : ∃ y, y ∈ leavesList (twigGet ts (twigpos bmp (kAt d o))) := by
          cases hl : leavesList (twigGet ts (twigpos bmp (kAt d o))) with
          | nil => exact absurd hl hne
          | cons a l => exact ⟨a, hl ▸ List.mem_cons_self a l⟩
        have hymem : y ∈ leavesList (QpNode.branch o bmp ts) :=
          leaves_mem_branch.mpr ⟨_, hposlt, hy⟩
        have hyagr : ∀ j, j ≤ off → kAt y.1 j = kAt d j := by
          intro j hj
          rw [hagree y hymem x hx j (by omega)]
          exact hagr j hj
        exact ih _ hposlt hy hyagr

/-- After the first walk, no leaf of the trie matches the search key
on every position up to the divergence offset computed against the
first leaf of the stop node. -/
theorem stop_no_through {t : QpNode} (h : WF t) {d fnd : Dname} {fv : Nat} {off : Nat}
    (hfl : (leavesList (findGoA d t)).head? = some (fnd, fv))
    (hdiv : ∀ j, j < off → kAt d j = kAt fnd j)
    (hne : kAt d off ≠ kAt fnd off) :
    ∀ x ∈ leavesList t, ¬(∀ j, j ≤ off → kAt x.1 j = kAt d j) := by
  intro x hx hagr
  obtain ⟨y, hy, hyagr⟩ := findGoA_no_longer h hx hagr
  have hS := (findGoA_sub h d).1
  have hfmem : (fnd, fv) ∈ leavesList (findGoA d t) := List.mem_of_mem_head? hfl
  cases hSc : findGoA d t with
  | nullLeaf =>
    rw [hSc, leaves_null] at hfmem
    exact absurd hfmem (List.not_mem_nil _)
  | leaf v2 nm2 =>
    rw [hSc, leaves_leaf, List.mem_singleton] at hfmem hy
    have h1 : y.1 = nm2 := congrArg Prod.fst hy
    have h2 : fnd = nm2 := congrArg Prod.fst hfmem
    refine hne ?_
    rw [h2, ← h1]
    exact (hyagr off (le_refl off)).symm
  | branch oS bS tsS =>
    rw [hSc] at hfmem hy
    have hSW : WF (QpNode.branch oS bS tsS) := by
      rw [← hSc]
      exact hS
    cases hSW with
    | branch hw2 h22 hlen2 hwf2 hbit2 hagree2 hoff2 =>
      by_cases hcmp : off < oS
      · have hfy := hagree2 (fnd, fv) hfmem y hy off hcmp
        refine hne ?_
        rw [← hyagr off (le_refl off)]
        exact hfy.symm
      · push_neg at hcmp
        have hstop := findGoA_stop h oS bS tsS hSc
        obtain ⟨i, hi, hyi⟩ := leaves_mem_branch.mp hy
        have hb := hbit2 i hi y hyi
        have hyo : kAt y.1 oS = kAt d oS := hyagr oS (by omega)
        rw [hyo, hstop] at hb
        exact Bool.noConfusion hb.1

theorem findGoB_leaf (d fnd : Dname) (off : Nat) (v : Nat) (nm : Dname)
    (p : Option QpNode) :
    findGoB d fnd off (QpNode.leaf v nm) p =
      some (if kAt fnd off < kAt d off then some (QpNode.leaf v nm) else p) := by
  simp [findGoB]

theorem findGoB_branch (d fnd : Dname) (off o bmp : Nat) (ts : List QpNode)
    (p : Option QpNode) :
    findGoB d fnd off (QpNode.branch o bmp ts) p =
      (if off < o then
        some (if kAt fnd off < kAt d off then some (QpNode.branch o bmp ts) else p)
      else if off = o then
        some (if 0 < twigpos bmp (kAt d o) then
          some (twigGet ts (twigpos bmp (kAt d o) - 1)) else p)
      else if hastwig bmp (kAt d o) then
        findGoB d fnd off (twigGet ts (twigpos bmp (kAt d o)))
          (if 0 < twigpos bmp (kAt d o) then
            some (twigGet ts (twigpos bmp (kAt d o) - 1)) else p)
      else none) := by
  rw [findGoB]

/-- Correctness of the second walk of qp_find_le: it splits the leaves
around the search key and returns the node holding the rightmost leaf
below it. -/
theorem findGoB_spec {t : QpNode} (h : WF t) {d fnd : Dname} {fv : Nat} {off : Nat}
    (hdiv : ∀ j, j < off → kAt d j = kAt fnd j)
    (hne : kAt d off ≠ kAt fnd off) :
    ∀ p l1, (fnd, fv) ∈ leavesList t →
      (∀ x ∈ leavesList t, ¬(∀ j, j ≤ off → kAt x.1 j = kAt d j)) →
      PrevOK p l1 →
      ∃ res L1 L2,
        findGoB d fnd off t p = some res ∧
        leavesList t = L1 ++ L2 ∧
        (∀ x ∈ L1, StrLt (kAt x.1) (kAt d)) ∧
        (∀ y ∈ L2, StrLt (kAt d) (kAt y.1)) ∧
        PrevOK res (l1 ++ L1) := by
  induction h with
  | @leaf v nm hv hd2 =>
    intro p l1 hfnd hG hPrev
    rw [leaves_leaf, List.mem_singleton] at hfnd
    have e1 : fnd = nm := congrArg Prod.fst hfnd
    subst e1
    rw [findGoB_leaf]
    by_cases hlt : kAt fnd off < kAt d off
    · rw [if_pos hlt]
      refine ⟨some (QpNode.leaf v fnd), [(fnd, v)], [], rfl,
        by rw [leaves_leaf, List.append_nil], ?_, ?_, ?_⟩
      · intro x hx
        rw [List.mem_singleton] at hx
        subst hx
        exact ⟨off, fun i hi => (hdiv i hi).symm, hlt⟩
      · intro y hy
        exact absurd hy (List.not_mem_nil _)
      · simp only [PrevOK]
        refine ⟨WF.leaf hv hd2, ?_⟩
        rw [leaves_leaf, List.getLast?_append_of_ne_nil _ (by simp)]
    · rw [if_neg hlt]
      have hgt : kAt d off < kAt fnd off := by
        rcases Nat.lt_trichotomy (kAt d off) (kAt fnd off) with hq | hq | hq
        · exact hq
        · exact absurd hq hne
        · omega
      refine ⟨p, [], [(fnd, v)], rfl, by rw [leaves_leaf]; rfl, ?_, ?_, ?_⟩
      · intro x hx
        exact absurd hx (List.not_mem_nil _)
      · intro y hy
        rw [List.mem_singleton] at hy
        subst hy
        exact ⟨off, fun i hi => hdiv i hi, hgt⟩
      · rw [List.append_nil]
        exact hPrev
  | @branch o bmp ts hw h2 hlen hwf hbit hagree hoff ih =>
    intro p l1 hfnd hG hPrev
    have hlv_ne : ∀ i, i < ts.length → leavesList (twigGet ts i) ≠ [] :=
      fun i hi => leaves_ne_nil (hwf i hi)
    rw [findGoB_branch]
    rcases Nat.lt_trichotomy off o with hcase | hcase | hcase
    · -- the divergence is above this branch: all leaves compare like fnd
      rw [if_pos hcase]
      have hxf : ∀ x ∈ leavesList (QpNode.branch o bmp ts), kAt x.1 off = kAt fnd off :=
        fun x hx => hagree x hx (fnd, fv) hfnd off hcase
      have hxd : ∀ x ∈ leavesList (QpNode.branch o bmp ts), ∀ i, i < off →
          kAt x.1 i = kAt d i := by
        intro x hx i hi
        rw [hagree x hx (fnd, fv) hfnd i (by omega)]
        exact (hdiv i hi).symm
      by_cases hlt : kAt fnd off < kAt d off
      · rw [if_pos hlt]
        refine ⟨some (QpNode.branch o bmp ts), leavesList (QpNode.branch o bmp ts), [],
          rfl, (List.append_nil _).symm, ?_, ?_, ?_⟩
        · intro x hx
          exact ⟨off, fun i hi => hxd x hx i hi, by rw [hxf x hx]; exact hlt⟩
        · intro y hy
          exact absurd hy (List.not_mem_nil _)
        · simp only [PrevOK]
          refine ⟨WF.branch hw h2 hlen hwf hbit hagree hoff, ?_⟩
          rw [List.getLast?_append_of_ne_nil _
            (leaves_ne_nil (WF.branch hw h2 hlen hwf hbit hagree hoff))]
      · rw [if_neg hlt]
        have hgt : kAt d off < kAt fnd off := by
          rcases Nat.lt_trichotomy (kAt d off) (kAt fnd off) with hq | hq | hq
          · exact hq
          · exact absurd hq hne
          · omega
        refine ⟨p, [], leavesList (QpNode.branch o bmp ts), rfl, rfl, ?_, ?_, ?_⟩
        · intro x hx
          exact absurd hx (List.not_mem_nil _)
        · intro y hy
          exact ⟨off, fun i hi => (hxd y hy i hi).symm, by rw [hxf y hy]; exact hgt⟩
        · rw [List.append_nil]
          exact hPrev
    · -- the branch tests exactly the divergence position
      subst hcase
      rw [if_neg (lt_irrefl off), if_pos rfl]
      have hnot : bmp.testBit (kAt d off) = false := by
        cases hcb : bmp.testBit (kAt d off) with
        | false => rfl
        | true =>
          exfalso
          have hposlt : twigpos bmp (kAt d off) < ts.length := by
            rw [hlen, twigmax_eq hw]
            exact twigpos_lt_popcnt hcb
          have hnem := hlv_ne _ hposlt
          obtain ⟨y, hy⟩ : ∃ y, y ∈ leavesList (twigGet ts (twigpos bmp (kAt d off))) := by
            cases hl : leavesList (twigGet ts (twigpos bmp (kAt d off))) with
            | nil => exact absurd hl hnem
            | cons a l => exact ⟨a, hl ▸ List.mem_cons_self a l⟩
          have hb := hbit _ hposlt y hy
          rw [hastwig_testBit] at hb
          have hyd : kAt y.1 off = kAt d off := rank_bit_eq hb.1 hcb hb.2
          have hymem : y ∈ leavesList (QpNode.branch off bmp ts) :=
            leaves_mem_branch.mpr ⟨_, hposlt, hy⟩
          refine hG y hymem (fun j hj => ?_)
          rcases Nat.lt_or_ge j off with hj2 | hj2
          · rw [hagree y hymem (fnd, fv) hfnd j hj2]
            exact (hdiv j hj2).symm
          · have hjo : j = off := by omega
            rw [hjo]
            exact hyd
      have hple : twigpos bmp (kAt d off) ≤ ts.length := by
        rw [hlen, twigmax_eq hw]
        exact twigpos_le_popcnt bmp (kAt d off)
      refine ⟨if 0 < twigpos bmp (kAt d off) then
          some (twigGet ts (twigpos bmp (kAt d off) - 1)) else p,
        (ts.take (twigpos bmp (kAt d off))).flatMap leavesList,
        (ts.drop (twigpos bmp (kAt d off))).flatMap leavesList,
        rfl, ?_, ?_, ?_, ?_⟩
      · rw [leaves_branch]
        conv_lhs => rw [← List.take_append_drop (twigpos bmp (kAt d off)) ts]
        rw [List.flatMap_append]
      · intro x hx
        obtain ⟨j, hj, hxj⟩ := mem_flatMap_idx (d := QpNode.nullLeaf) hx
        have hjlt : j < twigpos bmp (kAt d off) := by
          have := List.length_take (twigpos bmp (kAt d off)) ts
          omega
        have hxj2 : x ∈ leavesList (twigGet ts j) := by
          rw [getD_take_lt _ hjlt] at hxj
          exact hxj
        have hold := hbit j (by omega) x hxj2
        rw [hastwig_testBit] at hold
        have hxb : kAt x.1 off < kAt d off := by
          by_contra hge
          push_neg at hge
          have hne2 : kAt d off ≠ kAt x.1 off := by
            intro hc
            rw [← hc] at hold
            rw [hold.1] at hnot
            exact Bool.noConfusion hnot
          have hmono := @twigpos_mono bmp _ _ (show kAt d off ≤ kAt x.1 off by omega)
          omega
        refine ⟨off, fun i hi => ?_, hxb⟩
        have hxmem : x ∈ leavesList (QpNode.branch off bmp ts) :=
          leaves_mem_branch.mpr ⟨j, by omega, hxj2⟩
        rw [hagree x hxmem (fnd, fv) hfnd i hi]
        exact (hdiv i hi).symm
      · intro y hy
        obtain ⟨j, hj, hyj⟩ := mem_flatMap_idx (d := QpNode.nullLeaf) hy
        have hlendrop := List.length_drop (twigpos bmp (kAt d off)) ts
        have hyj2 : y ∈ leavesList (twigGet ts (twigpos bmp (kAt d off) + j)) := by
          rw [getD_drop] at hyj
          exact hyj
        have hold := hbit _ (by omega) y hyj2
        rw [hastwig_testBit] at hold
        have hyb : kAt d off < kAt y.1 off := by
          by_contra hge
          push_neg at hge
          have hne2 : kAt y.1 off ≠ kAt d off := by
            intro hc
            rw [hc] at hold
            rw [hold.1] at hnot
            exact Bool.noConfusion hnot
          have hstrict := twigpos_strict hold.1 (show kAt y.1 off < kAt d off by omega)
          omega
        refine ⟨off, fun i hi => ?_, hyb⟩
        have hymem : y ∈ leavesList (QpNode.branch off bmp ts) :=
          leaves_mem_branch.mpr ⟨_, by omega, hyj2⟩
        rw [hdiv i hi]
        exact hagree (fnd, fv) hfnd y hymem i hi
      · by_cases hpos0 : 0 < twigpos bmp (kAt d off)
        · rw [if_pos hpos0]
          simp only [PrevOK]
          refine ⟨hwf _ (by omega), ?_⟩
          have hAne : (ts.take (twigpos bmp (kAt d off))).flatMap leavesList ≠ [] :=
            take_flatMap_ne_nil hpos0 hple hlv_ne
          rw [List.getLast?_append_of_ne_nil _ hAne]
          exact (take_flatMap_getLast? hpos0 hple (hlv_ne _ (by omega))).symm
        · rw [if_neg hpos0]
          have hpz : twigpos bmp (kAt d off) = 0 := by omega
          rw [hpz]
          rw [show ts.take 0 = ([] : List QpNode) from rfl]
          rw [show ([] : List QpNode).flatMap leavesList = [] from rfl, List.append_nil]
          exact hPrev
    · -- the branch tests a position before the divergence: descend
      rw [if_neg (by omega), if_neg (by omega)]
      obtain ⟨i, hi, hfi⟩ := leaves_mem_branch.mp hfnd
      have hbf := hbit i hi (fnd, fv) hfi
      have h1f : bmp.testBit (kAt fnd o) = true := hbf.1
      have hht : hastwig bmp (kAt d o) = true := by
        rw [hastwig_testBit, hdiv o hcase]
        exact h1f
      rw [if_pos hht]
      have hposlt : twigpos bmp (kAt d o) < ts.length := by
        rw [hlen, twigmax_eq hw]
        exact twigpos_lt_popcnt hht
      have hieq : twigpos bmp (kAt d o) = i := by
        have h2f : twigpos bmp (kAt fnd o) = i := hbf.2
        rw [hdiv o hcase]
        exact h2f
      have hfsub : (fnd, fv) ∈ leavesList (twigGet ts (twigpos bmp (kAt d o))) := by
        rw [hieq]
        exact hfi
      have hP3 : PrevOK (if 0 < twigpos bmp (kAt d o) then
          some (twigGet ts (twigpos bmp (kAt d o) - 1)) else p)
          (l1 ++ (ts.take (twigpos bmp (kAt d o))).flatMap leavesList) := by
        by_cases hpos0 : 0 < twigpos bmp (kAt d o)
        · rw [if_pos hpos0]
          simp only [PrevOK]
          refine ⟨hwf _ (by omega), ?_⟩
          have hAne : (ts.take (twigpos bmp (kAt d o))).flatMap leavesList ≠ [] :=
            take_flatMap_ne_nil hpos0 (by omega) hlv_ne
          rw [List.getLast?_append_of_ne_nil _ hAne]
          exact (take_flatMap_getLast? hpos0 (by omega) (hlv_ne _ (by omega))).symm
        · rw [if_neg hpos0]
          have hpz : twigpos bmp (kAt d o) = 0 := by omega
          rw [hpz]
          rw [show ts.take 0 = ([] : List QpNode) from rfl]
          rw [show ([] : List QpNode).flatMap leavesList = [] from rfl, List.append_nil]
          exact hPrev
      have hGsub : ∀ x ∈ leavesList (twigGet ts (twigpos bmp (kAt d o))),
          ¬(∀ j, j ≤ off → kAt x.1 j = kAt d j) :=
        fun x hx => hG x (leaves_mem_branch.mpr ⟨_, hposlt, hx⟩)
      obtain ⟨res, M1, M2, hrun, hsp2, hM1, hM2, hPres⟩ :=
        ih _ hposlt (if 0 < twigpos bmp (kAt d o) then
            some (twigGet ts (twigpos bmp (kAt d o) - 1)) else p)
          (l1 ++ (ts.take (twigpos bmp (kAt d o))).flatMap leavesList)
          hfsub hGsub hP3
      refine ⟨res, (ts.take (twigpos bmp (kAt d o))).flatMap leavesList ++ M1,
        M2 ++ (ts.drop (twigpos bmp (kAt d o) + 1)).flatMap leavesList,
        hrun, ?_, ?_, ?_, ?_⟩
      · rw [leaves_split hposlt, hsp2]
        simp [List.append_assoc]
      · intro x hx
        rcases List.mem_append.mp hx with h1 | h1
        · obtain ⟨j, hj, hxj⟩ := mem_flatMap_idx (d := QpNode.nullLeaf) h1
          have hjlt : j < twigpos bmp (kAt d o) := by
            have := List.length_take (twigpos bmp (kAt d o)) ts
            omega
          have hxj2 : x ∈ leavesList (twigGet ts j) := by
            rw [getD_take_lt _ hjlt] at hxj
            exact hxj
          have hold := hbit j (by omega) x hxj2
          rw [hastwig_testBit] at hold
          have hxb : kAt x.1 o < kAt d o := by
            refine bit_lt_of_rank_lt hold.1 hht ?_
            rw [hold.2]
            omega
          refine ⟨o, fun i2 hi2 => ?_, hxb⟩
          have hxmem : x ∈ leavesList (QpNode.branch o bmp ts) :=
            leaves_mem_branch.mpr ⟨j, by omega, hxj2⟩
          rw [hagree x hxmem (fnd, fv) hfnd i2 hi2]
          exact (hdiv i2 (by omega)).symm
        · exact hM1 x h1
      · intro y hy
        rcases List.mem_append.mp hy with h1 | h1
        · exact hM2 y h1
        · obtain ⟨j, hj, hyj⟩ := mem_flatMap_idx (d := QpNode.nullLeaf) h1
          have hyj2 : y ∈ leavesList (twigGet ts (twigpos bmp (kAt d o) + 1 + j)) := by
            rw [getD_drop] at hyj
            exact hyj
          have hlendrop := List.length_drop (twigpos bmp (kAt d o) + 1) ts
          have hold := hbit _ (by omega) y hyj2
          rw [hastwig_testBit] at hold
          have hyb : kAt d o < kAt y.1 o := by
            refine bit_lt_of_rank_lt hht hold.1 ?_
            rw [hold.2]
            omega
          refine ⟨o, fun i2 hi2 => ?_, hyb⟩
          have hymem : y ∈ leavesList (QpNode.branch o bmp ts) :=
            leaves_mem_branch.mpr ⟨_, by omega, hyj2⟩
          rw [hdiv i2 (by omega)]
          exact hagree (fnd, fv) hfnd y hymem i2 hi2
      · rw [← List.append_assoc]
        exact hPres

/-- qp_find_le on a well-formed trie and an absent name: it answers
(false, value of the rightmost leaf below the key), none when the key
is below everything. -/
theorem qp_find_le_absent {root : QpNode} (h : WF root) {d : Dname} (hd : validD d)
    (habs : ∀ p ∈ leavesList root, foldName p.1 ≠ foldName d) :
    ∃ L1 L2, leavesList root = L1 ++ L2 ∧
      (∀ x ∈ L1, StrLt (kAt x.1) (kAt d)) ∧
      (∀ y ∈ L2, StrLt (kAt d) (kAt y.1)) ∧
      qp_find_le root d = some (false, L1.getLast?.map (fun x => x.2)) := by
  have hSW := (findGoA_sub h d).1
  have hSsub := (findGoA_sub h d).2
  obtain ⟨fv, fnd, hfl, hhead⟩ := first_leaf_spec hSW
  have hfmem : (fnd, fv) ∈ leavesList (findGoA d root) := List.mem_of_mem_head? hhead
  have hfroot := hSsub _ hfmem
  have hvfnd : validD fnd := (leaves_valid h _ hfroot).1
  have hfne : foldName d ≠ foldName fnd := fun hc => habs (fnd, fv) hfroot hc.symm
  obtain ⟨off, hdoff⟩ := divergeOff_isSome hd hvfnd hfne
  obtain ⟨hne, hdiv, hle⟩ := divergeOff_spec hdoff
  have hdc : divergeC d fnd = off := by
    rw [divergeC, hdoff]
    rfl
  have hG := stop_no_through h hhead hdiv hne
  obtain ⟨res, L1, L2, hrunB, hsp, hL1, hL2, hPres⟩ :=
    findGoB_spec h hdiv hne none [] hfroot hG rfl
  have hinex : qp_find_inexact root d (findGoA d root) =
      some (false, L1.getLast?.map (fun x => x.2)) := by
    rw [qp_find_inexact, hfl]
    cases res with
    | none =>
      simp only [leafnameO, hdc, hrunB]
      simp only [PrevOK] at hPres
      have hL10 : L1 = [] := by simpa using hPres
      rw [hL10]
      rfl
    | some q =>
      simp only [leafnameO, hdc, hrunB]
      simp only [PrevOK] at hPres
      obtain ⟨hWq, hlast⟩ := hPres
      obtain ⟨vq, nmq, hlq, hlast2⟩ := last_leaf_spec hWq
      rw [hlast2] at hlast
      rw [show (([] : List (Dname × Nat)) ++ L1) = L1 from rfl] at hlast
      rw [hlq, ← hlast]
      rfl
  refine ⟨L1, L2, hsp, hL1, hL2, ?_⟩
  cases hSc : findGoA d root with
  | nullLeaf =>
    rw [hSc] at hSW
    exact absurd rfl (WF_not_null hSW)
  | leaf v2 nm2 =>
    have hv2 : v2 ≠ 0 := by
      rw [hSc] at hSW
      cases hSW with
      | leaf hv hd3 => exact hv
    have hm2 : (nm2, v2) ∈ leavesList root := by
      refine hSsub _ ?_
      rw [hSc, leaves_leaf]
      exact List.mem_singleton.mpr rfl
    have hdeq : dnameEq d nm2 = false := by
      cases hc : dnameEq d nm2 with
      | false => rfl
      | true => exact absurd (dnameEq_iff.mp hc).symm (habs (nm2, v2) hm2)
    rw [qp_find_le, hSc]
    show (if v2 = 0 then some (false, none)
      else if dnameEq d nm2 then some (true, some v2)
      else qp_find_inexact root d (QpNode.leaf v2 nm2)) = _
    rw [if_neg hv2, if_neg (show ¬(dnameEq d nm2 = true) by rw [hdeq]; simp)]
    rw [hSc] at hinex
    exact hinex
  | branch oS bS tsS =>
    rw [qp_find_le, hSc]
    show qp_find_inexact root d (QpNode.branch oS bS tsS) = _
    rw [hSc] at hinex
    exact hinex

/-- qp_find_le finds an exact match: (true, its value). -/
theorem qp_find_le_exact {root : QpNode} (h : WF root) {d : Dname} (hd : validD d)
    {v : Nat} (hmem : (d, v) ∈ leavesList root) :
    qp_find_le root d = some (true, some v) := by
  have hA : findGoA d root = QpNode.leaf v d := findGoA_mem h hd hmem rfl
  have hv : v ≠ 0 := (leaves_valid h (d, v) hmem).2
  rw [qp_find_le, hA]
  show (if v = 0 then some (false, none)
    else if dnameEq d d then some (true, some v)
    else qp_find_inexact root d (QpNode.leaf v d)) = _
  rw [if_neg hv, if_pos (dnameEq_iff.mpr rfl)]

/-- C2: over every reachable state, qp_find_le returns (true, value)
exactly for present names; for absent names it returns false together
with the value of the largest inserted name below the query, none when
the query is below every inserted name. -/
theorem claim_C2 {root : QpNode} {cnt : Nat} {M : List (Dname × Nat)}
    (hre : Reach root cnt M) {d : Dname} (hd : validD d) :
    (∀ val, (d, val) ∈ M → qp_find_le root d = some (true, some val)) ∧
    ((∀ p ∈ M, foldName p.1 ≠ foldName d) →
      ∃ La Lb, leavesList root = La ++ Lb ∧
        (∀ p ∈ La, dnameLt p.1 d) ∧
        (∀ q ∈ Lb, dnameLt d q.1) ∧
        qp_find_le root d = some (false, La.getLast?.map (fun p => p.2))) := by
  rcases reach_good hre with ⟨hr0, hc0, hM0⟩ | ⟨hWF, hlen, hpos, hmem⟩
  · subst hr0
    subst hM0
    refine ⟨fun val hv => absurd hv (List.not_mem_nil _), fun _ => ?_⟩
    refine ⟨[], [], by rw [leaves_null]; rfl,
      fun p hp => absurd hp (List.not_mem_nil _),
      fun q hq => absurd hq (List.not_mem_nil _), ?_⟩
    rw [qp_find_le, findGoA_null]
    rfl
  · constructor
    · intro val hv
      exact qp_find_le_exact hWF hd ((hmem (d, val)).mpr hv)
    · intro habs
      obtain ⟨La, Lb, hsp, hLa, hLb, hrun⟩ :=
        qp_find_le_absent hWF hd (fun p hp => habs p ((hmem p).mp hp))
      have hvall := leaves_valid hWF
      refine ⟨La, Lb, hsp, ?_, ?_, hrun⟩
      · intro p hp
        have hpm : p ∈ leavesList root := by
          rw [hsp]
          exact List.mem_append.mpr (Or.inl hp)
        exact strLt_dnameLt (hvall p hpm).1 hd (hLa p hp)
      · intro q hq
        have hqm : q ∈ leavesList root := by
          rw [hsp]
          exact List.mem_append.mpr (Or.inr hq)
        exact strLt_dnameLt hd (hvall q hqm).1 (hLb q hq)

theorem claim_C2_witness :
    qp_find_le (QpNode.leaf 5 [[0x61]]) [[0x61]] = some (true, some 5) ∧
    qp_find_le (QpNode.leaf 5 [[0x61]]) [[0x60]] = some (false, none) := by
  have hre : Reach (QpNode.leaf 5 [[0x61]]) 1 [([[0x61]], 5)] :=
    Reach.add Reach.empty (by decide) (by decide)
      (fun p hp => absurd hp (List.not_mem_nil _))
      (qp_add_zero QpNode.nullLeaf 5 [[0x61]])
  refine ⟨(claim_C2 hre (by decide)).1 5 (by simp), ?_⟩
  obtain ⟨La, Lb, hsp, hLa, hLb, hrun⟩ :=
    (claim_C2 hre (show validD [[0x60]] by decide)).2 (by decide)
  have hLa0 : La = [] := by
    cases hLac : La with
    | nil => rfl
    | cons a l =>
      exfalso
      have ham : a ∈ La := by
        rw [hLac]
        exact List.mem_cons_self _ _
      have := hLa a ham
      have ham2 : a ∈ leavesList (QpNode.leaf 5 [[0x61]]) := by
        rw [hsp]
        exact List.mem_append.mpr (Or.inl ham)
      rw [leaves_leaf, List.mem_singleton] at ham2
      subst ham2
      revert this
      unfold dnameLt
      decide
  rw [hLa0] at hrun
  exact hrun

/-! ### The page allocator: qp-trie.c alloc, landfill, compact, release -/

/-- Per-page allocation counters from qp-bits.h. -/
structure Usage where
  keep : Nat
  used : Nat
  free : Nat
deriving DecidableEq

/-- A heap node: the all-zero node, a leaf, or a branch holding a twig
reference into the page table. -/
inductive PNode where
  | pzero : PNode
  | pleaf (v : Nat) (nm : Dname) : PNode
  | pbranch (off bmp ref : Nat) : PNode
deriving DecidableEq

/-- The allocator state of struct qp: page table, per-page counters,
page count, allocation page and garbage total.  A page is the list of
its written nodes (the used prefix); a missing page is none. -/
structure QPT where
  root : PNode
  base : List (Option (List PNode))
  usage : List Usage
  pages : Nat
  bump : Nat
  garbage : Nat

def QP_PAGE_SIZE : Nat := 4096

def QP_MIN_USAGE : Nat := QP_PAGE_SIZE - QP_PAGE_SIZE / 16

def QP_MAX_GARBAGE : Nat := 2 ^ 20

def U0 : Usage := { keep := 0, used := 0, free := 0 }

/-- pageusage from qp-bits.h: keep + used - free. -/
def pageusage (u : Usage) : Nat := u.keep + u.used - u.free

def setUsed (u : Usage) (s : Nat) : Usage := { keep := u.keep, used := s, free := u.free }

def addFree (u : Usage) (s : Nat) : Usage :=
  { keep := u.keep, used := u.used, free := u.free + s }

/-- The length of the written prefix of a page. -/
def pageLen (qp : QPT) (p : Nat) : Nat := ((qp.base.getD p none).getD []).length

/-- Read max nodes starting at a twig reference, as twigbase does. -/
def readTwigs (qp : QPT) (ref mx : Nat) : List PNode :=
  (List.range mx).map (fun i =>
    ((qp.base.getD (ref / QP_PAGE_SIZE) none).getD []).getD (ref % QP_PAGE_SIZE + i)
      PNode.pzero)

/-- The first NULL page slot in [start, stop), as the scan loops of
alloc_slow find it. -/
def findNull (base : List (Option (List PNode))) (start stop : Nat) : Option Nat :=
  ((List.range (stop - start)).map (fun i => start + i)).find?
    (fun p => (base.getD p none).isNone)

/-- alloc_page: install a fresh page holding the content, set its used
counter to the size and move bump there. -/
def alloc_pageW (qp : QPT) (page : Nat) (content : List PNode) : QPT × Nat :=
  ({ qp with
      base := qp.base.set page (some content),
      usage := qp.usage.set page (setUsed (qp.usage.getD page U0) content.length),
      bump := page },
   QP_PAGE_SIZE * page)

/-- alloc_slow: scan [bump, pages) then [0, bump) for a NULL slot;
otherwise grow the arrays to pages + pages/2 + 1 and use the first new
slot. -/
def alloc_slowW (qp : QPT) (content : List PNode) : QPT × Nat :=
  match findNull qp.base qp.bump qp.pages with
  | some p => alloc_pageW qp p content
  | none =>
    match findNull qp.base 0 qp.bump with
    | some p => alloc_pageW qp p content
    | none =>
      alloc_pageW
        { qp with
            base := qp.base ++ List.replicate (qp.pages + qp.pages / 2 + 1 - qp.pages) none,
            usage := qp.usage ++ List.replicate (qp.pages + qp.pages / 2 + 1 - qp.pages) U0,
            pages := qp.pages + qp.pages / 2 + 1 }
        qp.pages content

/-- alloc_reset: alloc_slow of size 0. -/
def alloc_resetW (qp : QPT) : QPT := (alloc_slowW qp []).1

/-- alloc: bump allocation within the current page while it has room,
else alloc_slow.  Allocation and the caller's memcpy are modelled
together, appending the content at the used offset. -/
def allocW (qp : QPT) (content : List PNode) : QPT × Nat :=
  if QP_PAGE_SIZE > (qp.usage.getD qp.bump U0).used + content.length then
    ({ qp with
        base := qp.base.set qp.bump
          (some (((qp.base.getD qp.bump none).getD []) ++ content)),
        usage := qp.usage.set qp.bump
          (setUsed (qp.usage.getD qp.bump U0)
            ((qp.usage.getD qp.bump U0).used + content.length)) },
     QP_PAGE_SIZE * qp.bump + (qp.usage.getD qp.bump U0).used)
  else alloc_slowW qp content

/-- landfill: account the twigs as garbage on their page. -/
def landfillM (qp : QPT) (ref size : Nat) : QPT :=
  { qp with
      usage := qp.usage.set (ref / QP_PAGE_SIZE)
        (addFree (qp.usage.getD (ref / QP_PAGE_SIZE) U0) size),
      garbage := qp.garbage + size }

/-- qp_release: free every page whose live usage is zero, taking its
free counter out of the garbage total and zeroing its counters. -/
def qp_releaseW (qp : QPT) : QPT :=
  (List.range qp.pages).foldl (fun q p =>
    if 0 < pageusage (q.usage.getD p U0) then q
    else { q with
        base := q.base.set p none,
        garbage := q.garbage - (q.usage.getD p U0).free,
        usage := q.usage.set p U0 }) qp

/-- qp_init: a zeroed struct qp followed by alloc_reset. -/
def qp_initW : QPT :=
  alloc_resetW { root := PNode.pzero, base := [], usage := [], pages := 0,
                 bump := 0, garbage := 0 }

/-- The loop of compactify over the copied twig vector: branch twigs
are rewritten through the given compaction step, other twigs are
untouched. -/
def compactListGo (f : QPT → PNode → QPT × PNode × Nat) :
    QPT → List PNode → QPT × List PNode × Nat
  | qp, [] => (qp, [], 0)
  | qp, PNode.pbranch off bmp ref :: ts =>
    ((compactListGo f (f qp (PNode.pbranch off bmp ref)).1 ts).1,
      (f qp (PNode.pbranch off bmp ref)).2.1 ::
        (compactListGo f (f qp (PNode.pbranch off bmp ref)).1 ts).2.1,
      (f qp (PNode.pbranch off bmp ref)).2.2 +
        (compactListGo f (f qp (PNode.pbranch off bmp ref)).1 ts).2.2)
  | qp, t0 :: ts =>
    ((compactListGo f qp ts).1, t0 :: (compactListGo f qp ts).2.1,
      (compactListGo f qp ts).2.2)

/-- compactify: copy the twig vector, compactify the branch twigs in
the copy, then keep the old vector when its page is well used and the
copy is unchanged, else allocate the copy elsewhere and landfill the
old vector.  The fuel only pads the recursion depth; any fuel at least
the tree height gives the function of the C code. -/
def compactifyF : Nat → QPT → PNode → QPT × PNode × Nat
  | 0, qp, n => (qp, n, 0)
  | fuel + 1, qp, n =>
    match n with
    | PNode.pbranch off bmp ref =>
      let r := compactListGo (compactifyF fuel) qp (readTwigs qp ref (popcnt bmp))
      if pageusage (r.1.usage.getD (ref / QP_PAGE_SIZE) U0) ≥ QP_MIN_USAGE ∧
          r.2.1 = readTwigs r.1 ref (popcnt bmp) then
        (r.1, PNode.pbranch off bmp ref, r.2.2)
      else
        (landfillM (allocW r.1 r.2.1).1 ref (popcnt bmp),
          PNode.pbranch off bmp (allocW r.1 r.2.1).2,
          r.2.2 + popcnt bmp)
    | n0 => (qp, n0, 0)

/-- The compactify loop at a given fuel. -/
def compactList (fuel : Nat) : QPT → List PNode → QPT × List PNode × Nat :=
  compactListGo (compactifyF fuel)

/-- qp_compact: reset the allocator to a fresh page and compactify
from the root when it is a branch. -/
def qp_compactW (fuel : Nat) (qp : QPT) : QPT :=
  let qp1 := alloc_resetW qp
  match qp1.root with
  | PNode.pbranch off bmp ref =>
    let r := compactifyF fuel qp1 (PNode.pbranch off bmp ref)
    { r.1 with root := r.2.1 }
  | _ => qp1

/-- C7: the claim that reclaim never frees the current allocation page
fails.  qp_release frees every page whose live usage is zero with no
exception for bump: after qp_init, qp_compact, qp_release the bump
slot of the page table is NULL, yet the fast-path guard of alloc still
accepts a small allocation, which then writes through the freed
slot. -/
theorem claim_C7 :
    (qp_releaseW (qp_compactW 1 qp_initW)).base.getD
        (qp_releaseW (qp_compactW 1 qp_initW)).bump none = none ∧
    QP_PAGE_SIZE >
      ((qp_releaseW (qp_compactW 1 qp_initW)).usage.getD
        (qp_releaseW (qp_compactW 1 qp_initW)).bump U0).used + 2 := by
  decide

/-! ### Frame reasoning for the page table -/

theorem getD_set_self {α : Type} (l : List α) (i : Nat) (a d : α) (h : i < l.length) :
    (l.set i a).getD i d = a := by
  rw [List.getD_eq_getElem?_getD, List.getElem?_set_self h]
  rfl

theorem getD_set_ne {α : Type} (l : List α) (i j : Nat) (a d : α) (h : i ≠ j) :
    (l.set i a).getD j d = l.getD j d := by
  rw [List.getD_eq_getElem?_getD, List.getElem?_set_ne h, ← List.getD_eq_getElem?_getD]

/-- Page tables only grow: every written prefix survives. -/
def BLE (b b2 : List (Option (List PNode))) : Prop :=
  ∀ p l, b.getD p none = some l →
    ∃ l2, b2.getD p none = some l2 ∧ l.length ≤ l2.length ∧
      ∀ i, i < l.length → l2.getD i PNode.pzero = l.getD i PNode.pzero

/-- The heap only grows across allocator operations. -/
def Extends (qp qp2 : QPT) : Prop := BLE qp.base qp2.base

theorem BLE_refl (b : List (Option (List PNode))) : BLE b b :=
  fun p l hl => ⟨l, hl, le_refl _, fun i _ => rfl⟩

theorem BLE_trans {b1 b2 b3 : List (Option (List PNode))}
    (h1 : BLE b1 b2) (h2 : BLE b2 b3) : BLE b1 b3 := by
  intro p l hl
  obtain ⟨l2, hl2, hlen2, hval2⟩ := h1 p l hl
  obtain ⟨l3, hl3, hlen3, hval3⟩ := h2 p l2 hl2
  refine ⟨l3, hl3, by omega, fun i hi => ?_⟩
  rw [hval3 i (by omega), hval2 i hi]

theorem BLE_set_absent {b : List (Option (List PNode))} {p : Nat}
    {v : Option (List PNode)} (h : b.getD p none = none) : BLE b (b.set p v) := by
  intro q l hl
  have hne : p ≠ q := by
    intro hc
    rw [hc, hl] at h
    exact Option.noConfusion h
  refine ⟨l, ?_, le_refl _, fun i _ => rfl⟩
  rw [getD_set_ne _ _ _ _ _ hne]
  exact hl

theorem BLE_append (b ext : List (Option (List PNode))) : BLE b (b ++ ext) := by
  intro p l hl
  have hp : p < b.length := by
    by_contra hc
    push_neg at hc
    rw [List.getD_eq_default _ _ hc] at hl
    exact Option.noConfusion hl
  refine ⟨l, ?_, le_refl _, fun i _ => rfl⟩
  rw [List.getD_append _ _ _ _ hp]
  exact hl

theorem BLE_set_append (b : List (Option (List PNode))) (p : Nat)
    (extra : List PNode) :
    BLE b (b.set p (some ((b.getD p none).getD [] ++ extra))) := by
  intro q l hl
  by_cases hq : p = q
  · subst hq
    have hp : p < b.length := by
      by_contra hc
      push_neg at hc
      rw [List.getD_eq_default _ _ hc] at hl
      exact Option.noConfusion hl
    refine ⟨l ++ extra, ?_, by simp, fun i hi => ?_⟩
    · rw [getD_set_self _ _ _ _ hp, hl]
      rfl
    · rw [List.getD_append _ _ _ _ hi]
  · refine ⟨l, ?_, le_refl _, fun i _ => rfl⟩
    rw [getD_set_ne _ _ _ _ _ hq]
    exact hl

/-- The used counter of every page equals the length of its written
prefix, zero on missing pages. -/
def ULen (qp : QPT) : Prop :=
  ∀ p, (match qp.base.getD p none with
    | some l => l.length = (qp.usage.getD p U0).used
    | none => (qp.usage.getD p U0).used = 0)

/-- Allocator shape invariant: array lengths match the page count, the
bump page is in range, used counters track page contents. -/
def AOK (qp : QPT) : Prop :=
  qp.base.length = qp.pages ∧ qp.usage.length = qp.pages ∧
  qp.bump < qp.pages ∧ ULen qp

/-- A heap node decodes to a logical trie node; branches read their
twig vectors through the page table. -/
inductive Decodes (qp : QPT) : PNode → QpNode → Prop
  | zero : Decodes qp PNode.pzero QpNode.nullLeaf
  | leaf (v : Nat) (nm : Dname) : Decodes qp (PNode.pleaf v nm) (QpNode.leaf v nm)
  | branch (off bmp ref : Nat) (ts : List QpNode) (l : List PNode) :
      qp.base.getD (ref / QP_PAGE_SIZE) none = some l →
      ref % QP_PAGE_SIZE + popcnt bmp ≤ l.length →
      ts.length = popcnt bmp →
      (∀ i, i < popcnt bmp →
        Decodes qp ((readTwigs qp ref (popcnt bmp)).getD i PNode.pzero)
          (twigGet ts i)) →
      Decodes qp (PNode.pbranch off bmp ref) (QpNode.branch off bmp ts)

theorem readTwigs_length (qp : QPT) (ref mx : Nat) :
    (readTwigs qp ref mx).length = mx := by
  simp [readTwigs]

theorem readTwigs_congr {qp qp2 : QPT} {ref mx : Nat} {l l2 : List PNode}
    (hl : qp.base.getD (ref / QP_PAGE_SIZE) none = some l)
    (hl2 : qp2.base.getD (ref / QP_PAGE_SIZE) none = some l2)
    (hin : ref % QP_PAGE_SIZE + mx ≤ l.length)
    (hval : ∀ i, i < l.length → l2.getD i PNode.pzero = l.getD i PNode.pzero) :
    readTwigs qp2 ref mx = readTwigs qp ref mx := by
  unfold readTwigs
  rw [hl, hl2]
  refine List.map_congr_left (fun i hi => ?_)
  rw [List.mem_range] at hi
  exact hval (ref % QP_PAGE_SIZE + i) (by omega)

theorem readTwigs_extends {qp qp2 : QPT} (h : Extends qp qp2) {ref mx : Nat}
    {l : List PNode} (hl : qp.base.getD (ref / QP_PAGE_SIZE) none = some l)
    (hin : ref % QP_PAGE_SIZE + mx ≤ l.length) :
    readTwigs qp2 ref mx = readTwigs qp ref mx := by
  obtain ⟨l2, hl2, hlen2, hval2⟩ := h _ _ hl
  exact readTwigs_congr hl hl2 hin hval2

theorem Decodes_mono {qp qp2 : QPT} (h : Extends qp qp2) :
    ∀ {n t}, Decodes qp n t → Decodes qp2 n t := by
  intro n t hd
  induction hd with
  | zero => exact Decodes.zero
  | leaf v nm => exact Decodes.leaf v nm
  | branch off bmp ref ts l hl hin hlen hrec ih =>
    obtain ⟨l2, hl2, hlen2, hval2⟩ := h _ _ hl
    refine Decodes.branch off bmp ref ts l2 hl2 (by omega) hlen (fun i hi => ?_)
    rw [readTwigs_extends h hl hin]
    exact ih i hi

theorem forall2_getD {R : PNode → QpNode → Prop} :
    ∀ {l1 : List PNode} {l2 : List QpNode}, List.Forall₂ R l1 l2 →
      ∀ i, i < l1.length → R (l1.getD i PNode.pzero) (l2.getD i QpNode.nullLeaf) := by
  intro l1 l2 h
  induction h with
  | nil =>
    intro i hi
    simp at hi
  | cons hR hF ih =>
    intro i hi
    cases i with
    | zero => simpa using hR
    | succ n =>
      simp only [List.getD_cons_succ]
      exact ih n (by simp at hi; omega)

theorem forall2_of_getD {R : PNode → QpNode → Prop} :
    ∀ (l1 : List PNode) (l2 : List QpNode), l1.length = l2.length →
      (∀ i, i < l1.length → R (l1.getD i PNode.pzero) (l2.getD i QpNode.nullLeaf)) →
      List.Forall₂ R l1 l2
  | [], [], _, _ => List.Forall₂.nil
  | [], _ :: _, h, _ => by simp at h
  | _ :: _, [], h, _ => by simp at h
  | a :: l1, b :: l2, h, hR => by
    refine List.Forall₂.cons (by simpa using hR 0 (by simp)) ?_
    refine forall2_of_getD l1 l2 (by simpa using h) (fun i hi => ?_)
    have := hR (i + 1) (by simp; omega)
    simpa using this

theorem findNull_some {base : List (Option (List PNode))} {start stop p : Nat}
    (h : findNull base start stop = some p) :
    base.getD p none = none ∧ start ≤ p ∧ p < stop := by
  unfold findNull at h
  have h1 := List.find?_some h
  have h2 := List.mem_of_find?_eq_some h
  simp only [List.mem_map, List.mem_range] at h2
  obtain ⟨i, hi, hp⟩ := h2
  subst hp
  rw [Option.isNone_iff_eq_none] at h1
  exact ⟨h1, by omega, by omega⟩

theorem range_map_getD {α : Type} (l : List α) (d : α) :
    (List.range l.length).map (fun i => l.getD i d) = l := by
  refine List.ext_getElem (by simp) (fun i h1 h2 => ?_)
  simp only [List.getElem_map, List.getElem_range]
  rw [List.getD_eq_getElem?_getD, List.getElem?_eq_getElem h2]
  rfl

theorem getD_replicate {α : Type} (a d : α) (n i : Nat) :
    (List.replicate n a).getD i d = if i < n then a else d := by
  rw [List.getD_eq_getElem?_getD, List.getElem?_replicate]
  split
  · rfl
  · rfl

/-- alloc_page on a NULL in-range slot: the allocator stays sound, the
heap only grows, and the returned reference reads back the content. -/
theorem alloc_pageW_spec {qp : QPT} {page : Nat} (content : List PNode)
    (hA : AOK qp) (hpage : page < qp.pages)
    (hnull : qp.base.getD page none = none) :
    AOK (alloc_pageW qp page content).1 ∧
    Extends qp (alloc_pageW qp page content).1 ∧
    (alloc_pageW qp page content).1.base.getD
      ((alloc_pageW qp page content).2 / QP_PAGE_SIZE) none = some content ∧
    (alloc_pageW qp page content).2 % QP_PAGE_SIZE = 0 ∧
    readTwigs (alloc_pageW qp page content).1 (alloc_pageW qp page content).2
      content.length = content := by
  obtain ⟨hb, hu, hbmp, hul⟩ := hA
  have hbase : (alloc_pageW qp page content).1.base
      = qp.base.set page (some content) := rfl
  have husage : (alloc_pageW qp page content).1.usage
      = qp.usage.set page (setUsed (qp.usage.getD page U0) content.length) := rfl
  have href : (alloc_pageW qp page content).2 = QP_PAGE_SIZE * page := rfl
  have e1 : QP_PAGE_SIZE * page / QP_PAGE_SIZE = page := by
    unfold QP_PAGE_SIZE
    omega
  have e2 : QP_PAGE_SIZE * page % QP_PAGE_SIZE = 0 := by
    unfold QP_PAGE_SIZE
    omega
  have hslot : (alloc_pageW qp page content).1.base.getD page none = some content := by
    rw [hbase]
    exact getD_set_self _ _ _ _ (by rw [hb]; exact hpage)
  refine ⟨⟨?_, ?_, ?_, ?_⟩, ?_, ?_, ?_, ?_⟩
  · rw [hbase]
    show (qp.base.set page (some content)).length = qp.pages
    rw [List.length_set]
    exact hb
  · rw [husage]
    show (qp.usage.set page _).length = qp.pages
    rw [List.length_set]
    exact hu
  · exact hpage
  · intro p
    rw [hbase, husage]
    by_cases hp : p = page
    · subst hp
      rw [getD_set_self _ _ _ _ (by rw [hb]; exact hpage),
        getD_set_self _ _ _ _ (by rw [hu]; exact hpage)]
      rfl
    · rw [getD_set_ne _ _ _ _ _ (fun hc => hp hc.symm),
        getD_set_ne _ _ _ _ _ (fun hc => hp hc.symm)]
      exact hul p
  · exact BLE_set_absent hnull
  · rw [href, e1]
    exact hslot
  · rw [href]
    exact e2
  · rw [href]
    unfold readTwigs
    rw [e1, e2, hslot]
    simp only [Option.getD_some, Nat.zero_add]
    exact range_map_getD content PNode.pzero

/-- alloc_slow: soundness, growth and readback. -/
theorem alloc_slowW_spec {qp : QPT} (content : List PNode) (hA : AOK qp) :
    AOK (alloc_slowW qp content).1 ∧ Extends qp (alloc_slowW qp content).1 ∧
    (alloc_slowW qp content).1.base.getD
      ((alloc_slowW qp content).2 / QP_PAGE_SIZE) none = some content ∧
    (alloc_slowW qp content).2 % QP_PAGE_SIZE = 0 ∧
    readTwigs (alloc_slowW qp content).1 (alloc_slowW qp content).2
      content.length = content := by
  obtain ⟨hb, hu, hbmp, hul⟩ := hA
  cases hf1 : findNull qp.base qp.bump qp.pages with
  | some p =>
    obtain ⟨hnull, _, hlt⟩ := findNull_some hf1
    have he : alloc_slowW qp content = alloc_pageW qp p content := by
      rw [alloc_slowW, hf1]
    rw [he]
    exact alloc_pageW_spec content ⟨hb, hu, hbmp, hul⟩ hlt hnull
  | none =>
    cases hf2 : findNull qp.base 0 qp.bump with
    | some p =>
      obtain ⟨hnull, _, hlt⟩ := findNull_some hf2
      have he : alloc_slowW qp content = alloc_pageW qp p content := by
        rw [alloc_slowW, hf1, hf2]
      rw [he]
      exact alloc_pageW_spec content ⟨hb, hu, hbmp, hul⟩ (by omega) hnull
    | none =>
      have he : alloc_slowW qp content = alloc_pageW
          { qp with
              base := qp.base ++
                List.replicate (qp.pages + qp.pages / 2 + 1 - qp.pages) none,
              usage := qp.usage ++
                List.replicate (qp.pages + qp.pages / 2 + 1 - qp.pages) U0,
              pages := qp.pages + qp.pages / 2 + 1 }
          qp.pages content := by
        rw [alloc_slowW, hf1, hf2]
      have hA2 : AOK { qp with
          base := qp.base ++
            List.replicate (qp.pages + qp.pages / 2 + 1 - qp.pages) none,
          usage := qp.usage ++
            List.replicate (qp.pages + qp.pages / 2 + 1 - qp.pages) U0,
          pages := qp.pages + qp.pages / 2 + 1 } := by
        refine ⟨?_, ?_, ?_, ?_⟩
        · show (qp.base ++ _).length = qp.pages + qp.pages / 2 + 1
          rw [List.length_append, List.length_replicate, hb]
          omega
        · show (qp.usage ++ _).length = qp.pages + qp.pages / 2 + 1
          rw [List.length_append, List.length_replicate, hu]
          omega
        · show qp.bump < qp.pages + qp.pages / 2 + 1
          omega
        · intro p
          show (match (qp.base ++ _).getD p none with
            | some l => l.length = ((qp.usage ++ _).getD p U0).used
            | none => ((qp.usage ++ _).getD p U0).used = 0)
          by_cases hp : p < qp.base.length
          · rw [List.getD_append _ _ _ _ hp, List.getD_append _ _ _ _ (by omega)]
            exact hul p
          · push_neg at hp
            rw [List.getD_append_right _ _ _ _ hp,
              List.getD_append_right _ _ _ _ (by omega), getD_replicate, getD_replicate]
            rw [show (if p - qp.base.length <
                  qp.pages + qp.pages / 2 + 1 - qp.pages
                then (none : Option (List PNode)) else none) = none from by
              split
              · rfl
              · rfl]
            rw [show (if p - qp.usage.length <
                  qp.pages + qp.pages / 2 + 1 - qp.pages
                then U0 else U0) = U0 from by
              split
              · rfl
              · rfl]
            rfl
      have hnull2 : ({ qp with
          base := qp.base ++
            List.replicate (qp.pages + qp.pages / 2 + 1 - qp.pages) none,
          usage := qp.usage ++
            List.replicate (qp.pages + qp.pages / 2 + 1 - qp.pages) U0,
          pages := qp.pages + qp.pages / 2 + 1 } : QPT).base.getD qp.pages none
          = none := by
        show (qp.base ++ _).getD qp.pages none = none
        rw [List.getD_append_right _ _ _ _ (by omega), getD_replicate]
        split
        · rfl
        · rfl
      obtain ⟨hA3, hE3, hs3, hm3, hr3⟩ :=
        alloc_pageW_spec content hA2
          (show qp.pages < qp.pages + qp.pages / 2 + 1 by omega) hnull2
      rw [he]
      exact ⟨hA3, BLE_trans (BLE_append _ _) hE3, hs3, hm3, hr3⟩

/-- alloc: soundness, growth and readback from the returned
reference. -/
theorem allocW_spec {qp : QPT} (content : List PNode) (hA : AOK qp) :
    AOK (allocW qp content).1 ∧ Extends qp (allocW qp content).1 ∧
    (∃ l, (allocW qp content).1.base.getD
        ((allocW qp content).2 / QP_PAGE_SIZE) none = some l ∧
      (allocW qp content).2 % QP_PAGE_SIZE + content.length ≤ l.length) ∧
    readTwigs (allocW qp content).1 (allocW qp content).2
      content.length = content := by
  obtain ⟨hb, hu, hbmp, hul⟩ := hA
  by_cases hc : QP_PAGE_SIZE > (qp.usage.getD qp.bump U0).used + content.length
  · have he : allocW qp content =
        ({ qp with
            base := qp.base.set qp.bump
              (some (((qp.base.getD qp.bump none).getD []) ++ content)),
            usage := qp.usage.set qp.bump
              (setUsed (qp.usage.getD qp.bump U0)
                ((qp.usage.getD qp.bump U0).used + content.length)) },
         QP_PAGE_SIZE * qp.bump + (qp.usage.getD qp.bump U0).used) := by
      rw [allocW, if_pos hc]
    have hlold : ((qp.base.getD qp.bump none).getD []).length
        = (qp.usage.getD qp.bump U0).used := by
      have hx := hul qp.bump
      cases hbb : qp.base.getD qp.bump none with
      | none =>
        rw [hbb] at hx
        simp only [hbb, Option.getD_none]
        simpa using hx.symm
      | some l =>
        rw [hbb] at hx
        simpa [hbb] using hx
    have hult : (qp.usage.getD qp.bump U0).used < QP_PAGE_SIZE := by omega
    have e1 : (QP_PAGE_SIZE * qp.bump + (qp.usage.getD qp.bump U0).used)
        / QP_PAGE_SIZE = qp.bump := by
      unfold QP_PAGE_SIZE at hult ⊢
      omega
    have e2 : (QP_PAGE_SIZE * qp.bump + (qp.usage.getD qp.bump U0).used)
        % QP_PAGE_SIZE = (qp.usage.getD qp.bump U0).used := by
      unfold QP_PAGE_SIZE at hult ⊢
      omega
    have hbblt : qp.bump < qp.base.length := by
      rw [hb]
      exact hbmp
    have hslot : (allocW qp content).1.base.getD qp.bump none
        = some (((qp.base.getD qp.bump none).getD []) ++ content) := by
      rw [he]
      exact getD_set_self _ _ _ _ hbblt
    refine ⟨⟨?_, ?_, ?_, ?_⟩, ?_, ?_, ?_⟩
    · rw [he]
      show (qp.base.set _ _).length = qp.pages
      rw [List.length_set]
      exact hb
    · rw [he]
      show (qp.usage.set _ _).length = qp.pages
      rw [List.length_set]
      exact hu
    · rw [he]
      exact hbmp
    · intro p
      rw [he]
      show (match (qp.base.set qp.bump _).getD p none with
        | some l => l.length = ((qp.usage.set qp.bump _).getD p U0).used
        | none => ((qp.usage.set qp.bump _).getD p U0).used = 0)
      by_cases hp : p = qp.bump
      · subst hp
        rw [getD_set_self _ _ _ _ hbblt, getD_set_self _ _ _ _ (by rw [hu]; exact hbmp)]
        show (((qp.base.getD qp.bump none).getD []) ++ content).length = _
        rw [List.length_append, hlold]
        rfl
      · rw [getD_set_ne _ _ _ _ _ (fun hh => hp hh.symm),
          getD_set_ne _ _ _ _ _ (fun hh => hp hh.symm)]
        exact hul p
    · rw [he]
      exact BLE_set_append qp.base qp.bump content
    · rw [he]
      refine ⟨((qp.base.getD qp.bump none).getD []) ++ content, ?_, ?_⟩
      · rw [e1]
        rw [he] at hslot
        exact hslot
      · rw [e2, List.length_append, hlold]
    · rw [he]
      unfold readTwigs
      rw [e1, e2]
      rw [he] at hslot
      rw [hslot]
      simp only [Option.getD_some]
      refine List.ext_getElem (by simp) (fun i h1 h2 => ?_)
      simp only [List.getElem_map, List.getElem_range]
      rw [List.getD_append_right _ _ _ _ (by rw [hlold]; omega), hlold]
      rw [show (qp.usage.getD qp.bump U0).used + i - (qp.usage.getD qp.bump U0).used
        = i from by omega]
      rw [List.getD_eq_getElem?_getD, List.getElem?_eq_getElem (by simpa using h2)]
      rfl
  · have he : allocW qp content = alloc_slowW qp content := by
      rw [allocW, if_neg hc]
    rw [he]
    obtain ⟨hA3, hE3, hs3, hm3, hr3⟩ := alloc_slowW_spec content ⟨hb, hu, hbmp, hul⟩
    refine ⟨hA3, hE3, ⟨content, hs3, ?_⟩, hr3⟩
    rw [hm3]
    simp

theorem AOK_landfillM {qp : QPT} (hA : AOK qp) (ref size : Nat) :
    AOK (landfillM qp ref size) := by
  obtain ⟨hb, hu, hbmp, hul⟩ := hA
  refine ⟨hb, ?_, hbmp, ?_⟩
  · show (qp.usage.set _ _).length = qp.pages
    rw [List.length_set]
    exact hu
  · intro p
    show (match qp.base.getD p none with
      | some l => l.length = ((qp.usage.set (ref / QP_PAGE_SIZE) _).getD p U0).used
      | none => ((qp.usage.set (ref / QP_PAGE_SIZE) _).getD p U0).used = 0)
    have hused : ((qp.usage.set (ref / QP_PAGE_SIZE)
        (addFree (qp.usage.getD (ref / QP_PAGE_SIZE) U0) size)).getD p U0).used
        = (qp.usage.getD p U0).used := by
      by_cases hp : p = ref / QP_PAGE_SIZE
      · subst hp
        by_cases hlt : ref / QP_PAGE_SIZE < qp.usage.length
        · rw [getD_set_self _ _ _ _ hlt]
          rfl
        · push_neg at hlt
          rw [List.set_eq_of_length_le hlt]
      · rw [getD_set_ne _ _ _ _ _ (fun hh => hp hh.symm)]
    rw [hused]
    exact hul p

theorem compactifyF_zero (fuel : Nat) (qp : QPT) :
    compactifyF (fuel + 1) qp PNode.pzero = (qp, PNode.pzero, 0) := rfl

theorem compactifyF_pleaf (fuel : Nat) (qp : QPT) (v : Nat) (nm : Dname) :
    compactifyF (fuel + 1) qp (PNode.pleaf v nm) = (qp, PNode.pleaf v nm, 0) := rfl

theorem compactifyF_branch (fuel : Nat) (qp : QPT) (off bmp ref : Nat) :
    compactifyF (fuel + 1) qp (PNode.pbranch off bmp ref) =
      (if pageusage ((compactList fuel qp
            (readTwigs qp ref (popcnt bmp))).1.usage.getD (ref / QP_PAGE_SIZE) U0)
            ≥ QP_MIN_USAGE ∧
          (compactList fuel qp (readTwigs qp ref (popcnt bmp))).2.1 =
            readTwigs (compactList fuel qp (readTwigs qp ref (popcnt bmp))).1
              ref (popcnt bmp) then
        ((compactList fuel qp (readTwigs qp ref (popcnt bmp))).1,
          PNode.pbranch off bmp ref,
          (compactList fuel qp (readTwigs qp ref (popcnt bmp))).2.2)
      else
        (landfillM (allocW (compactList fuel qp (readTwigs qp ref (popcnt bmp))).1
            (compactList fuel qp (readTwigs qp ref (popcnt bmp))).2.1).1
          ref (popcnt bmp),
          PNode.pbranch off bmp
            (allocW (compactList fuel qp (readTwigs qp ref (popcnt bmp))).1
              (compactList fuel qp (readTwigs qp ref (popcnt bmp))).2.1).2,
          (compactList fuel qp (readTwigs qp ref (popcnt bmp))).2.2 + popcnt bmp)) := rfl

theorem compactList_nil (fuel : Nat) (qp : QPT) :
    compactList fuel qp [] = (qp, [], 0) := rfl

theorem compactList_cons_pbranch (fuel : Nat) (qp : QPT) (off bmp ref : Nat)
    (ts : List PNode) :
    compactList fuel qp (PNode.pbranch off bmp ref :: ts) =
      ((compactList fuel (compactifyF fuel qp (PNode.pbranch off bmp ref)).1 ts).1,
        (compactifyF fuel qp (PNode.pbranch off bmp ref)).2.1 ::
          (compactList fuel (compactifyF fuel qp (PNode.pbranch off bmp ref)).1 ts).2.1,
        (compactifyF fuel qp (PNode.pbranch off bmp ref)).2.2 +
          (compactList fuel (compactifyF fuel qp (PNode.pbranch off bmp ref)).1 ts).2.2) := rfl

theorem compactList_cons_pzero (fuel : Nat) (qp : QPT) (ts : List PNode) :
    compactList fuel qp (PNode.pzero :: ts) =
      ((compactList fuel qp ts).1, PNode.pzero :: (compactList fuel qp ts).2.1,
        (compactList fuel qp ts).2.2) := rfl

theorem compactList_cons_pleaf (fuel : Nat) (qp : QPT) (v : Nat) (nm : Dname)
    (ts : List PNode) :
    compactList fuel qp (PNode.pleaf v nm :: ts) =
      ((compactList fuel qp ts).1,
        PNode.pleaf v nm :: (compactList fuel qp ts).2.1,
        (compactList fuel qp ts).2.2) := rfl

theorem compactifyF_fuel0 (qp : QPT) (n : PNode) : compactifyF 0 qp n = (qp, n, 0) := rfl

theorem alloc_slowW_root (qp : QPT) (content : List PNode) :
    (alloc_slowW qp content).1.root = qp.root := by
  rw [alloc_slowW]
  cases findNull qp.base qp.bump qp.pages with
  | some p => rfl
  | none =>
    cases findNull qp.base 0 qp.bump with
    | some p => rfl
    | none => rfl

/-- compactify preserves the decoded trie and the allocator invariant;
the heap only grows. -/
def CompactP (fuel : Nat) : Prop :=
  ∀ qp n t, AOK qp → Decodes qp n t → sizeOf t ≤ fuel →
    AOK (compactifyF fuel qp n).1 ∧ Extends qp (compactifyF fuel qp n).1 ∧
    Decodes (compactifyF fuel qp n).1 (compactifyF fuel qp n).2.1 t

theorem compactQ_of_P (fuel : Nat) (hP : CompactP fuel) :
    ∀ twigs tss qp, AOK qp → List.Forall₂ (Decodes qp) twigs tss →
      (∀ t ∈ tss, sizeOf t ≤ fuel) →
      AOK (compactList fuel qp twigs).1 ∧
      Extends qp (compactList fuel qp twigs).1 ∧
      List.Forall₂ (Decodes (compactList fuel qp twigs).1)
        (compactList fuel qp twigs).2.1 tss := by
  intro twigs
  induction twigs with
  | nil =>
    intro tss qp hA hF hsz
    rw [compactList_nil]
    cases hF
    exact ⟨hA, BLE_refl _, List.Forall₂.nil⟩
  | cons t0 ts ih =>
    intro tss qp hA hF hsz
    cases hF with
    | cons hR hF2 =>
      rename_i t1 tss2
      cases t0 with
      | pzero =>
        rw [compactList_cons_pzero]
        obtain ⟨hA2, hE2, hF3⟩ := ih tss2 qp hA hF2
          (fun t ht => hsz t (List.mem_cons_of_mem _ ht))
        exact ⟨hA2, hE2, List.Forall₂.cons (Decodes_mono hE2 hR) hF3⟩
      | pleaf v nm =>
        rw [compactList_cons_pleaf]
        obtain ⟨hA2, hE2, hF3⟩ := ih tss2 qp hA hF2
          (fun t ht => hsz t (List.mem_cons_of_mem _ ht))
        exact ⟨hA2, hE2, List.Forall₂.cons (Decodes_mono hE2 hR) hF3⟩
      | pbranch off bmp ref =>
        rw [compactList_cons_pbranch]
        obtain ⟨hA1, hE1, hD1⟩ :=
          hP qp (PNode.pbranch off bmp ref) t1 hA hR
            (hsz t1 (List.mem_cons_self _ _))
        obtain ⟨hA2, hE2, hF3⟩ := ih tss2 _ hA1
          (List.Forall₂.imp (fun a b hab => Decodes_mono hE1 hab) hF2)
          (fun t ht => hsz t (List.mem_cons_of_mem _ ht))
        exact ⟨hA2, BLE_trans hE1 hE2,
          List.Forall₂.cons (Decodes_mono hE2 hD1) hF3⟩

theorem compactP_succ (fuel : Nat) (hP : CompactP fuel) : CompactP (fuel + 1) := by
  intro qp n t hA hD hsz
  cases hD with
  | zero =>
    rw [compactifyF_zero]
    exact ⟨hA, BLE_refl _, Decodes.zero⟩
  | leaf v nm =>
    rw [compactifyF_pleaf]
    exact ⟨hA, BLE_refl _, Decodes.leaf v nm⟩
  | branch off bmp ref ts l hl hin hlen hrec =>
    rw [compactifyF_branch]
    have hflen : (readTwigs qp ref (popcnt bmp)).length = popcnt bmp :=
      readTwigs_length qp ref (popcnt bmp)
    have hF : List.Forall₂ (Decodes qp) (readTwigs qp ref (popcnt bmp)) ts := by
      refine forall2_of_getD _ _ (by rw [hflen, hlen]) (fun i hi => ?_)
      exact hrec i (by omega)
    have hsizes : ∀ t2 ∈ ts, sizeOf t2 ≤ fuel := by
      intro t2 ht2
      have := sizeOf_mem_lt ht2 off bmp
      omega
    obtain ⟨hA1, hE1, hF1⟩ := compactQ_of_P fuel hP _ ts qp hA hF hsizes
    have hrlen : (compactList fuel qp (readTwigs qp ref (popcnt bmp))).2.1.length
        = popcnt bmp := by
      rw [List.Forall₂.length_eq hF1, hlen]
    by_cases hcond : pageusage ((compactList fuel qp
          (readTwigs qp ref (popcnt bmp))).1.usage.getD (ref / QP_PAGE_SIZE) U0)
          ≥ QP_MIN_USAGE ∧
        (compactList fuel qp (readTwigs qp ref (popcnt bmp))).2.1 =
          readTwigs (compactList fuel qp (readTwigs qp ref (popcnt bmp))).1
            ref (popcnt bmp)
    · rw [if_pos hcond]
      refine ⟨hA1, hE1, ?_⟩
      obtain ⟨l2, hl2, hlen2, hval2⟩ := hE1 _ _ hl
      refine Decodes.branch off bmp ref ts l2 hl2 (by omega) hlen (fun i hi => ?_)
      rw [← hcond.2]
      exact forall2_getD hF1 i (by rw [hrlen]; omega)
    · rw [if_neg hcond]
      obtain ⟨hA3, hE3, ⟨l3, hl3, hin3⟩, hread3⟩ :=
        allocW_spec (compactList fuel qp (readTwigs qp ref (popcnt bmp))).2.1 hA1
      refine ⟨AOK_landfillM hA3 ref (popcnt bmp), BLE_trans hE1 hE3, ?_⟩
      refine Decodes.branch off bmp
        (allocW (compactList fuel qp (readTwigs qp ref (popcnt bmp))).1
          (compactList fuel qp (readTwigs qp ref (popcnt bmp))).2.1).2
        ts l3 hl3 ?_ hlen (fun i hi => ?_)
      · rw [hrlen] at hin3
        exact hin3
      · rw [hrlen] at hread3
        have hr2 : readTwigs (landfillM (allocW (compactList fuel qp
            (readTwigs qp ref (popcnt bmp))).1
            (compactList fuel qp (readTwigs qp ref (popcnt bmp))).2.1).1
            ref (popcnt bmp))
            (allocW (compactList fuel qp (readTwigs qp ref (popcnt bmp))).1
              (compactList fuel qp (readTwigs qp ref (popcnt bmp))).2.1).2
            (popcnt bmp)
            = (compactList fuel qp (readTwigs qp ref (popcnt bmp))).2.1 := by
          show readTwigs (allocW (compactList fuel qp
              (readTwigs qp ref (popcnt bmp))).1
              (compactList fuel qp (readTwigs qp ref (popcnt bmp))).2.1).1
            (allocW (compactList fuel qp (readTwigs qp ref (popcnt bmp))).1
              (compactList fuel qp (readTwigs qp ref (popcnt bmp))).2.1).2
            (popcnt bmp) = _
          exact hread3
        rw [hr2]
        refine Decodes_mono (show Extends (allocW (compactList fuel qp
            (readTwigs qp ref (popcnt bmp))).1
            (compactList fuel qp (readTwigs qp ref (popcnt bmp))).2.1).1
            (landfillM (allocW (compactList fuel qp
              (readTwigs qp ref (popcnt bmp))).1
              (compactList fuel qp (readTwigs qp ref (popcnt bmp))).2.1).1
              ref (popcnt bmp)) from BLE_refl _) ?_
        exact Decodes_mono hE3 (forall2_getD hF1 i (by rw [hrlen]; omega))

theorem compactP_all : ∀ fuel, CompactP fuel := by
  intro fuel
  induction fuel with
  | zero =>
    intro qp n t hA hD hsz
    rw [compactifyF_fuel0]
    exact ⟨hA, BLE_refl _, hD⟩
  | succ fuel ih => exact compactP_succ fuel ih

theorem qp_compactW_eq (fuel : Nat) (qp : QPT) :
    qp_compactW fuel qp =
      (match (alloc_resetW qp).root with
       | PNode.pbranch off bmp ref =>
         { (compactifyF fuel (alloc_resetW qp) (PNode.pbranch off bmp ref)).1 with
             root := (compactifyF fuel (alloc_resetW qp)
               (PNode.pbranch off bmp ref)).2.1 }
       | _ => alloc_resetW qp) := by
  rw [qp_compactW]

/-- qp_compact keeps the allocator sound and leaves the decoded trie
unchanged, for any fuel at least the tree size. -/
theorem qp_compactW_decodes {qp : QPT} {t : QpNode} {fuel : Nat} (hA : AOK qp)
    (hD : Decodes qp qp.root t) (hsz : sizeOf t ≤ fuel) :
    AOK (qp_compactW fuel qp) ∧
    Decodes (qp_compactW fuel qp) (qp_compactW fuel qp).root t := by
  obtain ⟨hA1, hE1, -, -, -⟩ := alloc_slowW_spec [] hA
  have hD0 : Decodes (alloc_resetW qp) (alloc_resetW qp).root t := by
    rw [show (alloc_resetW qp).root = qp.root from alloc_slowW_root qp []]
    exact Decodes_mono hE1 hD
  rw [qp_compactW_eq]
  cases hroot : (alloc_resetW qp).root with
  | pzero => exact ⟨hA1, hD0⟩
  | pleaf v nm => exact ⟨hA1, hD0⟩
  | pbranch off bmp ref =>
    have hD1 : Decodes (alloc_resetW qp) (PNode.pbranch off bmp ref) t := by
      rw [← hroot]
      exact hD0
    obtain ⟨hAC, hEC, hDC⟩ :=
      compactP_all fuel (alloc_resetW qp) (PNode.pbranch off bmp ref) t hA1 hD1 hsz
    have hEfin : Extends
        (compactifyF fuel (alloc_resetW qp) (PNode.pbranch off bmp ref)).1
        { (compactifyF fuel (alloc_resetW qp) (PNode.pbranch off bmp ref)).1 with
            root := (compactifyF fuel (alloc_resetW qp)
              (PNode.pbranch off bmp ref)).2.1 } :=
      BLE_refl _
    exact ⟨hAC, Decodes_mono hEfin hDC⟩

/-- The bitmap of a 2-leaf root branch over the names a and b. -/
def bmpEx : Nat := 2 ^ kAt [[0x61]] 0 + 2 ^ kAt [[0x62]] 0

/-- The heap of an idle two-leaf trie, as qp_add builds it: one twig
vector in page 0 holding both leaves, the root branch pointing at
it. -/
def qpEx8 : QPT :=
  { (allocW qp_initW [PNode.pleaf 5 [[0x61]], PNode.pleaf 7 [[0x62]]]).1 with
      root := PNode.pbranch 0 bmpEx
        (allocW qp_initW [PNode.pleaf 5 [[0x61]], PNode.pleaf 7 [[0x62]]]).2 }

theorem qpEx8_AOK : AOK qpEx8 := by
  refine ⟨by decide, by decide, by decide, ?_⟩
  intro p
  match p with
  | 0 =>
    rw [show qpEx8.base.getD 0 none
      = some [PNode.pleaf 5 [[0x61]], PNode.pleaf 7 [[0x62]]] from by decide]
    show ([PNode.pleaf 5 [[0x61]], PNode.pleaf 7 [[0x62]]] : List PNode).length
      = (qpEx8.usage.getD 0 U0).used
    decide
  | n + 1 =>
    have hb : qpEx8.base.length ≤ n + 1 := by
      rw [show qpEx8.base.length = 1 from by decide]
      omega
    have hu : qpEx8.usage.length ≤ n + 1 := by
      rw [show qpEx8.usage.length = 1 from by decide]
      omega
    rw [List.getD_eq_default _ _ hb]
    show (qpEx8.usage.getD (n + 1) U0).used = 0
    rw [List.getD_eq_default _ _ hu]
    rfl

theorem qpEx8_decodes : Decodes qpEx8 qpEx8.root
    (QpNode.branch 0 bmpEx [QpNode.leaf 5 [[0x61]], QpNode.leaf 7 [[0x62]]]) := by
  show Decodes qpEx8 (PNode.pbranch 0 bmpEx
    (allocW qp_initW [PNode.pleaf 5 [[0x61]], PNode.pleaf 7 [[0x62]]]).2) _
  rw [show (allocW qp_initW [PNode.pleaf 5 [[0x61]], PNode.pleaf 7 [[0x62]]]).2 = 0
    from by decide]
  refine Decodes.branch 0 bmpEx 0
    [QpNode.leaf 5 [[0x61]], QpNode.leaf 7 [[0x62]]]
    [PNode.pleaf 5 [[0x61]], PNode.pleaf 7 [[0x62]]] (by decide) (by decide)
    (by decide) ?_
  intro i hi
  have hi2 : i < 2 := by
    rw [show popcnt bmpEx = 2 from by decide] at hi
    exact hi
  match i, hi2 with
  | 0, _ =>
    rw [show (readTwigs qpEx8 0 (popcnt bmpEx)).getD 0 PNode.pzero
      = PNode.pleaf 5 [[0x61]] from by decide]
    exact Decodes.leaf 5 [[0x61]]
  | 1, _ =>
    rw [show (readTwigs qpEx8 0 (popcnt bmpEx)).getD 1 PNode.pzero
      = PNode.pleaf 7 [[0x62]] from by decide]
    exact Decodes.leaf 7 [[0x62]]

/-- C8: compacting is logically idempotent: for any sound heap, one or
two (or more) qp_compact calls leave the decoded trie unchanged.  But
the garbage counter is not 0 after the first compact: qp_compact never
resets it, and compactify evacuates every sparsely used vector into
the fresh bump page, landfilling the old copy; on the idle two-leaf
trie a single compact leaves garbage = 2. -/
theorem claim_C8 :
    (∀ qp t f1 f2, AOK qp → Decodes qp qp.root t →
      sizeOf t ≤ f1 → sizeOf t ≤ f2 →
      Decodes (qp_compactW f1 qp) (qp_compactW f1 qp).root t ∧
      Decodes (qp_compactW f2 (qp_compactW f1 qp))
        (qp_compactW f2 (qp_compactW f1 qp)).root t) ∧
    (qp_compactW 4 qpEx8).garbage = 2 := by
  constructor
  · intro qp t f1 f2 hA hD h1 h2
    obtain ⟨hA1, hD1⟩ := qp_compactW_decodes hA hD h1
    obtain ⟨hA2, hD2⟩ := qp_compactW_decodes hA1 hD1 h2
    exact ⟨hD1, hD2⟩
  · decide

theorem claim_C8_witness :
    Decodes (qp_compactW (sizeOf (QpNode.branch 0 bmpEx
        [QpNode.leaf 5 [[0x61]], QpNode.leaf 7 [[0x62]]])) qpEx8)
      (qp_compactW (sizeOf (QpNode.branch 0 bmpEx
        [QpNode.leaf 5 [[0x61]], QpNode.leaf 7 [[0x62]]])) qpEx8).root
      (QpNode.branch 0 bmpEx [QpNode.leaf 5 [[0x61]], QpNode.leaf 7 [[0x62]]]) :=
  (claim_C8.1 qpEx8
    (QpNode.branch 0 bmpEx [QpNode.leaf 5 [[0x61]], QpNode.leaf 7 [[0x62]]])
    (sizeOf (QpNode.branch 0 bmpEx [QpNode.leaf 5 [[0x61]], QpNode.leaf 7 [[0x62]]]))
    (sizeOf (QpNode.branch 0 bmpEx [QpNode.leaf 5 [[0x61]], QpNode.leaf 7 [[0x62]]]))
    qpEx8_AOK qpEx8_decodes (le_refl _) (le_refl _)).1

/-! ### C9: copy-on-write isolation -/

/-- Modelled from the spec: the old handle's view of the heap after
cow_start.  Every twig vector reachable from the old root lives in a
page whose keep counter is positive, as the qp_usage comment
prescribes for shared pages. -/
inductive DecodesK (qp : QPT) : PNode → QpNode → Prop
  | zero : DecodesK qp PNode.pzero QpNode.nullLeaf
  | leaf (v : Nat) (nm : Dname) : DecodesK qp (PNode.pleaf v nm) (QpNode.leaf v nm)
  | branch (off bmp ref : Nat) (ts : List QpNode) (l : List PNode) :
      qp.base.getD (ref / QP_PAGE_SIZE) none = some l →
      ref % QP_PAGE_SIZE + popcnt bmp ≤ l.length →
      0 < (qp.usage.getD (ref / QP_PAGE_SIZE) U0).keep →
      ts.length = popcnt bmp →
      (∀ i, i < popcnt bmp →
        DecodesK qp ((readTwigs qp ref (popcnt bmp)).getD i PNode.pzero)
          (twigGet ts i)) →
      DecodesK qp (PNode.pbranch off bmp ref) (QpNode.branch off bmp ts)

/-- Modelled from the spec: a transaction step on the new handle may
allocate, landfill and rewrite freely, but must evacuate rather than
modify any twig vector in a shared page: pages with a positive keep
counter retain their contents and their keep counter. -/
def KeepSafe (qp qp2 : QPT) : Prop :=
  ∀ p, 0 < (qp.usage.getD p U0).keep →
    (qp2.usage.getD p U0).keep = (qp.usage.getD p U0).keep ∧
    qp2.base.getD p none = qp.base.getD p none

/-- Modelled from the spec: qp_get reading directly through the page
table of a handle, following twig references. -/
def qp_getH : Nat → QPT → Dname → PNode → Option Nat
  | 0, _, _, _ => none
  | fuel + 1, qp, d, n =>
    match n with
    | PNode.pzero => none
    | PNode.pleaf v nm => if v ≠ 0 ∧ dnameEq d nm then some v else none
    | PNode.pbranch off bmp ref =>
      if hastwig bmp (kAt d off) then
        qp_getH fuel qp d ((readTwigs qp ref (popcnt bmp)).getD
          (twigpos bmp (kAt d off)) PNode.pzero)
      else none

theorem DecodesK_mono {qp qp2 : QPT} (h : KeepSafe qp qp2) :
    ∀ {n t}, DecodesK qp n t → DecodesK qp2 n t := by
  intro n t hd
  induction hd with
  | zero => exact DecodesK.zero
  | leaf v nm => exact DecodesK.leaf v nm
  | branch off bmp ref ts l hl hin hkeep hlen hrec ih =>
    obtain ⟨hk2, hb2⟩ := h _ hkeep
    have hl2 : qp2.base.getD (ref / QP_PAGE_SIZE) none = some l := by
      rw [hb2]
      exact hl
    refine DecodesK.branch off bmp ref ts l hl2 hin (by rw [hk2]; exact hkeep)
      hlen (fun i hi => ?_)
    rw [readTwigs_congr hl hl2 hin (fun i2 _ => rfl)]
    exact ih i hi

theorem sizeOf_QpNode_pos (t : QpNode) : 0 < sizeOf t := by
  cases t with
  | nullLeaf => simp
  | leaf v nm => simp
  | branch off bmp ts => simp_arith

/-- The heap-level get agrees with qp_get on the decoded trie, for any
fuel at least the tree size. -/
theorem qp_getH_decodes : ∀ fuel (qp : QPT) (d : Dname) n t, DecodesK qp n t →
    sizeOf t ≤ fuel → qp_getH fuel qp d n = qp_get d t := by
  intro fuel
  induction fuel with
  | zero =>
    intro qp d n t hD hsz
    have := sizeOf_QpNode_pos t
    omega
  | succ fuel ih =>
    intro qp d n t hD hsz
    cases hD with
    | zero =>
      rw [qp_get_null]
      rfl
    | leaf v nm =>
      rw [qp_get_leaf]
      rfl
    | branch off bmp ref ts l hl hin hkeep hlen hrec =>
      rw [qp_get_branch]
      show (if hastwig bmp (kAt d off) then
        qp_getH fuel qp d ((readTwigs qp ref (popcnt bmp)).getD
          (twigpos bmp (kAt d off)) PNode.pzero)
        else none) = _
      cases hc : hastwig bmp (kAt d off) with
      | false =>
        rw [if_neg Bool.false_ne_true, if_neg Bool.false_ne_true]
      | true =>
        rw [if_pos rfl, if_pos rfl]
        have hposlt : twigpos bmp (kAt d off) < popcnt bmp :=
          twigpos_lt_popcnt hc
        have hsub := hrec (twigpos bmp (kAt d off)) hposlt
        have hszsub : sizeOf (twigGet ts (twigpos bmp (kAt d off))) ≤ fuel := by
          have := sizeOf_twigGet_lt ts (twigpos bmp (kAt d off)) off bmp
          omega
        exact ih qp d _ _ hsub hszsub

/-- C9: copy-on-write isolation.  Modelled from the spec: cow_start
marks every page of the old trie shared (keep positive) and every
transaction write on the new handle evacuates shared vectors before
modifying them, so each step satisfies KeepSafe.  Then the old root
still decodes to the same trie and get through the old handle returns
the same value for every name. -/
theorem claim_C9 {qp qp2 : QPT} {n : PNode} {t : QpNode}
    (hstep : KeepSafe qp qp2) (hD : DecodesK qp n t) :
    DecodesK qp2 n t ∧
    ∀ d fuel, sizeOf t ≤ fuel →
      qp_getH fuel qp2 d n = qp_get d t ∧
      qp_getH fuel qp d n = qp_get d t := by
  have hD2 := DecodesK_mono hstep hD
  exact ⟨hD2, fun d fuel hf =>
    ⟨qp_getH_decodes fuel qp2 d n t hD2 hf, qp_getH_decodes fuel qp d n t hD hf⟩⟩

/-- The two-leaf heap with its vector page marked shared. -/
def qpEx9 : QPT :=
  { qpEx8 with usage := [{ keep := 2, used := 2, free := 0 }] }

theorem claim_C9_witness :
    DecodesK (alloc_resetW qpEx9) qpEx9.root
      (QpNode.branch 0 bmpEx [QpNode.leaf 5 [[0x61]], QpNode.leaf 7 [[0x62]]]) ∧
    qp_getH (sizeOf (QpNode.branch 0 bmpEx
        [QpNode.leaf 5 [[0x61]], QpNode.leaf 7 [[0x62]]]))
      (alloc_resetW qpEx9) [[0x61]] qpEx9.root
      = qp_get [[0x61]]
          (QpNode.branch 0 bmpEx [QpNode.leaf 5 [[0x61]], QpNode.leaf 7 [[0x62]]]) := by
  have hK : KeepSafe qpEx9 (alloc_resetW qpEx9) := by
    intro p hk
    match p with
    | 0 => exact ⟨by decide, by decide⟩
    | m + 1 =>
      exfalso
      rw [List.getD_eq_default _ _ (show qpEx9.usage.length ≤ m + 1 from by
        rw [show qpEx9.usage.length = 1 from by decide]
        omega)] at hk
      exact absurd hk (by decide)
  have hD : DecodesK qpEx9 qpEx9.root
      (QpNode.branch 0 bmpEx [QpNode.leaf 5 [[0x61]], QpNode.leaf 7 [[0x62]]]) := by
    show DecodesK qpEx9 (PNode.pbranch 0 bmpEx
      (allocW qp_initW [PNode.pleaf 5 [[0x61]], PNode.pleaf 7 [[0x62]]]).2) _
    rw [show (allocW qp_initW [PNode.pleaf 5 [[0x61]], PNode.pleaf 7 [[0x62]]]).2 = 0
      from by decide]
    refine DecodesK.branch 0 bmpEx 0
      [QpNode.leaf 5 [[0x61]], QpNode.leaf 7 [[0x62]]]
      [PNode.pleaf 5 [[0x61]], PNode.pleaf 7 [[0x62]]] (by decide) (by decide)
      (by decide) (by decide) ?_
    intro i hi
    have hi2 : i < 2 := by
      rw [show popcnt bmpEx = 2 from by decide] at hi
      exact hi
    match i, hi2 with
    | 0, _ =>
      rw [show (readTwigs qpEx9 0 (popcnt bmpEx)).getD 0 PNode.pzero
        = PNode.pleaf 5 [[0x61]] from by decide]
      exact DecodesK.leaf 5 [[0x61]]
    | 1, _ =>
      rw [show (readTwigs qpEx9 0 (popcnt bmpEx)).getD 1 PNode.pzero
        = PNode.pleaf 7 [[0x62]] from by decide]
      exact DecodesK.leaf 7 [[0x62]]
  obtain ⟨h1, h2⟩ := claim_C9 hK hD
  exact ⟨h1, (h2 [[0x61]] _ (le_refl _)).1⟩

/-- After one qp_compact of the idle two-leaf trie the garbage counter
is not 0: compactify evacuated the sparsely used vector and landfilled
the old copy. -/
theorem claim_C8_counterexample : (qp_compactW 4 qpEx8).garbage ≠ 0 := by
  decide

end Qp
